import Mathlib

/-!
Verification of the pygments `lexers/web.py` rule tables and their engine
contract.

The repository under verification ships the per-language rule tables
(`pygments/lexers/web.py`) and a style file; the generic lexer engine
(`pygments.lexer.RegexLexer` / `ExtendedRegexLexer`) is not part of the
source tree, so the engine here is modelled from the specification
(sections 4.1, 4.2, 4.3 and 7 of the design document), while every rule
table, callback and `analyse_text` heuristic is translated directly from
`web.py`.

Texts are lists of characters; a regular expression is embedded as a
syntactic `Pat` tree whose matcher reproduces the Python `re` backtracking
semantics for the constructs the tables use (ordered alternation, greedy
and lazy repetition with non-empty bodies, lookahead, anchors, word
boundaries, capture groups, IGNORECASE / DOTALL / MULTILINE handling made
explicit at translation time).
-/

set_option maxHeartbeats 1000000

namespace Pyg

/-- Input texts are lists of characters. -/
abbrev Chars := List Char

/-- The half-open slice `t[a:b]` of a text, as in Python. -/
def slice (t : Chars) (a b : Nat) : Chars := (t.take b).drop a

/-- Token categories used by the embedded tables (the relevant part of the
`pygments.token` tree; hierarchy is irrelevant to the claims, so nodes are
flat constructors). -/
inductive Tok where
  | Text
  | Comment | CommentSingle | CommentMultiline | CommentPreproc | CommentSpecial
  | Keyword | KeywordConstant | KeywordDeclaration | KeywordNamespace
  | KeywordReserved | KeywordType
  | Name | NameAttribute | NameBuiltin | NameClass | NameConstant | NameDecorator
  | NameEntity | NameException | NameFunction | NameLabel | NameNamespace
  | NameOther | NamePseudo | NameTag | NameVariable
  | Operator | OperatorWord
  | Punctuation
  | Str | StringDouble | StringSingle | StringRegex | StringOther
  | StringInterpol | StringEscape
  | Number | NumberFloat | NumberHex | NumberInteger
  | Other
  deriving DecidableEq, Repr

/-- One emitted token: `(offset, category, substring)`. -/
structure Token where
  pos : Nat
  cat : Tok
  val : Chars
  deriving DecidableEq, Repr

/-- Python 2 `\w` without locale/unicode flags: `[a-zA-Z0-9_]`. -/
def pyWord (c : Char) : Bool := c.isAlphanum || c == '_'

/-- Python `\s`: `[ \t\n\r\f\v]`. -/
def pySpace (c : Char) : Bool :=
  c == ' ' || c == '\t' || c == '\n' || c == '\r' || c == '\x0b' || c == '\x0c'

/-- Character comparison, optionally case-insensitive (re.IGNORECASE). -/
def chEq (ci : Bool) (a b : Char) : Bool :=
  if ci then a.toLower == b.toLower else a == b

/-- Does the literal `s` occur in `t` starting exactly at `pos`? -/
def litAt : Chars → Bool → Chars → Nat → Bool
  | [], _, _, _ => true
  | c :: rest, ci, t, pos =>
    match t[pos]? with
    | some d => chEq ci c d && litAt rest ci t (pos + 1)
    | none => false

/-- Syntax of the regular-expression fragment used by the tables.
`lit` is a (possibly case-insensitive) literal, `cls` a one-character
class given by its predicate, `dot` is `.` (DOTALL-sensitive), `look` is
`(?=p)` / `(?!p)`, `bol`/`eol` are `^`/`$` (MULTILINE-sensitive), `wordB`
is `\b` / `\B`, and `grp` is a numbered capture group. -/
inductive Pat where
  | eps
  | lit (s : Chars) (ci : Bool)
  | cls (f : Char → Bool)
  | dot (dotall : Bool)
  | seq (p q : Pat)
  | alt (p q : Pat)
  | star (p : Pat) (lazy : Bool)
  | look (p : Pat) (neg : Bool)
  | bol (multiline : Bool)
  | eol (multiline : Bool)
  | wordB (neg : Bool)
  | grp (n : Nat) (p : Pat)

/-- Capture-group record: `(group number, start, stop)`, most recent first. -/
abbrev GMap := List (Nat × Nat × Nat)

/-- Backtracking matcher: all candidate matches of `p` in `t` anchored at
`pos`, as `(stop, groups)` pairs in Python `re` preference order (first
element = the match Python returns).  `fuel` bounds repetition unfolding;
a repetition body that matched zero characters is not repeated (the
tables contain no nullable repetition bodies, so this agrees with `re`). -/
def Pat.runF : Nat → Pat → Chars → Nat → GMap → List (Nat × GMap)
  | _, .eps, _, pos, g => [(pos, g)]
  | _, .lit s ci, t, pos, g =>
    if litAt s ci t pos then [(pos + s.length, g)] else []
  | _, .cls f, t, pos, g =>
    match t[pos]? with
    | some c => if f c then [(pos + 1, g)] else []
    | none => []
  | _, .dot dotall, t, pos, g =>
    match t[pos]? with
    | some c => if dotall || c != '\n' then [(pos + 1, g)] else []
    | none => []
  | fuel, .seq p q, t, pos, g =>
    (Pat.runF fuel p t pos g).flatMap (fun r => Pat.runF fuel q t r.1 r.2)
  | fuel, .alt p q, t, pos, g =>
    Pat.runF fuel p t pos g ++ Pat.runF fuel q t pos g
  | 0, .star _ _, _, pos, g => [(pos, g)]
  | fuel + 1, .star p lz, t, pos, g =>
    let deeper := (Pat.runF (fuel + 1) p t pos g).flatMap
      (fun r => if pos < r.1 then Pat.runF fuel (.star p lz) t r.1 r.2 else [])
    if lz then (pos, g) :: deeper else deeper ++ [(pos, g)]
  | fuel, .look p ng, t, pos, g =>
    match Pat.runF fuel p t pos g with
    | [] => if ng then [(pos, g)] else []
    | r :: _ => if ng then [] else [(pos, r.2)]
  | _, .bol ml, t, pos, g =>
    if pos == 0 || (ml && pos != 0 && t[pos - 1]? == some '\n') then [(pos, g)] else []
  | _, .eol ml, t, pos, g =>
    if (if ml then pos == t.length || t[pos]? == some '\n'
        else pos == t.length || (pos + 1 == t.length && t[pos]? == some '\n'))
    then [(pos, g)] else []
  | _, .wordB ng, t, pos, g =>
    let prev : Bool := if pos == 0 then false else
      match t[pos - 1]? with | some c => pyWord c | none => false
    let next : Bool := match t[pos]? with | some c => pyWord c | none => false
    if (prev != next) != ng then [(pos, g)] else []
  | fuel, .grp n p, t, pos, g =>
    (Pat.runF fuel p t pos g).map (fun r => (r.1, (n, pos, r.1) :: r.2))
  termination_by fuel p => (fuel, sizeOf p)

/-- The match Python `re` returns for `p` anchored at `pos` (or `none`). -/
def matchPat (p : Pat) (t : Chars) (pos : Nat) : Option (Nat × GMap) :=
  (Pat.runF (t.length + 1 - pos) p t pos []).head?

/-- `p+` (greedy unless `lz`). -/
def Pat.plus (p : Pat) (lz : Bool := false) : Pat := .seq p (.star p lz)

/-- `p?` (greedy). -/
def Pat.opt (p : Pat) : Pat := .alt p .eps

/-- Case-sensitive literal from a string. -/
def strP (s : String) : Pat := .lit s.data false

/-- Case-insensitive literal from a string (for tables with re.IGNORECASE). -/
def strCI (s : String) : Pat := .lit s.data true

/-- Character class listing its members. -/
def oneOf (s : String) : Pat := .cls (fun c => s.data.contains c)

/-- Negated character class. -/
def noneOf (s : String) : Pat := .cls (fun c => !s.data.contains c)

/-- Ordered alternation of a list of patterns (empty list never matches,
encoded as an impossible one-character class). -/
def altL (l : List Pat) : Pat :=
  match l with
  | [] => .cls (fun _ => false)
  | [p] => p
  | p :: rest => .alt p (altL rest)

/-- Alternation of case-insensitive literal words, as in the big keyword
regexes `(w1|w2|...)`. -/
def wordsCI (l : List String) : Pat := altL (l.map strCI)

/-- Alternation of case-sensitive literal words. -/
def wordsCS (l : List String) : Pat := altL (l.map strP)

/-- Syntactic guarantee that a pattern can only match at least one
character (used to recognise the rules that always advance the scan
position). -/
def Pat.nn : Pat → Bool
  | .eps => false
  | .lit s _ => decide (s ≠ [])
  | .cls _ => true
  | .dot _ => true
  | .seq p q => p.nn || q.nn
  | .alt p q => p.nn && q.nn
  | .star _ _ => false
  | .look _ _ => false
  | .bol _ => false
  | .eol _ => false
  | .wordB _ => false
  | .grp _ p => p.nn

/-- A capture-group action inside a `bygroups(...)` rule: either a plain
token category or a delegation of the group's text to a sub-lexer
(`using(...)`), the sub-lexer being abstracted as its complete token
function, per the specification's encapsulation contract (section 4.2). -/
inductive GAct where
  | tok (c : Tok)
  | sub (f : Chars → List Token)

/-- Rule actions: emit the whole match, emit the capture groups
(`bygroups`), or delegate the whole match to a sub-lexer (`using`). -/
inductive Action where
  | emit (c : Tok)
  | byGroups (l : List GAct)
  | delegate (f : Chars → List Token)

/-- Elementary state-transition operations (the specification's StackOp
vocabulary, section 4.1): push a named state, push a copy of the top
(`#push`), or pop `n` states (`#pop`, `#pop:2`); a tuple transition such
as `('#pop', 'badregex')` is a list of these applied left to right. -/
inductive SOp where
  | push (s : String)
  | pushSelf
  | pop (n : Nat)
  deriving DecidableEq, Repr

/-- One table rule: pattern, action, optional stack operations. -/
structure Rule where
  pat : Pat
  act : Action
  ops : List SOp := []

/-- A resolved state table: state name to ordered rule list. -/
abbrev Table := String → List Rule

/-- Modelled from the spec: the state stack (top = head here, root at the
end); popping more entries than sit above the root is clamped to leave
exactly the root state (section 4.1 StackOp vocabulary). -/
def applyOp : SOp → List String → List String
  | .push s, st => s :: st
  | .pushSelf, st => st.headD "root" :: st
  | .pop n, st => st.drop (min n (st.length - 1))

/-- Apply a rule's stack operations in order. -/
def applyOps (ops : List SOp) (st : List String) : List String :=
  ops.foldl (fun st op => applyOp op st) st

/-- Tokens of a delegated sub-run, shifted into the outer text
(specification section 4.2: offsets shifted by the delegate's start). -/
def shiftTokens (off : Nat) (ts : List Token) : List Token :=
  ts.map (fun tk => { tk with pos := tk.pos + off })

/-- Span captured by group `n`, if it participated in the match. -/
def groupSpan (g : GMap) (n : Nat) : Option (Nat × Nat) :=
  (g.find? (fun e => e.1 == n)).map (fun e => e.2)

/-- Modelled from the spec: `bygroups` emission (section 3 `EmitGroups`):
group `i` becomes one token at the group's own start offset; groups that
captured no text are skipped silently; a delegate group is sub-tokenized
and shifted by the group's start. -/
def emitGroups (t : Chars) (g : GMap) : List GAct → Nat → List Token
  | [], _ => []
  | ga :: rest, i =>
    let tail := emitGroups t g rest (i + 1)
    match groupSpan g i with
    | none => tail
    | some (s, e) =>
      match ga with
      | .tok c => if s < e then ⟨s, c, slice t s e⟩ :: tail else tail
      | .sub f => shiftTokens s (f (slice t s e)) ++ tail

/-- Modelled from the spec: the triples a matched rule emits
(section 4.1 step 4, section 4.2). -/
def emitAction (t : Chars) (pos stop : Nat) (g : GMap) : Action → List Token
  | .emit c => [⟨pos, c, slice t pos stop⟩]
  | .byGroups l => emitGroups t g l 1
  | .delegate f => shiftTokens pos (f (slice t pos stop))

/-- First rule of the list whose pattern matches at `pos` (ordered
alternation, not longest match — section 4.1 step 2). -/
def firstMatch (rules : List Rule) (t : Chars) (pos : Nat) :
    Option (Rule × Nat × GMap) :=
  match rules with
  | [] => none
  | r :: rest =>
    match matchPat r.pat t pos with
    | some (e, g) => some (r, e, g)
    | none => firstMatch rest t pos

/-- A scanning configuration: current position and state stack. -/
structure Cfg where
  pos : Nat
  stack : List String
  deriving DecidableEq, Repr

/-- Modelled from the spec: one step of the core scanning loop
(section 4.1).  Terminal exactly when the position has reached the end of
the text.  If no rule of the top-of-stack state matches, emit one
one-character fallback token of the generic plain-text category and
advance by one (step 7).  A step that would make no forward progress and
no stack change is treated as if no rule had matched (section 7,
zero-progress rule policy). -/
def stepTok (T : Table) (t : Chars) (c : Cfg) : Option (List Token × Cfg) :=
  if c.pos < t.length then
    match firstMatch (T (c.stack.headD "root")) t c.pos with
    | none =>
      some ([⟨c.pos, Tok.Text, slice t c.pos (c.pos + 1)⟩], ⟨c.pos + 1, c.stack⟩)
    | some (r, stop, g) =>
      let st' := applyOps r.ops c.stack
      if stop = c.pos ∧ st' = c.stack then
        some ([⟨c.pos, Tok.Text, slice t c.pos (c.pos + 1)⟩], ⟨c.pos + 1, c.stack⟩)
      else
        some (emitAction t c.pos stop g r.act, ⟨stop, st'⟩)
  else none

/-- Modelled from the spec: iterate the scanning loop.  The `Bool` result
records whether the scan ran to its terminal configuration within the
given fuel (the engine itself always terminates; fuel only makes the
recursion structural). -/
def runTok (T : Table) (t : Chars) : Nat → Cfg → List Token × Cfg × Bool
  | 0, c => ([], c, false)
  | fuel + 1, c =>
    match stepTok T t c with
    | none => ([], c, true)
    | some (ts, c') =>
      let r := runTok T t fuel c'
      (ts ++ r.1, r.2)

/-- Modelled from the spec: `tokenize(text, initial_stack)`
(section 4.1 contract). -/
def tokenize (T : Table) (t : Chars) (stack : List String) (fuel : Nat) :
    List Token :=
  (runTok T t fuel ⟨0, stack⟩).1

end Pyg

namespace Pyg

theorem getElem?_lt {t : Chars} {pos : Nat} {d : Char} (h : t[pos]? = some d) :
    pos < t.length := (List.getElem?_eq_some_iff.mp h).1

@[simp] theorem runF_eps (fuel : Nat) (t : Chars) (pos : Nat) (g : GMap) :
    Pat.runF fuel .eps t pos g = [(pos, g)] := by cases fuel <;> rw [Pat.runF]

@[simp] theorem runF_lit (fuel : Nat) (s : Chars) (ci : Bool) (t : Chars) (pos : Nat) (g : GMap) :
    Pat.runF fuel (.lit s ci) t pos g =
      (if litAt s ci t pos then [(pos + s.length, g)] else []) := by cases fuel <;> rw [Pat.runF]

@[simp] theorem runF_cls (fuel : Nat) (f : Char -> Bool) (t : Chars) (pos : Nat) (g : GMap) :
    Pat.runF fuel (.cls f) t pos g =
      (match t[pos]? with
       | some c => if f c then [(pos + 1, g)] else []
       | none => []) := by cases fuel <;> rw [Pat.runF]

@[simp] theorem runF_dot (fuel : Nat) (da : Bool) (t : Chars) (pos : Nat) (g : GMap) :
    Pat.runF fuel (.dot da) t pos g =
      (match t[pos]? with
       | some c => if da || c != '\n' then [(pos + 1, g)] else []
       | none => []) := by cases fuel <;> rw [Pat.runF]

@[simp] theorem runF_seq (fuel : Nat) (p q : Pat) (t : Chars) (pos : Nat) (g : GMap) :
    Pat.runF fuel (.seq p q) t pos g =
      (Pat.runF fuel p t pos g).flatMap (fun r => Pat.runF fuel q t r.1 r.2) := by
  cases fuel <;> rw [Pat.runF]

@[simp] theorem runF_alt (fuel : Nat) (p q : Pat) (t : Chars) (pos : Nat) (g : GMap) :
    Pat.runF fuel (.alt p q) t pos g =
      Pat.runF fuel p t pos g ++ Pat.runF fuel q t pos g := by cases fuel <;> rw [Pat.runF]

theorem runF_star_succ (fuel : Nat) (p : Pat) (lz : Bool) (t : Chars) (pos : Nat) (g : GMap) :
    Pat.runF (fuel + 1) (.star p lz) t pos g =
      (let deeper := (Pat.runF (fuel + 1) p t pos g).flatMap
        (fun r => if pos < r.1 then Pat.runF fuel (.star p lz) t r.1 r.2 else [])
       if lz then (pos, g) :: deeper else deeper ++ [(pos, g)]) := by rw [Pat.runF]

@[simp] theorem runF_star_zero (p : Pat) (lz : Bool) (t : Chars) (pos : Nat) (g : GMap) :
    Pat.runF 0 (.star p lz) t pos g = [(pos, g)] := by rw [Pat.runF]

@[simp] theorem runF_look (fuel : Nat) (p : Pat) (ng : Bool) (t : Chars) (pos : Nat) (g : GMap) :
    Pat.runF fuel (.look p ng) t pos g =
      (match Pat.runF fuel p t pos g with
       | [] => if ng then [(pos, g)] else []
       | r :: _ => if ng then [] else [(pos, r.2)]) := by cases fuel <;> rw [Pat.runF]

@[simp] theorem runF_bol (fuel : Nat) (ml : Bool) (t : Chars) (pos : Nat) (g : GMap) :
    Pat.runF fuel (.bol ml) t pos g =
      (if pos == 0 || (ml && pos != 0 && t[pos - 1]? == some '\n') then [(pos, g)] else []) := by
  cases fuel <;> rw [Pat.runF]

@[simp] theorem runF_eol (fuel : Nat) (ml : Bool) (t : Chars) (pos : Nat) (g : GMap) :
    Pat.runF fuel (.eol ml) t pos g =
      (if (if ml then pos == t.length || t[pos]? == some '\n'
           else pos == t.length || (pos + 1 == t.length && t[pos]? == some '\n'))
       then [(pos, g)] else []) := by cases fuel <;> rw [Pat.runF]

@[simp] theorem runF_wordB (fuel : Nat) (ng : Bool) (t : Chars) (pos : Nat) (g : GMap) :
    Pat.runF fuel (.wordB ng) t pos g =
      (let prev : Bool := if pos == 0 then false else
        match t[pos - 1]? with | some c => pyWord c | none => false
       let next : Bool := match t[pos]? with | some c => pyWord c | none => false
       if (prev != next) != ng then [(pos, g)] else []) := by cases fuel <;> rw [Pat.runF]

@[simp] theorem runF_grp (fuel : Nat) (n : Nat) (p : Pat) (t : Chars) (pos : Nat) (g : GMap) :
    Pat.runF fuel (.grp n p) t pos g =
      (Pat.runF fuel p t pos g).map (fun r => (r.1, (n, pos, r.1) :: r.2)) := by
  cases fuel <;> rw [Pat.runF]

end Pyg

namespace Pyg

/-- Every candidate match stops at or after the anchor position. -/
theorem runF_ge (fuel : Nat) :
    ∀ (p : Pat) (t : Chars) (pos : Nat) (g : GMap) (r : Nat × GMap),
      r ∈ Pat.runF fuel p t pos g → pos ≤ r.1 := by
  induction fuel using Nat.strong_induction_on with
  | _ fuel ihf =>
  intro p
  induction p with
  | eps => intro t pos g r h; simp at h; subst h; simp
  | lit s ci =>
    intro t pos g r h
    simp only [runF_lit] at h
    split at h <;> simp_all
  | cls f =>
    intro t pos g r h
    simp only [runF_cls] at h
    rcases hq : t[pos]? with _ | c <;> rw [hq] at h
    · simp at h
    · split at h <;> simp_all
  | dot da =>
    intro t pos g r h
    simp only [runF_dot] at h
    rcases hq : t[pos]? with _ | c <;> rw [hq] at h
    · simp at h
    · split at h <;> simp_all
  | seq p q ihp ihq =>
    intro t pos g r h
    simp only [runF_seq, List.mem_flatMap] at h
    obtain ⟨a, ha, hr⟩ := h
    exact le_trans (ihp t pos g a ha) (ihq t a.1 a.2 r hr)
  | alt p q ihp ihq =>
    intro t pos g r h
    simp only [runF_alt, List.mem_append] at h
    rcases h with h | h
    · exact ihp t pos g r h
    · exact ihq t pos g r h
  | star p lz ihp =>
    intro t pos g r h
    match fuel, ihf, h with
    | 0, _, h => simp at h; subst h; simp
    | fuel' + 1, ihf, h =>
      rw [runF_star_succ] at h
      simp only at h
      have hdeeper : ∀ x ∈ (Pat.runF (fuel' + 1) p t pos g).flatMap
          (fun r => if pos < r.1 then Pat.runF fuel' (.star p lz) t r.1 r.2 else []),
          pos ≤ x.1 := by
        intro x hx
        rw [List.mem_flatMap] at hx
        obtain ⟨a, ha, hx⟩ := hx
        split at hx
        · have h2 := ihf fuel' (by omega) (.star p lz) t a.1 a.2 x hx
          omega
        · simp at hx
      split at h
      · rcases List.mem_cons.mp h with h | h
        · subst h; simp
        · exact hdeeper r h
      · rcases List.mem_append.mp h with h | h
        · exact hdeeper r h
        · simp at h; subst h; simp
  | look p ng ihp =>
    intro t pos g r h
    simp only [runF_look] at h
    rcases hm : Pat.runF fuel p t pos g with _ | ⟨a, rest⟩ <;> rw [hm] at h <;>
      split at h <;> simp_all
  | bol ml =>
    intro t pos g r h
    simp only [runF_bol] at h
    split at h <;> simp_all
  | eol ml =>
    intro t pos g r h
    simp only [runF_eol] at h
    split at h <;> simp_all
  | wordB ng =>
    intro t pos g r h
    simp only [runF_wordB] at h
    split at h <;> simp_all
  | grp n p ihp =>
    intro t pos g r h
    simp only [runF_grp, List.mem_map] at h
    obtain ⟨a, ha, hr⟩ := h
    have := ihp t pos g a ha
    subst hr
    simpa using this

end Pyg

namespace Pyg

theorem litAt_bounds :
    ∀ (s : Chars) (ci : Bool) (t : Chars) (pos : Nat),
      pos ≤ t.length → litAt s ci t pos = true → pos + s.length ≤ t.length := by
  intro s
  induction s with
  | nil => intro ci t pos hp _; simpa
  | cons c rest ih =>
    intro ci t pos hp h
    unfold litAt at h
    cases hq : t[pos]? with
    | none => rw [hq] at h; simp at h
    | some d =>
      rw [hq] at h
      rw [Bool.and_eq_true] at h
      have h3 := getElem?_lt hq
      have h2 := ih ci t (pos + 1) (by omega) h.2
      simp only [List.length_cons]
      omega

/-- Candidate matches never run past the end of the text. -/
theorem runF_le (fuel : Nat) :
    ∀ (p : Pat) (t : Chars) (pos : Nat) (g : GMap) (r : Nat × GMap),
      pos ≤ t.length → r ∈ Pat.runF fuel p t pos g → r.1 ≤ t.length := by
  induction fuel using Nat.strong_induction_on with
  | _ fuel ihf =>
  intro p
  induction p with
  | eps => intro t pos g r hp h; simp at h; subst h; simpa
  | lit s ci =>
    intro t pos g r hp h
    simp only [runF_lit] at h
    split at h <;> simp_all
    rename_i hl
    have := litAt_bounds s ci t pos hp hl
    omega
  | cls f =>
    intro t pos g r hp h
    simp only [runF_cls] at h
    rcases hq : t[pos]? with _ | c <;> rw [hq] at h
    · simp at h
    · have := getElem?_lt hq
      split at h <;> simp_all
      omega
  | dot da =>
    intro t pos g r hp h
    simp only [runF_dot] at h
    rcases hq : t[pos]? with _ | c <;> rw [hq] at h
    · simp at h
    · have := getElem?_lt hq
      split at h <;> simp_all
      omega
  | seq p q ihp ihq =>
    intro t pos g r hp h
    simp only [runF_seq, List.mem_flatMap] at h
    obtain ⟨a, ha, hr⟩ := h
    exact ihq t a.1 a.2 r (ihp t pos g a hp ha) hr
  | alt p q ihp ihq =>
    intro t pos g r hp h
    simp only [runF_alt, List.mem_append] at h
    rcases h with h | h
    · exact ihp t pos g r hp h
    · exact ihq t pos g r hp h
  | star p lz ihp =>
    intro t pos g r hp h
    match fuel, ihf, h with
    | 0, _, h => simp at h; subst h; simpa
    | fuel' + 1, ihf, h =>
      rw [runF_star_succ] at h
      simp only at h
      have hdeeper : ∀ x ∈ (Pat.runF (fuel' + 1) p t pos g).flatMap
          (fun r => if pos < r.1 then Pat.runF fuel' (.star p lz) t r.1 r.2 else []),
          x.1 ≤ t.length := by
        intro x hx
        rw [List.mem_flatMap] at hx
        obtain ⟨a, ha, hx⟩ := hx
        split at hx
        · exact ihf fuel' (by omega) (.star p lz) t a.1 a.2 x (ihp t pos g a hp ha) hx
        · simp at hx
      split at h
      · rcases List.mem_cons.mp h with h | h
        · subst h; simpa
        · exact hdeeper r h
      · rcases List.mem_append.mp h with h | h
        · exact hdeeper r h
        · simp at h; subst h; simpa
  | look p ng ihp =>
    intro t pos g r hp h
    simp only [runF_look] at h
    rcases hm : Pat.runF fuel p t pos g with _ | ⟨a, rest⟩ <;> rw [hm] at h <;>
      split at h <;> simp_all
  | bol ml =>
    intro t pos g r hp h
    simp only [runF_bol] at h
    split at h <;> simp_all
  | eol ml =>
    intro t pos g r hp h
    simp only [runF_eol] at h
    split at h <;> simp_all
  | wordB ng =>
    intro t pos g r hp h
    simp only [runF_wordB] at h
    split at h <;> simp_all
  | grp n p ihp =>
    intro t pos g r hp h
    simp only [runF_grp, List.mem_map] at h
    obtain ⟨a, ha, hr⟩ := h
    have := ihp t pos g a hp ha
    subst hr
    simpa using this

/-- A syntactically non-nullable pattern consumes at least one character. -/
theorem runF_nn (fuel : Nat) :
    ∀ (p : Pat) (t : Chars) (pos : Nat) (g : GMap) (r : Nat × GMap),
      p.nn = true → r ∈ Pat.runF fuel p t pos g → pos < r.1 := by
  intro p
  induction p with
  | eps => intro t pos g r hnn h; simp [Pat.nn] at hnn
  | lit s ci =>
    intro t pos g r hnn h
    simp only [Pat.nn, decide_eq_true_eq] at hnn
    simp only [runF_lit] at h
    split at h <;> simp_all
    have : s.length ≠ 0 := by simpa using hnn
    omega
  | cls f =>
    intro t pos g r hnn h
    simp only [runF_cls] at h
    rcases hq : t[pos]? with _ | c <;> rw [hq] at h
    · simp at h
    · split at h <;> simp_all
  | dot da =>
    intro t pos g r hnn h
    simp only [runF_dot] at h
    rcases hq : t[pos]? with _ | c <;> rw [hq] at h
    · simp at h
    · split at h <;> simp_all
  | seq p q ihp ihq =>
    intro t pos g r hnn h
    simp only [Pat.nn, Bool.or_eq_true] at hnn
    simp only [runF_seq, List.mem_flatMap] at h
    obtain ⟨a, ha, hr⟩ := h
    rcases hnn with hnn | hnn
    · exact lt_of_lt_of_le (ihp t pos g a hnn ha) (runF_ge fuel q t a.1 a.2 r hr)
    · exact lt_of_le_of_lt (runF_ge fuel p t pos g a ha) (ihq t a.1 a.2 r hnn hr)
  | alt p q ihp ihq =>
    intro t pos g r hnn h
    simp only [Pat.nn, Bool.and_eq_true] at hnn
    simp only [runF_alt, List.mem_append] at h
    rcases h with h | h
    · exact ihp t pos g r hnn.1 h
    · exact ihq t pos g r hnn.2 h
  | star p lz ihp => intro t pos g r hnn h; simp [Pat.nn] at hnn
  | look p ng ihp => intro t pos g r hnn h; simp [Pat.nn] at hnn
  | bol ml => intro t pos g r hnn h; simp [Pat.nn] at hnn
  | eol ml => intro t pos g r hnn h; simp [Pat.nn] at hnn
  | wordB ng => intro t pos g r hnn h; simp [Pat.nn] at hnn
  | grp n p ihp =>
    intro t pos g r hnn h
    simp only [Pat.nn] at hnn
    simp only [runF_grp, List.mem_map] at h
    obtain ⟨a, ha, hr⟩ := h
    have := ihp t pos g a hnn ha
    subst hr
    simpa using this

/-- Bounds for the returned match. -/
theorem matchPat_ge {p : Pat} {t : Chars} {pos stop : Nat} {g : GMap}
    (h : matchPat p t pos = some (stop, g)) : pos ≤ stop := by
  unfold matchPat at h
  rcases hm : Pat.runF (t.length + 1 - pos) p t pos [] with _ | ⟨a, rest⟩ <;>
    rw [hm] at h <;> simp at h
  have := runF_ge (t.length + 1 - pos) p t pos [] a (by simp [hm])
  subst h
  simpa using this

theorem matchPat_le {p : Pat} {t : Chars} {pos stop : Nat} {g : GMap}
    (hp : pos ≤ t.length) (h : matchPat p t pos = some (stop, g)) : stop ≤ t.length := by
  unfold matchPat at h
  rcases hm : Pat.runF (t.length + 1 - pos) p t pos [] with _ | ⟨a, rest⟩ <;>
    rw [hm] at h <;> simp at h
  have := runF_le (t.length + 1 - pos) p t pos [] a hp (by simp [hm])
  subst h
  simpa using this

theorem matchPat_nn {p : Pat} {t : Chars} {pos stop : Nat} {g : GMap}
    (hnn : p.nn = true) (h : matchPat p t pos = some (stop, g)) : pos < stop := by
  unfold matchPat at h
  rcases hm : Pat.runF (t.length + 1 - pos) p t pos [] with _ | ⟨a, rest⟩ <;>
    rw [hm] at h <;> simp at h
  have := runF_nn (t.length + 1 - pos) p t pos [] a hnn (by simp [hm])
  subst h
  simpa using this

end Pyg

namespace Pyg

@[simp] theorem firstMatch_nil (t : Chars) (pos : Nat) : firstMatch [] t pos = none := rfl

theorem firstMatch_cons (r : Rule) (rest : List Rule) (t : Chars) (pos : Nat) :
    firstMatch (r :: rest) t pos =
      (match matchPat r.pat t pos with
       | some (e, g) => some (r, e, g)
       | none => firstMatch rest t pos) := rfl

/-- The returned rule belongs to the list and its pattern matched. -/
theorem firstMatch_spec :
    ∀ (rules : List Rule) (t : Chars) (pos : Nat) (r : Rule) (e : Nat) (g : GMap),
      firstMatch rules t pos = some (r, e, g) →
      r ∈ rules ∧ matchPat r.pat t pos = some (e, g) := by
  intro rules
  induction rules with
  | nil => intro t pos r e g h; simp at h
  | cons r0 rest ih =>
    intro t pos r e g h
    rw [firstMatch_cons] at h
    rcases hm : matchPat r0.pat t pos with _ | ⟨e0, g0⟩ <;> rw [hm] at h
    · have := ih t pos r e g h
      exact ⟨List.mem_cons.2 (Or.inr this.1), this.2⟩
    · simp only [Option.some.injEq, Prod.mk.injEq] at h
      obtain ⟨h1, h2, h3⟩ := h
      subst h1; subst h2; subst h3
      exact ⟨List.mem_cons_self _ _, hm⟩

theorem applyOp_ne_nil (op : SOp) (st : List String) (h : st ≠ []) :
    applyOp op st ≠ [] := by
  cases op with
  | push s => simp [applyOp]
  | pushSelf => simp [applyOp]
  | pop n =>
    simp only [applyOp]
    have hl : 0 < st.length := List.length_pos.mpr h
    intro hc
    have hlen := congrArg List.length hc
    rw [List.length_drop] at hlen
    simp at hlen
    omega

theorem applyOps_ne_nil (ops : List SOp) :
    ∀ st : List String, st ≠ [] → applyOps ops st ≠ [] := by
  induction ops with
  | nil => intro st h; simpa [applyOps]
  | cons op rest ih =>
    intro st h
    have : applyOps (op :: rest) st = applyOps rest (applyOp op st) := rfl
    rw [this]
    exact ih _ (applyOp_ne_nil op st h)

theorem drop_length_sub_one {α : Type} (l : List α) (h : l ≠ []) :
    l.drop (l.length - 1) = [l.getLast h] := by
  induction l with
  | nil => simp at h
  | cons a rest ih =>
    cases rest with
    | nil => simp
    | cons b r2 =>
      have hne : (b :: r2 : List α) ≠ [] := by simp
      have : (a :: b :: r2 : List α).length - 1 = (b :: r2 : List α).length := by simp
      rw [this]
      have hstep : (a :: b :: r2 : List α).drop ((b :: r2 : List α).length) =
          (b :: r2 : List α).drop ((b :: r2 : List α).length - 1) := by
        simp [List.drop]
      rw [hstep, ih hne]
      simp [List.getLast_cons]

/-- The specification's clamping policy: popping at least as many states
as sit above the root leaves exactly the root state. -/
theorem applyOp_pop_clamp (n : Nat) (st : List String) (h : st ≠ [])
    (hn : st.length - 1 ≤ n) : applyOp (.pop n) st = [st.getLast h] := by
  simp only [applyOp]
  rw [min_eq_right hn]
  exact drop_length_sub_one st h

/-- One engine step never empties the stack. -/
theorem stepTok_stack_ne_nil {T : Table} {t : Chars} {c : Cfg} {ts : List Token} {c' : Cfg}
    (hne : c.stack ≠ []) (h : stepTok T t c = some (ts, c')) : c'.stack ≠ [] := by
  unfold stepTok at h
  split at h
  · rcases hm : firstMatch (T (c.stack.headD "root")) t c.pos with _ | ⟨r, stop, g⟩ <;>
      rw [hm] at h
    · simp only [Option.some.injEq, Prod.mk.injEq] at h
      rw [← h.2]
      exact hne
    · simp only at h
      split at h <;> simp only [Option.some.injEq, Prod.mk.injEq] at h <;> rw [← h.2]
      · exact hne
      · exact applyOps_ne_nil r.ops c.stack hne
  · simp at h

/-- One engine step does not move the position backwards. -/
theorem stepTok_pos_mono {T : Table} {t : Chars} {c : Cfg} {ts : List Token} {c' : Cfg}
    (h : stepTok T t c = some (ts, c')) : c.pos ≤ c'.pos := by
  unfold stepTok at h
  split at h
  · rcases hm : firstMatch (T (c.stack.headD "root")) t c.pos with _ | ⟨r, stop, g⟩ <;>
      rw [hm] at h
    · simp only [Option.some.injEq, Prod.mk.injEq] at h
      rw [← h.2]
      simp
    · simp only at h
      split at h <;> simp only [Option.some.injEq, Prod.mk.injEq] at h <;> rw [← h.2]
      · simp
      · exact matchPat_ge (firstMatch_spec _ t c.pos r stop g hm).2
  · simp at h

/-- One engine step stays within the text. -/
theorem stepTok_pos_le {T : Table} {t : Chars} {c : Cfg} {ts : List Token} {c' : Cfg}
    (hp : c.pos ≤ t.length) (h : stepTok T t c = some (ts, c')) : c'.pos ≤ t.length := by
  unfold stepTok at h
  split at h
  · rename_i hlt
    rcases hm : firstMatch (T (c.stack.headD "root")) t c.pos with _ | ⟨r, stop, g⟩ <;>
      rw [hm] at h
    · simp only [Option.some.injEq, Prod.mk.injEq] at h
      rw [← h.2]
      simpa using hlt
    · simp only at h
      split at h <;> simp only [Option.some.injEq, Prod.mk.injEq] at h <;> rw [← h.2]
      · simpa using hlt
      · exact matchPat_le hp (firstMatch_spec _ t c.pos r stop g hm).2
  · simp at h

/-- Progress: every step advances the position or mutates the stack
(specification sections 4.1 step 3 and 7). -/
theorem stepTok_progress {T : Table} {t : Chars} {c : Cfg} {ts : List Token} {c' : Cfg}
    (h : stepTok T t c = some (ts, c')) : c.pos < c'.pos ∨ c'.stack ≠ c.stack := by
  unfold stepTok at h
  split at h
  · rcases hm : firstMatch (T (c.stack.headD "root")) t c.pos with _ | ⟨r, stop, g⟩ <;>
      rw [hm] at h
    · simp only [Option.some.injEq, Prod.mk.injEq] at h
      rw [← h.2]
      left; simp
    · simp only at h
      split at h <;> simp only [Option.some.injEq, Prod.mk.injEq] at h <;> rw [← h.2]
      · left; simp
      · rename_i hcond
        have hge := matchPat_ge (firstMatch_spec _ t c.pos r stop g hm).2
        rw [not_and_or] at hcond
        rcases hcond with hc | hc
        · left; simp only; omega
        · right; simpa using hc
  · simp at h

/-- The scan is terminal exactly when the position has reached the end. -/
theorem stepTok_none_iff {T : Table} {t : Chars} {c : Cfg} :
    stepTok T t c = none ↔ t.length ≤ c.pos := by
  unfold stepTok
  split
  · rename_i hlt
    constructor
    · intro h
      rcases hm : firstMatch (T (c.stack.headD "root")) t c.pos with _ | ⟨r, stop, g⟩ <;>
        rw [hm] at h <;> simp at h
      split at h <;> simp at h
    · intro h; omega
  · rename_i h; simp; omega

end Pyg

namespace Pyg

theorem slice_length {t : Chars} {a b : Nat} (hab : a ≤ b) (hb : b ≤ t.length) :
    (slice t a b).length = b - a := by
  simp [slice, List.length_drop]
  omega

theorem slice_append {t : Chars} {a m b : Nat} (h1 : a ≤ m) (h2 : m ≤ b) :
    slice t a m ++ slice t m b = slice t a b := by
  unfold slice
  have htake : t.take m = (t.take b).take m := by
    rw [List.take_take, min_eq_left h2]
  rw [htake]
  have hdrop : (t.take b).drop m = ((t.take b).drop a).drop (m - a) := by
    rw [List.drop_drop]
    congr 1
    omega
  have hdt : ((t.take b).take m).drop a = ((t.take b).drop a).take (m - a) := by
    rw [List.drop_take]
  rw [hdrop, hdt, List.take_append_drop]

/-- Concatenation of the emitted substrings. -/
def valsConcat (ts : List Token) : Chars := (ts.map Token.val).flatten

@[simp] theorem valsConcat_nil : valsConcat [] = [] := rfl

@[simp] theorem valsConcat_cons (tk : Token) (ts : List Token) :
    valsConcat (tk :: ts) = tk.val ++ valsConcat ts := rfl

theorem valsConcat_append (ts us : List Token) :
    valsConcat (ts ++ us) = valsConcat ts ++ valsConcat us := by
  simp [valsConcat]

theorem valsConcat_shift (off : Nat) (ts : List Token) :
    valsConcat (shiftTokens off ts) = valsConcat ts := by
  induction ts with
  | nil => rfl
  | cons tk rest ih => simp [shiftTokens] at ih ⊢; simp [valsConcat] at ih ⊢; exact ih

/-- Offsets are contiguous from `a` to `b`: each token sits at the running
position and advances it by its own length. -/
def offsetsChain : List Token → Nat → Nat → Prop
  | [], a, b => a = b
  | tk :: rest, a, b => tk.pos = a ∧ offsetsChain rest (a + tk.val.length) b

theorem offsetsChain_le : ∀ (ts : List Token) (a b : Nat), offsetsChain ts a b → a ≤ b := by
  intro ts
  induction ts with
  | nil => intro a b h; simp [offsetsChain] at h; omega
  | cons tk rest ih =>
    intro a b h
    obtain ⟨h1, h2⟩ := h
    have := ih _ _ h2
    omega

theorem offsetsChain_append :
    ∀ (ts us : List Token) (a m b : Nat),
      offsetsChain ts a m → offsetsChain us m b → offsetsChain (ts ++ us) a b := by
  intro ts
  induction ts with
  | nil => intro us a m b h1 h2; simp [offsetsChain] at h1; subst h1; simpa using h2
  | cons tk rest ih =>
    intro us a m b h1 h2
    obtain ⟨ha, hc⟩ := h1
    exact ⟨ha, ih us _ m b hc h2⟩

theorem offsetsChain_shift :
    ∀ (ts : List Token) (x y off : Nat),
      offsetsChain ts x y → offsetsChain (shiftTokens off ts) (x + off) (y + off) := by
  intro ts
  induction ts with
  | nil => intro x y off h; simp [offsetsChain, shiftTokens] at h ⊢; omega
  | cons tk rest ih =>
    intro x y off h
    obtain ⟨h1, h2⟩ := h
    refine ⟨by simp [h1], ?_⟩
    have := ih _ y off h2
    simpa [Nat.add_right_comm] using this

/-- The emitted tokens of one region: substring concatenation equals the
slice and offsets are contiguous. -/
def coversSpan (t : Chars) (ts : List Token) (a b : Nat) : Prop :=
  valsConcat ts = slice t a b ∧ offsetsChain ts a b

theorem coversSpan_append {t : Chars} {ts us : List Token} {a m b : Nat}
    (h1 : coversSpan t ts a m) (h2 : coversSpan t us m b) :
    coversSpan t (ts ++ us) a b := by
  obtain ⟨hv1, hc1⟩ := h1
  obtain ⟨hv2, hc2⟩ := h2
  constructor
  · rw [valsConcat_append, hv1, hv2,
      slice_append (offsetsChain_le _ _ _ hc1) (offsetsChain_le _ _ _ hc2)]
  · exact offsetsChain_append _ _ _ _ _ hc1 hc2

theorem coversSpan_empty (t : Chars) (a : Nat) : coversSpan t [] a a := by
  constructor
  · simp [slice]
  · simp [offsetsChain]

/-- A single token holding the slice `[a, b)` covers it. -/
theorem coversSpan_single {t : Chars} {a b : Nat} (c : Tok) (hab : a ≤ b)
    (hb : b ≤ t.length) : coversSpan t [⟨a, c, slice t a b⟩] a b := by
  constructor
  · simp [valsConcat]
  · refine ⟨rfl, ?_⟩
    simp only [offsetsChain]
    rw [slice_length hab hb]
    omega

/-- A delegated sub-run shifted to start at `a` covers `[a, b)` when the
sub-run covers its own input string. -/
theorem coversSpan_shift {t : Chars} {a b : Nat} {f : Chars → List Token}
    (hab : a ≤ b) (hb : b ≤ t.length)
    (hf : valsConcat (f (slice t a b)) = slice t a b ∧
          offsetsChain (f (slice t a b)) 0 (slice t a b).length) :
    coversSpan t (shiftTokens a (f (slice t a b))) a b := by
  constructor
  · rw [valsConcat_shift]
    exact hf.1
  · have := offsetsChain_shift _ _ _ a hf.2
    rw [slice_length hab hb] at this
    simpa [Nat.sub_add_cancel hab] using this

end Pyg

namespace Pyg

/-- A delegate sub-lexer satisfies the coverage invariant over its own
input (specification section 3, final invariant). -/
def SubCovers (f : Chars → List Token) : Prop :=
  ∀ s : Chars, valsConcat (f s) = s ∧ offsetsChain (f s) 0 s.length

def GActOK : GAct → Prop
  | .tok _ => True
  | .sub f => SubCovers f

/-- The captured groups consumed by a `bygroups` action tile the whole
match `[a, b)`: participating groups are contiguous and in order,
non-participating groups contribute nothing. -/
def gTile (g : GMap) : List GAct → Nat → Nat → Nat → Prop
  | [], _, a, b => a = b
  | _ :: rest, i, a, b =>
    match groupSpan g i with
    | none => gTile g rest (i + 1) a b
    | some (s, e) => s = a ∧ a ≤ e ∧ gTile g rest (i + 1) e b

/-- Well-formedness of one rule for the coverage invariant: delegates
cover their input and `bygroups` matches tile their span. -/
def RuleOK (r : Rule) : Prop :=
  (∀ f, r.act = .delegate f → SubCovers f) ∧
  (∀ l, r.act = .byGroups l →
    (∀ ga ∈ l, GActOK ga) ∧
    ∀ (t : Chars) (pos stop : Nat) (g : GMap), pos ≤ t.length →
      matchPat r.pat t pos = some (stop, g) → gTile g l 1 pos stop)

def TableOK (T : Table) : Prop := ∀ s : String, ∀ r ∈ T s, RuleOK r

theorem gTile_le {g : GMap} :
    ∀ (l : List GAct) (i a b : Nat), gTile g l i a b → a ≤ b := by
  intro l
  induction l with
  | nil => intro i a b h; simp [gTile] at h; omega
  | cons ga rest ih =>
    intro i a b h
    simp only [gTile] at h
    rcases hs : groupSpan g i with _ | ⟨s, e⟩ <;> rw [hs] at h
    · exact ih _ _ _ h
    · obtain ⟨h1, h2, h3⟩ := h
      have := ih _ _ _ h3
      omega

theorem emitGroups_covers {t : Chars} {g : GMap} :
    ∀ (l : List GAct) (i a b : Nat),
      (∀ ga ∈ l, GActOK ga) → gTile g l i a b → b ≤ t.length →
      coversSpan t (emitGroups t g l i) a b := by
  intro l
  induction l with
  | nil =>
    intro i a b _ htile _
    simp only [gTile] at htile
    subst htile
    simpa [emitGroups] using coversSpan_empty t a
  | cons ga rest ih =>
    intro i a b hok htile hb
    simp only [gTile] at htile
    rcases hs : groupSpan g i with _ | ⟨s, e⟩ <;> rw [hs] at htile
    · simp only [emitGroups, hs]
      exact ih _ a b (fun x hx => hok x (List.mem_cons.2 (Or.inr hx))) htile hb
    · obtain ⟨h1, h2, h3⟩ := htile
      subst h1
      have hble : e ≤ b := gTile_le rest _ _ _ h3
      have htail := ih _ e b (fun x hx => hok x (List.mem_cons.2 (Or.inr hx))) h3 hb
      cases ga with
      | tok c =>
        simp only [emitGroups, hs]
        by_cases hse : s < e
        · rw [if_pos hse]
          exact coversSpan_append (coversSpan_single c (le_of_lt hse) (by omega)) htail
        · rw [if_neg hse]
          have : e = s := by omega
          subst this
          exact htail
      | sub f =>
        simp only [emitGroups, hs]
        have hsub : SubCovers f := hok (.sub f) (List.mem_cons.2 (Or.inl rfl))
        refine coversSpan_append (coversSpan_shift h2 (by omega) ?_) htail
        exact hsub (slice t s e)

/-- One engine step covers exactly the span it advances over. -/
theorem stepTok_covers {T : Table} {t : Chars} {c : Cfg} {ts : List Token} {c' : Cfg}
    (hT : TableOK T) (hp : c.pos ≤ t.length) (h : stepTok T t c = some (ts, c')) :
    coversSpan t ts c.pos c'.pos := by
  unfold stepTok at h
  split at h
  · rename_i hlt
    rcases hm : firstMatch (T (c.stack.headD "root")) t c.pos with _ | ⟨r, stop, g⟩ <;>
      rw [hm] at h
    · simp only [Option.some.injEq, Prod.mk.injEq] at h
      rw [← h.1, ← h.2]
      exact coversSpan_single _ (by omega) (by omega)
    · simp only at h
      obtain ⟨hmem, hmp⟩ := firstMatch_spec _ t c.pos r stop g hm
      have hge := matchPat_ge hmp
      have hle := matchPat_le hp hmp
      split at h <;> simp only [Option.some.injEq, Prod.mk.injEq] at h <;>
        rw [← h.1, ← h.2]
      · exact coversSpan_single _ (by omega) (by omega)
      · obtain ⟨hdel, hbg⟩ := hT _ r hmem
        cases hact : r.act with
        | emit cat =>
          simp only [emitAction]
          exact coversSpan_single cat hge hle
        | byGroups l =>
          simp only [emitAction]
          obtain ⟨hok, htile⟩ := hbg l hact
          exact emitGroups_covers l 1 c.pos stop hok (htile t c.pos stop g hp hmp) hle
        | delegate f =>
          simp only [emitAction]
          exact coversSpan_shift hge hle (hdel f hact (slice t c.pos stop))
  · simp at h

end Pyg

namespace Pyg

/-- Full-run coverage: the tokens produced from configuration `c` cover
exactly the span from `c.pos` to the final position, which never exceeds
the end of the text, and equals it whenever the run completed. -/
theorem runTok_covers {T : Table} {t : Chars} (hT : TableOK T) :
    ∀ (fuel : Nat) (c : Cfg), c.pos ≤ t.length →
      coversSpan t (runTok T t fuel c).1 c.pos (runTok T t fuel c).2.1.pos ∧
      (runTok T t fuel c).2.1.pos ≤ t.length ∧
      ((runTok T t fuel c).2.2 = true → (runTok T t fuel c).2.1.pos = t.length) := by
  intro fuel
  induction fuel with
  | zero =>
    intro c hp
    refine ⟨coversSpan_empty t c.pos, hp, ?_⟩
    simp [runTok]
  | succ fuel ih =>
    intro c hp
    rcases hs : stepTok T t c with _ | ⟨ts, c'⟩
    · have hterm : t.length ≤ c.pos := stepTok_none_iff.mp hs
      simp only [runTok, hs]
      exact ⟨coversSpan_empty t c.pos, hp, fun _ => by omega⟩
    · have hp' : c'.pos ≤ t.length := stepTok_pos_le hp hs
      have hcov := stepTok_covers hT hp hs
      have hrest := ih c' hp'
      simp only [runTok, hs]
      exact ⟨coversSpan_append hcov hrest.1, hrest.2.1, hrest.2.2⟩

/-- Configurations reachable by the scanning loop. -/
inductive Reach (T : Table) (t : Chars) : Cfg → Cfg → Prop
  | refl (c : Cfg) : Reach T t c c
  | step {a b c : Cfg} (h : Reach T t a b) (ts : List Token)
      (hs : stepTok T t b = some (ts, c)) : Reach T t a c

theorem Reach.stack_ne_nil {T : Table} {t : Chars} {a b : Cfg}
    (h : Reach T t a b) (ha : a.stack ≠ []) : b.stack ≠ [] := by
  induction h with
  | refl => exact ha
  | step h ts hs ih => exact stepTok_stack_ne_nil ih hs

theorem Reach.pos_le {T : Table} {t : Chars} {a b : Cfg}
    (h : Reach T t a b) (ha : a.pos ≤ t.length) : b.pos ≤ t.length := by
  induction h with
  | refl => exact ha
  | step h ts hs ih => exact stepTok_pos_le ih hs

/-- Positional contiguity restated per index, as in the testable property
`offset[i] + len(text[i]) == offset[i+1]`. -/
theorem offsetsChain_index :
    ∀ (ts : List Token) (a b : Nat), offsetsChain ts a b →
      ∀ (i : Nat) (hi : i + 1 < ts.length),
        (ts.get ⟨i, by omega⟩).pos + (ts.get ⟨i, by omega⟩).val.length =
        (ts.get ⟨i + 1, hi⟩).pos := by
  intro ts
  induction ts with
  | nil => intro a b h i hi; simp at hi
  | cons tk rest ih =>
    intro a b h i hi
    obtain ⟨h1, h2⟩ := h
    cases i with
    | zero =>
      cases rest with
      | nil => simp at hi
      | cons tk2 r2 =>
        obtain ⟨h3, _⟩ := h2
        simp [h1, h3]
    | succ j =>
      have := ih _ b h2 j (by simpa using hi)
      simpa using this

theorem offsetsChain_head :
    ∀ (ts : List Token) (a b : Nat), offsetsChain ts a b → ∀ h : ts ≠ [],
      (ts.head h).pos = a := by
  intro ts
  cases ts with
  | nil => intro a b h hne; simp at hne
  | cons tk rest => intro a b h hne; exact h.1

end Pyg

namespace Pyg

@[simp] theorem slice_all (t : Chars) : slice t 0 t.length = t := by simp [slice]

/-- The fallback path: when no rule of the current state matches, the
engine emits exactly one one-character plain-text token and advances by
one (specification section 4.1 step 7). -/
theorem stepTok_fallback {T : Table} {t : Chars} {c : Cfg}
    (hlt : c.pos < t.length)
    (hm : firstMatch (T (c.stack.headD "root")) t c.pos = none) :
    stepTok T t c =
      some ([⟨c.pos, Tok.Text, slice t c.pos (c.pos + 1)⟩], ⟨c.pos + 1, c.stack⟩) := by
  unfold stepTok
  rw [if_pos hlt, hm]

/-- A zero-length match carrying no stack operation is treated exactly
like "no rule matched": the engine falls through to the one-character
fallback (specification section 7, zero-progress rule). -/
theorem stepTok_zero_noop {T : Table} {t : Chars} {c : Cfg} {r : Rule} {g : GMap}
    (hlt : c.pos < t.length)
    (hm : firstMatch (T (c.stack.headD "root")) t c.pos = some (r, c.pos, g))
    (hops : r.ops = []) :
    stepTok T t c =
      some ([⟨c.pos, Tok.Text, slice t c.pos (c.pos + 1)⟩], ⟨c.pos + 1, c.stack⟩) := by
  unfold stepTok
  rw [if_pos hlt, hm]
  simp [hops, applyOps]

/-- An accepted matching step: the emitted tokens and successor
configuration, in terms of the matched rule. -/
theorem stepTok_match {T : Table} {t : Chars} {c : Cfg} {r : Rule} {stop : Nat} {g : GMap}
    (hlt : c.pos < t.length)
    (hm : firstMatch (T (c.stack.headD "root")) t c.pos = some (r, stop, g))
    (hpr : ¬(stop = c.pos ∧ applyOps r.ops c.stack = c.stack)) :
    stepTok T t c =
      some (emitAction t c.pos stop g r.act, ⟨stop, applyOps r.ops c.stack⟩) := by
  unfold stepTok
  rw [if_pos hlt, hm]
  simp only
  rw [if_neg hpr]

/-- Unfolding one run step. -/
theorem runTok_succ_of_step {T : Table} {t : Chars} {c : Cfg} {ts : List Token} {c' : Cfg}
    (fuel : Nat) (h : stepTok T t c = some (ts, c')) :
    runTok T t (fuel + 1) c =
      (ts ++ (runTok T t fuel c').1, (runTok T t fuel c').2) := by
  simp [runTok, h]

end Pyg

namespace Pyg

/-- Sequencing of a list of patterns. -/
def seqL (l : List Pat) : Pat :=
  match l with
  | [] => .eps
  | [p] => p
  | p :: rest => .seq p (seqL rest)

/-- `'` (spelled by code point to keep the sources plain). -/
def sq : Char := Char.ofNat 39

namespace XmlLexer

/-- `[a-zA-Z0-9:._-]` / `[a-zA-Z0-9_.:-]`: XML tag and attribute name
characters. -/
def nameChar (c : Char) : Bool :=
  c.isAlphanum || c == ':' || c == '.' || c == '_' || c == '-'

/-- `XmlLexer.tokens['root']` (web.py lines 838-847;
flags = re.MULTILINE | re.DOTALL). -/
def root : List Rule :=
  [ ⟨Pat.plus (noneOf "<&"), .emit .Text, []⟩,
    ⟨seqL [strP "&", .star (.cls (fun c => !pySpace c)) true, strP ";"],
      .emit .NameEntity, []⟩,
    ⟨seqL [strP "<![CDATA[", .star (.dot true) true, strP "]]>"],
      .emit .CommentPreproc, []⟩,
    ⟨strP "<!--", .emit .Comment, [.push "comment"]⟩,
    ⟨seqL [strP "<?", .star (.dot true) true, strP "?>"], .emit .CommentPreproc, []⟩,
    ⟨seqL [strP "<!", .star (noneOf ">") false, strP ">"], .emit .CommentPreproc, []⟩,
    ⟨seqL [strP "<", .star (.cls pySpace) false, Pat.plus (.cls nameChar)],
      .emit .NameTag, [.push "tag"]⟩,
    ⟨seqL [strP "<", .star (.cls pySpace) false, strP "/", .star (.cls pySpace) false,
           Pat.plus (.cls nameChar), .star (.cls pySpace) false, strP ">"],
      .emit .NameTag, []⟩ ]

/-- `XmlLexer.tokens['comment']` (web.py lines 848-852). -/
def comment : List Rule :=
  [ ⟨Pat.plus (noneOf "-"), .emit .Comment, []⟩,
    ⟨strP "-->", .emit .Comment, [.pop 1]⟩,
    ⟨strP "-", .emit .Comment, []⟩ ]

/-- `XmlLexer.tokens['tag']` (web.py lines 853-857). -/
def tag : List Rule :=
  [ ⟨Pat.plus (.cls pySpace), .emit .Text, []⟩,
    ⟨seqL [Pat.plus (.cls nameChar), .star (.cls pySpace) false, strP "="],
      .emit .NameAttribute, [.push "attr"]⟩,
    ⟨seqL [Pat.opt (strP "/"), .star (.cls pySpace) false, strP ">"],
      .emit .NameTag, [.pop 1]⟩ ]

/-- `XmlLexer.tokens['attr']` (web.py lines 858-863). -/
def attr : List Rule :=
  [ ⟨Pat.plus (.cls pySpace), .emit .Text, []⟩,
    ⟨seqL [strP "\"", .star (.dot true) true, strP "\""], .emit .Str, [.pop 1]⟩,
    ⟨seqL [.lit [sq] false, .star (.dot true) true, .lit [sq] false], .emit .Str, [.pop 1]⟩,
    ⟨Pat.plus (.cls (fun c => !pySpace c && c != '>')), .emit .Str, [.pop 1]⟩ ]

/-- `XmlLexer.tokens` as a state table. -/
def tokens : Table := fun s =>
  if s = "root" then root
  else if s = "comment" then comment
  else if s = "tag" then tag
  else if s = "attr" then attr
  else []

end XmlLexer

end Pyg


namespace Pyg

/-- Modelled from the spec: a raw state-table entry before inclusion
resolution (section 3, StateTable): an ordinary rule or an
`include('name')` marker. -/
inductive Entry where
  | rule (r : Rule)
  | incl (s : String)

/-- A raw state table, before inclusion resolution. -/
abbrev RawTable := String → List Entry

/-- Modelled from the spec: recursive inlining of `Include` entries at
table-construction time (section 3); `fuel` bounds inclusion depth, so a
reference cycle is rejected with `none` (section 7, malformed table). -/
def resolveEntries (RT : RawTable) : Nat → List Entry → Option (List Rule)
  | _, [] => some []
  | fuel, .rule r :: rest => (resolveEntries RT fuel rest).map (fun l => r :: l)
  | 0, .incl _ :: _ => none
  | fuel + 1, .incl s :: rest => do
      let a ← resolveEntries RT fuel (RT s)
      let b ← resolveEntries RT (fuel + 1) rest
      pure (a ++ b)
  termination_by fuel l => (fuel, l.length)

/-- Resolved rule list of one state. -/
def resolveState (RT : RawTable) (fuel : Nat) (s : String) : Option (List Rule) :=
  resolveEntries RT fuel (RT s)

/-- The resolved table handed to the engine. -/
def resolveTable (RT : RawTable) (fuel : Nat) : Table :=
  fun s => (resolveState RT fuel s).getD []

/-- `p{0,n}` (greedy bounded repetition). -/
def upTo (p : Pat) : Nat → Pat
  | 0 => .eps
  | n + 1 => Pat.opt (.seq p (upTo p n))

namespace CssLexer

/-- `[a-zA-Z0-9_-]` (CSS identifier characters). -/
def ident (c : Char) : Bool := c.isAlphanum || c == '_' || c == '-'

/-- `"(\\\\|\\"|[^"])*"` (the capture group is irrelevant to an
`Emit` action and is left unmaterialized). -/
def dqString : Pat :=
  seqL [strP "\"", .star (altL [strP "\\\\", strP "\\\"", noneOf "\""]) false, strP "\""]

/-- The single-quoted twin of `dqString`. -/
def sqString : Pat :=
  seqL [.lit [sq] false,
        .star (altL [strP "\\\\", .lit ['\\', sq] false, .cls (fun c => c != sq)]) false,
        .lit [sq] false]

/-- The CSS property/value keyword alternation of
`CssLexer.tokens['content']` (web.py lines 297-353), split around the
one non-literal alternative `overflow(?:-x|-y|)`. -/
def contentKw1 : List String :=
  [ "azimuth", "background-attachment", "background-color",
    "background-image", "background-position", "background-repeat",
    "background", "border-bottom-color", "border-bottom-style",
    "border-bottom-width", "border-left-color", "border-left-style",
    "border-left-width", "border-right", "border-right-color",
    "border-right-style", "border-right-width", "border-top-color",
    "border-top-style", "border-top-width", "border-bottom",
    "border-collapse", "border-left", "border-width", "border-color",
    "border-spacing", "border-style", "border-top", "border", "caption-side",
    "clear", "clip", "color", "content", "counter-increment",
    "counter-reset", "cue-after", "cue-before", "cue", "cursor", "direction",
    "display", "elevation", "empty-cells", "float", "font-family",
    "font-size", "font-size-adjust", "font-stretch", "font-style",
    "font-variant", "font-weight", "font", "height", "letter-spacing",
    "line-height", "list-style-type", "list-style-image",
    "list-style-position", "list-style", "margin-bottom", "margin-left",
    "margin-right", "margin-top", "margin", "marker-offset", "marks",
    "max-height", "max-width", "min-height", "min-width", "opacity",
    "orphans", "outline", "outline-color", "outline-style", "outline-width" ]

def contentKw2 : List String :=
  [ "padding-bottom", "padding-left", "padding-right", "padding-top",
    "padding", "page", "page-break-after", "page-break-before",
    "page-break-inside", "pause-after", "pause-before", "pause", "pitch",
    "pitch-range", "play-during", "position", "quotes", "richness", "right",
    "size", "speak-header", "speak-numeral", "speak-punctuation", "speak",
    "speech-rate", "stress", "table-layout", "text-align", "text-decoration",
    "text-indent", "text-shadow", "text-transform", "top", "unicode-bidi",
    "vertical-align", "visibility", "voice-family", "volume", "white-space",
    "widows", "width", "word-spacing", "z-index", "bottom", "left", "above",
    "absolute", "always", "armenian", "aural", "auto", "avoid", "baseline",
    "behind", "below", "bidi-override", "blink", "block", "bold", "bolder",
    "both", "capitalize", "center-left", "center-right", "center", "circle",
    "cjk-ideographic", "close-quote", "collapse", "condensed", "continuous",
    "crop", "crosshair", "cross", "cursive", "dashed",
    "decimal-leading-zero", "decimal", "default", "digits", "disc", "dotted",
    "double", "e-resize", "embed", "extra-condensed", "extra-expanded",
    "expanded", "fantasy", "far-left", "far-right", "faster", "fast",
    "fixed", "georgian", "groove", "hebrew", "help", "hidden", "hide",
    "higher", "high", "hiragana-iroha", "hiragana", "icon", "inherit",
    "inline-table", "inline", "inset", "inside", "invert", "italic",
    "justify", "katakana-iroha", "katakana", "landscape", "larger", "large",
    "left-side", "leftwards", "level", "lighter", "line-through",
    "list-item", "loud", "lower-alpha", "lower-greek", "lower-roman",
    "lowercase", "ltr", "lower", "low", "medium", "message-box", "middle",
    "mix", "monospace", "n-resize", "narrower", "ne-resize",
    "no-close-quote", "no-open-quote", "no-repeat", "none", "normal",
    "nowrap", "nw-resize", "oblique", "once", "open-quote", "outset",
    "outside", "overline", "pointer", "portrait", "px", "relative",
    "repeat-x", "repeat-y", "repeat", "rgb", "ridge", "right-side",
    "rightwards", "s-resize", "sans-serif", "scroll", "se-resize",
    "semi-condensed", "semi-expanded", "separate", "serif", "show", "silent",
    "slow", "slower", "small-caps", "small-caption", "smaller", "soft",
    "solid", "spell-out", "square", "static", "status-bar", "super",
    "sw-resize", "table-caption", "table-cell", "table-column",
    "table-column-group", "table-footer-group", "table-header-group",
    "table-row", "table-row-group", "text", "text-bottom", "text-top",
    "thick", "thin", "transparent", "ultra-condensed", "ultra-expanded",
    "underline", "upper-alpha", "upper-latin", "upper-roman", "uppercase",
    "url", "visible", "w-resize", "wait", "wider", "x-fast", "x-high",
    "x-large", "x-loud", "x-low", "x-small", "x-soft", "xx-large",
    "xx-small", "yes" ]

/-- The CSS colour-name alternation (web.py lines 354-378). -/
def colorWords : List String :=
  [ "indigo", "gold", "firebrick", "indianred", "yellow", "darkolivegreen",
    "darkseagreen", "mediumvioletred", "mediumorchid", "chartreuse",
    "mediumslateblue", "black", "springgreen", "crimson", "lightsalmon",
    "brown", "turquoise", "olivedrab", "cyan", "silver", "skyblue", "gray",
    "darkturquoise", "goldenrod", "darkgreen", "darkviolet", "darkgray",
    "lightpink", "teal", "darkmagenta", "lightgoldenrodyellow", "lavender",
    "yellowgreen", "thistle", "violet", "navy", "orchid", "blue",
    "ghostwhite", "honeydew", "cornflowerblue", "darkblue", "darkkhaki",
    "mediumpurple", "cornsilk", "red", "bisque", "slategray", "darkcyan",
    "khaki", "wheat", "deepskyblue", "darkred", "steelblue", "aliceblue",
    "gainsboro", "mediumturquoise", "floralwhite", "coral", "purple",
    "lightgrey", "lightcyan", "darksalmon", "beige", "azure",
    "lightsteelblue", "oldlace", "greenyellow", "royalblue", "lightseagreen",
    "mistyrose", "sienna", "lightcoral", "orangered", "navajowhite", "lime",
    "palegreen", "burlywood", "seashell", "mediumspringgreen", "fuchsia",
    "papayawhip", "blanchedalmond", "peru", "aquamarine", "white",
    "darkslategray", "ivory", "dodgerblue", "lemonchiffon", "chocolate",
    "orange", "forestgreen", "slateblue", "olive", "mintcream",
    "antiquewhite", "darkorange", "cadetblue", "moccasin", "limegreen",
    "saddlebrown", "darkslateblue", "lightskyblue", "deeppink", "plum",
    "aqua", "darkgoldenrod", "maroon", "sandybrown", "magenta", "tan",
    "rosybrown", "pink", "lightblue", "palevioletred", "mediumseagreen",
    "dimgray", "powderblue", "seagreen", "snow", "mediumblue",
    "midnightblue", "paleturquoise", "palegoldenrod", "whitesmoke",
    "darkorchid", "salmon", "lightslategray", "lawngreen", "lightgreen",
    "tomato", "hotpink", "lightyellow", "lavenderblush", "linen",
    "mediumaquamarine", "green", "blueviolet", "peachpuff" ]


/-- `CssLexer.tokens['basics']` (web.py lines 270-282); CssLexer sets no
`flags`, so the engine default `re.MULTILINE` applies and matching is
case-sensitive. -/
def basics : List Entry :=
  [ .rule ⟨Pat.plus (.cls pySpace), .emit .Text, []⟩,
    .rule ⟨seqL [strP "/*", .star (.alt (.dot false) (strP "\n")) true, strP "*/"],
      .emit .Comment, []⟩,
    .rule ⟨strP "\x7b", .emit .Punctuation, [.push "content"]⟩,
    .rule ⟨.seq (strP ":") (Pat.plus (.cls ident)), .emit .NameDecorator, []⟩,
    .rule ⟨.seq (strP ".") (Pat.plus (.cls ident)), .emit .NameClass, []⟩,
    .rule ⟨.seq (strP "#") (Pat.plus (.cls ident)), .emit .NameFunction, []⟩,
    .rule ⟨.seq (strP "@") (Pat.plus (.cls ident)), .emit .Keyword, [.push "atrule"]⟩,
    .rule ⟨Pat.plus (.cls ident), .emit .NameTag, []⟩,
    .rule ⟨oneOf "~^*!%&[]()<>|+=@:;,./?-", .emit .Operator, []⟩,
    .rule ⟨dqString, .emit .StringDouble, []⟩,
    .rule ⟨sqString, .emit .StringSingle, []⟩ ]

/-- `CssLexer.tokens['root']` (web.py lines 267-269): exactly
`[include('basics')]`. -/
def root : List Entry := [.incl "basics"]

/-- `CssLexer.tokens['atrule']` (web.py lines 283-287). -/
def atrule : List Entry :=
  [ .rule ⟨strP "\x7b", .emit .Punctuation, [.push "atcontent"]⟩,
    .rule ⟨strP ";", .emit .Punctuation, [.pop 1]⟩,
    .incl "basics" ]

/-- `CssLexer.tokens['atcontent']` (web.py lines 288-291). -/
def atcontent : List Entry :=
  [ .incl "basics",
    .rule ⟨strP "\x7d", .emit .Punctuation, [.pop 2]⟩ ]

/-- `CssLexer.tokens['content']` (web.py lines 292-389). -/
def content : List Entry :=
  [ .rule ⟨Pat.plus (.cls pySpace), .emit .Text, []⟩,
    .rule ⟨strP "\x7d", .emit .Punctuation, [.pop 1]⟩,
    .rule ⟨seqL [strP "url(", .star (.dot false) true, strP ")"], .emit .StringOther, []⟩,
    .rule ⟨seqL [.bol true, strP "@", .star (.dot false) true, .eol true],
      .emit .CommentPreproc, []⟩,
    .rule ⟨.seq (altL (contentKw1.map strP ++
        [.seq (strP "overflow") (.alt (strP "-x") (.alt (strP "-y") .eps))] ++
        contentKw2.map strP)) (.wordB false), .emit .Keyword, []⟩,
    .rule ⟨.seq (wordsCS colorWords) (.wordB false), .emit .NameBuiltin, []⟩,
    .rule ⟨strP "!important", .emit .CommentPreproc, []⟩,
    .rule ⟨seqL [strP "/*", .star (.alt (.dot false) (strP "\n")) true, strP "*/"],
      .emit .Comment, []⟩,
    .rule ⟨.seq (strP "#") (.seq (.cls Char.isAlphanum) (upTo (.cls Char.isAlphanum) 5)),
      .emit .Number, []⟩,
    .rule ⟨seqL [Pat.opt (oneOf ".-"), .star (.cls Char.isDigit) false, Pat.opt (strP "."),
                 Pat.plus (.cls Char.isDigit),
                 altL [strP "em", strP "px", strP "%", strP "pt", strP "pc", strP "in",
                       strP "mm", strP "cm", strP "ex"]], .emit .Number, []⟩,
    .rule ⟨.seq (Pat.opt (strP "-")) (Pat.plus (.cls Char.isDigit)), .emit .Number, []⟩,
    .rule ⟨Pat.plus (oneOf "~^*!%&<>|+=@:,./?-"), .emit .Operator, []⟩,
    .rule ⟨Pat.plus (oneOf "[]();"), .emit .Punctuation, []⟩,
    .rule ⟨dqString, .emit .StringDouble, []⟩,
    .rule ⟨sqString, .emit .StringSingle, []⟩,
    .rule ⟨.seq (.cls Char.isAlpha) (Pat.plus (.cls Char.isAlphanum)), .emit .Name, []⟩ ]

/-- The raw `CssLexer.tokens` dictionary. -/
def tokensRaw : RawTable := fun s =>
  if s = "root" then root
  else if s = "basics" then basics
  else if s = "atrule" then atrule
  else if s = "atcontent" then atcontent
  else if s = "content" then content
  else []

/-- The resolved CssLexer table (inclusion depth 1 suffices; 4 is safe). -/
def tokens : Table := resolveTable tokensRaw 4

/-- The comparison table of claim C7: identical raw table except that the
root entry list is literally the basics rule list. -/
def tokensRawInl : RawTable := fun s => if s = "root" then basics else tokensRaw s

/-- Its resolved form. -/
def tokensInl : Table := resolveTable tokensRawInl 4

end CssLexer

end Pyg


namespace Pyg

/-- Entries without inclusion markers. -/
def noIncl : List Entry → Bool
  | [] => true
  | .rule _ :: rest => noIncl rest
  | .incl _ :: _ => false

/-- The plain rules of an entry list. -/
def rulesOf : List Entry → List Rule
  | [] => []
  | .rule r :: rest => r :: rulesOf rest
  | .incl _ :: rest => rulesOf rest

theorem resolveEntries_no_incl {RT : RawTable} :
    ∀ (l : List Entry), noIncl l = true → ∀ fuel : Nat,
      resolveEntries RT fuel l = some (rulesOf l) := by
  intro l
  induction l with
  | nil => intro _ fuel; cases fuel <;> simp [resolveEntries, rulesOf]
  | cons e rest ih =>
    intro h fuel
    cases e with
    | rule r =>
      have hr : noIncl rest = true := by simpa [noIncl] using h
      cases fuel <;> simp [resolveEntries, rulesOf, ih hr]
    | incl s => simp [noIncl] at h

/-- Inclusion resolution inlines the included state's rules: a state whose
entry list is exactly `[include(u)]` resolves to `u`'s resolved rules. -/
theorem resolveState_single_incl {RT : RawTable} {s u : String} (fuel : Nat)
    (h : RT s = [.incl u]) :
    resolveState RT (fuel + 1) s = resolveState RT fuel u := by
  unfold resolveState
  rw [h]
  rcases ha : resolveEntries RT fuel (RT u) with _ | a <;>
    simp [resolveEntries, ha]

/-- Resolution only depends on the raw table at included names; two raw
tables that agree (with inclusion-free bodies) on every name an entry list
includes resolve it identically. -/
theorem resolveEntries_agree {RT1 RT2 : RawTable} :
    ∀ (fuel : Nat) (l : List Entry),
      (∀ nm, Entry.incl nm ∈ l → RT1 nm = RT2 nm ∧ noIncl (RT1 nm) = true) →
      resolveEntries RT1 fuel l = resolveEntries RT2 fuel l := by
  intro fuel
  induction fuel with
  | zero =>
    intro l
    induction l with
    | nil => intro _; simp [resolveEntries]
    | cons e rest ih =>
      intro h
      cases e with
      | rule r =>
        have := ih (fun nm hm => h nm (List.mem_cons.2 (Or.inr hm)))
        simp [resolveEntries, this]
      | incl s => simp [resolveEntries]
  | succ fuel ihf =>
    intro l
    induction l with
    | nil => intro _; simp [resolveEntries]
    | cons e rest ih =>
      intro h
      cases e with
      | rule r =>
        have := ih (fun nm hm => h nm (List.mem_cons.2 (Or.inr hm)))
        simp [resolveEntries, this]
      | incl s =>
        obtain ⟨heq, hni⟩ := h s (List.mem_cons.2 (Or.inl rfl))
        have ha1 : resolveEntries RT1 fuel (RT1 s) = some (rulesOf (RT1 s)) :=
          resolveEntries_no_incl (RT1 s) hni fuel
        have ha2 : resolveEntries RT2 fuel (RT2 s) = some (rulesOf (RT2 s)) := by
          rw [← heq]
          exact resolveEntries_no_incl (RT1 s) hni fuel
        have hrest := ih (fun nm hm => h nm (List.mem_cons.2 (Or.inr hm)))
        have ha1' : resolveEntries RT1 fuel (RT2 s) = some (rulesOf (RT2 s)) := by
          rw [← heq]; exact ha1
        simp [resolveEntries, ha1', ha2, hrest, heq]

/-- The engine only consults the table extensionally. -/
theorem stepTok_ext {T1 T2 : Table} (h : ∀ s, T1 s = T2 s) (t : Chars) (c : Cfg) :
    stepTok T1 t c = stepTok T2 t c := by
  unfold stepTok
  rw [h]

theorem runTok_ext {T1 T2 : Table} (h : ∀ s, T1 s = T2 s) (t : Chars) :
    ∀ (fuel : Nat) (c : Cfg), runTok T1 t fuel c = runTok T2 t fuel c := by
  intro fuel
  induction fuel with
  | zero => intro c; rfl
  | succ fuel ih =>
    intro c
    simp only [runTok, stepTok_ext h t c]
    rcases stepTok T2 t c with _ | ⟨ts, c'⟩
    · rfl
    · simp [ih]

end Pyg

namespace Pyg

theorem css_noIncl_basics : noIncl CssLexer.basics = true := rfl

theorem css_raw_root : CssLexer.tokensRaw "root" = [.incl "basics"] := rfl

/-- The resolved CssLexer table and its root-inlined variant agree on
every state. -/
theorem css_tokens_eq : ∀ s, CssLexer.tokens s = CssLexer.tokensInl s := by
  intro s
  by_cases h : s = "root"
  · subst h
    show (resolveState CssLexer.tokensRaw 4 "root").getD [] =
      (resolveState CssLexer.tokensRawInl 4 "root").getD []
    rw [resolveState_single_incl 3 css_raw_root]
    have h1 : resolveState CssLexer.tokensRaw 3 "basics" = some (rulesOf CssLexer.basics) := by
      show resolveEntries CssLexer.tokensRaw 3 (CssLexer.tokensRaw "basics") =
        some (rulesOf CssLexer.basics)
      have : CssLexer.tokensRaw "basics" = CssLexer.basics := rfl
      rw [this]
      exact resolveEntries_no_incl _ css_noIncl_basics 3
    have h2 : resolveState CssLexer.tokensRawInl 4 "root" = some (rulesOf CssLexer.basics) := by
      show resolveEntries CssLexer.tokensRawInl 4 (CssLexer.tokensRawInl "root") =
        some (rulesOf CssLexer.basics)
      have : CssLexer.tokensRawInl "root" = CssLexer.basics := rfl
      rw [this]
      exact resolveEntries_no_incl _ css_noIncl_basics 4
    rw [h1, h2]
  · have hincl : ∀ nm, Entry.incl nm ∈ CssLexer.tokensRaw s → nm = "basics" := by
      intro nm hm
      unfold CssLexer.tokensRaw at hm
      split_ifs at hm <;>
        simp [CssLexer.root, CssLexer.basics, CssLexer.atrule,
              CssLexer.atcontent, CssLexer.content] at hm <;> exact hm
    have hagree := @resolveEntries_agree CssLexer.tokensRaw
      CssLexer.tokensRawInl 4 (CssLexer.tokensRaw s)
      (fun nm hm => by
        have hb := hincl nm hm
        subst hb
        exact ⟨rfl, rfl⟩)
    show (resolveState CssLexer.tokensRaw 4 s).getD [] =
      (resolveState CssLexer.tokensRawInl 4 s).getD []
    unfold resolveState
    have hs : CssLexer.tokensRawInl s = CssLexer.tokensRaw s := by
      unfold CssLexer.tokensRawInl
      rw [if_neg h]
    rw [hs, hagree]

end Pyg

namespace Pyg

namespace JavascriptLexer

/-- JavaScript keywords (web.py lines 65-67). -/
def kwWords : List String :=
  [ "for", "in", "while", "do", "break", "return", "continue", "switch",
    "case", "default", "if", "else", "throw", "try", "catch", "finally",
    "new", "delete", "typeof", "instanceof", "void", "this" ]

/-- JavaScript declaration keywords (web.py line 68). -/
def declWords : List String :=
  [ "var", "with", "function" ]

/-- JavaScript reserved words (web.py lines 69-72). -/
def reservedWords : List String :=
  [ "abstract", "boolean", "byte", "char", "class", "const", "debugger",
    "double", "enum", "export", "extends", "final", "float", "goto",
    "implements", "import", "int", "interface", "long", "native", "package",
    "private", "protected", "public", "short", "static", "super",
    "synchronized", "throws", "transient", "volatile" ]

/-- JavaScript constants (web.py line 73). -/
def constWords : List String :=
  [ "true", "false", "null", "NaN", "Infinity", "undefined" ]

/-- JavaScript builtins (web.py lines 74-78; the source lists Error twice). -/
def builtinWords : List String :=
  [ "Array", "Boolean", "Date", "Error", "Function", "Math", "netscape",
    "Number", "Object", "Packages", "RegExp", "String", "sun", "decodeURI",
    "decodeURIComponent", "encodeURI", "encodeURIComponent", "Error", "eval",
    "isFinite", "isNaN", "parseFloat", "parseInt", "document", "this",
    "window" ]

/-- `[$a-zA-Z_]`. -/
def idStart (c : Char) : Bool := c == '$' || c.isAlpha || c == '_'

/-- `[a-zA-Z0-9_]`. -/
def idCont (c : Char) : Bool := c.isAlphanum || c == '_'

/-- `[0-9a-fA-F]`. -/
def hexDigit (c : Char) : Bool :=
  c.isDigit || ('a' <= c && c <= 'f') || ('A' <= c && c <= 'F')

/-- `\s+` (web.py line 43). -/
def rWs : Rule := ⟨Pat.plus (.cls pySpace), .emit .Text, []⟩

/-- `<!--` (line 44). -/
def rHtmlComment : Rule := ⟨strP "<!--", .emit .Comment, []⟩

/-- `//.*?\n` (line 45, DOTALL). -/
def rCommentSingle : Rule :=
  ⟨seqL [strP "//", .star (.dot true) true, strP "\n"], .emit .CommentSingle, []⟩

/-- `/\*.*?\*/` (line 46, DOTALL). -/
def rCommentMulti : Rule :=
  ⟨seqL [strP "/*", .star (.dot true) true, strP "*/"], .emit .CommentMultiline, []⟩

/-- `/(\\.|[^[/\\\n]|\[(\\.|[^\]\\\n])*])+/([gim]+\b|\B)` (lines 50-51);
the emit-irrelevant capture groups are left unmaterialized. -/
def regexLitPat : Pat :=
  seqL [strP "/",
        Pat.plus (altL
          [ .seq (strP "\\") (.dot true),
            .cls (fun c => !(c == '[' || c == '/' || c == '\\' || c == '\n')),
            seqL [strP "[",
                  .star (.alt (.seq (strP "\\") (.dot true))
                              (.cls (fun c => !(c == ']' || c == '\\' || c == '\n')))) false,
                  strP "]"] ]),
        strP "/",
        .alt (.seq (Pat.plus (oneOf "gim")) (.wordB false)) (.wordB true)]

def rRegexLit : Rule := ⟨regexLitPat, .emit .StringRegex, [.pop 1]⟩

/-- `(?=/)` with transition `('#pop', 'badregex')` (line 52). -/
def rLookSlash : Rule := ⟨.look (strP "/") false, .emit .Text, [.pop 1, .push "badregex"]⟩

/-- `r''` with transition `'#pop'` (line 53): the zero-width
unconditional pop. -/
def rEmptyPop : Rule := ⟨.eps, .emit .Text, [.pop 1]⟩

/-- `'\n'` with `'#pop'` (line 56). -/
def rBadregexNl : Rule := ⟨strP "\n", .emit .Text, [.pop 1]⟩

/-- `^(?=\s|/|<!--)` (line 59); flags = re.DOTALL only, so `^` anchors at
position 0 only. -/
def rBolLook : Rule :=
  ⟨.seq (.bol false) (.look (altL [.cls pySpace, strP "/", strP "<!--"]) false),
   .emit .Text, [.push "slashstartsregex"]⟩

/-- The operator alternation of lines 61-62. -/
def operatorPat : Pat :=
  altL [strP "++", strP "--", strP "~", strP "&&", strP "?", strP ":", strP "||",
        .seq (strP "\\") (.look (strP "\n") false),
        .seq (altL [strP "<<", .seq (strP ">>") (Pat.opt (strP ">")),
                    .seq (strP "=") (Pat.opt (strP "=")),
                    .seq (strP "!") (Pat.opt (strP "=")),
                    oneOf "-<>+*%&|^/"])
             (Pat.opt (strP "="))]

def rOperator : Rule := ⟨operatorPat, .emit .Operator, [.push "slashstartsregex"]⟩

/-- `[{(\[;,]` (line 63). -/
def rPunctOpen : Rule := ⟨oneOf "\x7b([;,", .emit .Punctuation, [.push "slashstartsregex"]⟩

/-- `[})\].]` (line 64). -/
def rPunctClose : Rule := ⟨oneOf "\x7d)].", .emit .Punctuation, []⟩

def rKeyword : Rule :=
  ⟨.seq (wordsCS kwWords) (.wordB false), .emit .Keyword, [.push "slashstartsregex"]⟩

def rDecl : Rule :=
  ⟨.seq (wordsCS declWords) (.wordB false), .emit .KeywordDeclaration,
   [.push "slashstartsregex"]⟩

def rReserved : Rule :=
  ⟨.seq (wordsCS reservedWords) (.wordB false), .emit .KeywordReserved, []⟩

def rConst : Rule := ⟨.seq (wordsCS constWords) (.wordB false), .emit .KeywordConstant, []⟩

def rBuiltin : Rule := ⟨.seq (wordsCS builtinWords) (.wordB false), .emit .NameBuiltin, []⟩

/-- `[$a-zA-Z_][a-zA-Z0-9_]*` (line 79). -/
def rNameOther : Rule :=
  ⟨.seq (.cls idStart) (.star (.cls idCont) false), .emit .NameOther, []⟩

/-- `[0-9][0-9]*\.[0-9]+([eE][0-9]+)?[fd]?` (line 80). -/
def rFloat : Rule :=
  ⟨seqL [.cls Char.isDigit, .star (.cls Char.isDigit) false, strP ".",
         Pat.plus (.cls Char.isDigit),
         Pat.opt (.seq (oneOf "eE") (Pat.plus (.cls Char.isDigit))),
         Pat.opt (oneOf "fd")], .emit .NumberFloat, []⟩

/-- `0x[0-9a-fA-F]+` (line 81). -/
def rHex : Rule := ⟨.seq (strP "0x") (Pat.plus (.cls hexDigit)), .emit .NumberHex, []⟩

/-- `[0-9]+` (line 82). -/
def rInt : Rule := ⟨Pat.plus (.cls Char.isDigit), .emit .NumberInteger, []⟩

/-- `"(\\\\|\\"|[^"])*"` (line 83). -/
def rStringDq : Rule :=
  ⟨seqL [strP "\"", .star (altL [strP "\\\\", strP "\\\"", noneOf "\""]) false, strP "\""],
   .emit .StringDouble, []⟩

/-- The single-quoted twin (line 84). -/
def rStringSq : Rule :=
  ⟨seqL [.lit [sq] false,
         .star (altL [strP "\\\\", .lit ['\\', sq] false, .cls (fun c => c != sq)]) false,
         .lit [sq] false],
   .emit .StringSingle, []⟩

/-- `JavascriptLexer.tokens['commentsandwhitespace']` (lines 42-47). -/
def commentsandwhitespace : List Entry :=
  [.rule rWs, .rule rHtmlComment, .rule rCommentSingle, .rule rCommentMulti]

/-- `JavascriptLexer.tokens['slashstartsregex']` (lines 48-54). -/
def slashstartsregex : List Entry :=
  [.incl "commentsandwhitespace", .rule rRegexLit, .rule rLookSlash, .rule rEmptyPop]

/-- `JavascriptLexer.tokens['badregex']` (lines 55-57). -/
def badregex : List Entry := [.rule rBadregexNl]

/-- `JavascriptLexer.tokens['root']` (lines 58-85). -/
def root : List Entry :=
  [.rule rBolLook, .incl "commentsandwhitespace", .rule rOperator, .rule rPunctOpen,
   .rule rPunctClose, .rule rKeyword, .rule rDecl, .rule rReserved, .rule rConst,
   .rule rBuiltin, .rule rNameOther, .rule rFloat, .rule rHex, .rule rInt,
   .rule rStringDq, .rule rStringSq]

/-- The raw `JavascriptLexer.tokens` dictionary. -/
def tokensRaw : RawTable := fun s =>
  if s = "commentsandwhitespace" then commentsandwhitespace
  else if s = "slashstartsregex" then slashstartsregex
  else if s = "badregex" then badregex
  else if s = "root" then root
  else []

/-- The resolved JavascriptLexer table. -/
def tokens : Table := resolveTable tokensRaw 2

end JavascriptLexer

end Pyg


namespace Pyg

/-- Syntactically zero-width patterns: every match stops where it starts. -/
def Pat.zw : Pat → Bool
  | .eps => true
  | .lit s _ => decide (s = [])
  | .cls _ => false
  | .dot _ => false
  | .seq p q => p.zw && q.zw
  | .alt p q => p.zw && q.zw
  | .star _ _ => false
  | .look _ _ => true
  | .bol _ => true
  | .eol _ => true
  | .wordB _ => true
  | .grp _ p => p.zw

theorem runF_zw (fuel : Nat) :
    ∀ (p : Pat) (t : Chars) (pos : Nat) (g : GMap) (r : Nat × GMap),
      p.zw = true → r ∈ Pat.runF fuel p t pos g → r.1 = pos := by
  intro p
  induction p with
  | eps => intro t pos g r _ h; simp at h; subst h; rfl
  | lit s ci =>
    intro t pos g r hz h
    simp only [Pat.zw, decide_eq_true_eq] at hz
    subst hz
    simp only [runF_lit] at h
    split at h <;> simp_all
  | cls f => intro t pos g r hz h; simp [Pat.zw] at hz
  | dot da => intro t pos g r hz h; simp [Pat.zw] at hz
  | seq p q ihp ihq =>
    intro t pos g r hz h
    simp only [Pat.zw, Bool.and_eq_true] at hz
    simp only [runF_seq, List.mem_flatMap] at h
    obtain ⟨a, ha, hr⟩ := h
    have h1 := ihp t pos g a hz.1 ha
    have h2 := ihq t a.1 a.2 r hz.2 hr
    omega
  | alt p q ihp ihq =>
    intro t pos g r hz h
    simp only [Pat.zw, Bool.and_eq_true] at hz
    simp only [runF_alt, List.mem_append] at h
    rcases h with h | h
    · exact ihp t pos g r hz.1 h
    · exact ihq t pos g r hz.2 h
  | star p lz ihp => intro t pos g r hz h; simp [Pat.zw] at hz
  | look p ng ihp =>
    intro t pos g r hz h
    simp only [runF_look] at h
    rcases hm : Pat.runF fuel p t pos g with _ | ⟨a, rest⟩ <;> rw [hm] at h <;>
      split at h <;> simp_all
  | bol ml => intro t pos g r hz h; simp only [runF_bol] at h; split at h <;> simp_all
  | eol ml => intro t pos g r hz h; simp only [runF_eol] at h; split at h <;> simp_all
  | wordB ng => intro t pos g r hz h; simp only [runF_wordB] at h; split at h <;> simp_all
  | grp n p ihp =>
    intro t pos g r hz h
    simp only [Pat.zw] at hz
    simp only [runF_grp, List.mem_map] at h
    obtain ⟨a, ha, hr⟩ := h
    have := ihp t pos g a hz ha
    subst hr
    simpa using this

theorem matchPat_zw {p : Pat} {t : Chars} {pos stop : Nat} {g : GMap}
    (hz : p.zw = true) (h : matchPat p t pos = some (stop, g)) : stop = pos := by
  unfold matchPat at h
  rcases hm : Pat.runF (t.length + 1 - pos) p t pos [] with _ | ⟨a, rest⟩ <;>
    rw [hm] at h <;> simp at h
  have := runF_zw (t.length + 1 - pos) p t pos [] a hz (by simp [hm])
  subst h
  simpa using this

theorem runF_star_ne (fuel : Nat) (p : Pat) (lz : Bool) (t : Chars) (pos : Nat) (g : GMap) :
    Pat.runF fuel (.star p lz) t pos g ≠ [] := by
  cases fuel with
  | zero => simp
  | succ fuel =>
    rw [runF_star_succ]
    simp only
    split <;> simp

@[simp] theorem matchPat_eps (t : Chars) (pos : Nat) :
    matchPat .eps t pos = some (pos, []) := by simp [matchPat]

theorem matchPat_lit (s : Chars) (ci : Bool) (t : Chars) (pos : Nat) :
    matchPat (.lit s ci) t pos =
      (if litAt s ci t pos then some (pos + s.length, []) else none) := by
  simp only [matchPat, runF_lit]
  split <;> simp

theorem matchPat_look_lit (s : Chars) (ci : Bool) (t : Chars) (pos : Nat) :
    matchPat (.look (.lit s ci) false) t pos =
      (if litAt s ci t pos then some (pos, []) else none) := by
  by_cases hl : litAt s ci t pos <;>
    simp [matchPat, runF_look, runF_lit, hl]

theorem matchPat_plus_cls_none {f : Char → Bool} {t : Chars} {pos : Nat} :
    matchPat (Pat.plus (.cls f)) t pos = none ↔
      (∀ ch, t[pos]? = some ch → f ch = false) := by
  unfold matchPat Pat.plus
  rcases hq : t[pos]? with _ | ch
  · simp [runF_seq, runF_cls, hq]
  · by_cases hf : f ch
    · simp only [runF_seq, runF_cls, hq, if_pos hf]
      have hne := runF_star_ne (t.length + 1 - pos) (.cls f) false t (pos + 1) []
      constructor
      · intro h
        rw [List.head?_eq_none_iff] at h
        simp at h
        exact absurd h hne
      · intro h
        have := h ch rfl
        rw [this] at hf
        simp at hf
    · simp only [runF_seq, runF_cls, hq, if_neg hf]
      constructor
      · intro _ ch2 hc2
        cases hc2
        simpa using hf
      · intro _; simp

theorem firstMatch_append (l1 l2 : List Rule) (t : Chars) (pos : Nat) :
    firstMatch (l1 ++ l2) t pos =
      (match firstMatch l1 t pos with
       | some x => some x
       | none => firstMatch l2 t pos) := by
  induction l1 with
  | nil => simp
  | cons r rest ih =>
    rw [List.cons_append, firstMatch_cons, firstMatch_cons]
    rcases matchPat r.pat t pos with _ | ⟨e, g⟩
    · simpa using ih
    · simp

end Pyg

namespace Pyg

namespace JavascriptLexer

/-- Rules of `commentsandwhitespace`, as inlined by `include`. -/
def cswsRules : List Rule := [rWs, rHtmlComment, rCommentSingle, rCommentMulti]

/-- Resolved rule list of `slashstartsregex`. -/
def slsRules : List Rule := cswsRules ++ [rRegexLit, rLookSlash, rEmptyPop]

/-- Rules of `root` after the leading anchor rule. -/
def rootRest : List Rule :=
  cswsRules ++ [rOperator, rPunctOpen, rPunctClose, rKeyword, rDecl, rReserved,
                rConst, rBuiltin, rNameOther, rFloat, rHex, rInt, rStringDq, rStringSq]

/-- Resolved rule list of `root`. -/
def rootRules : List Rule := rBolLook :: rootRest

theorem tokens_csws : tokens "commentsandwhitespace" = cswsRules := by
  simp [tokens, resolveTable, resolveState, tokensRaw, commentsandwhitespace,
        resolveEntries, cswsRules]

theorem tokens_sls : tokens "slashstartsregex" = slsRules := by
  simp [tokens, resolveTable, resolveState, tokensRaw, slashstartsregex,
        commentsandwhitespace, resolveEntries, slsRules, cswsRules]

theorem tokens_badregex : tokens "badregex" = [rBadregexNl] := by
  simp [tokens, resolveTable, resolveState, tokensRaw, badregex, resolveEntries]

theorem tokens_root : tokens "root" = rootRules := by
  simp [tokens, resolveTable, resolveState, tokensRaw, root,
        commentsandwhitespace, resolveEntries, rootRules, rootRest, cswsRules]

end JavascriptLexer

end Pyg

namespace Pyg

theorem all_nn_mem {l : List Rule} (h : (l.map (fun r => r.pat.nn)).all (fun b => b) = true)
    {r : Rule} (hr : r ∈ l) : r.pat.nn = true := by
  rw [List.all_eq_true] at h
  exact h _ (List.mem_map_of_mem _ hr)

namespace JavascriptLexer

theorem rootRest_nn : (rootRest.map (fun r => r.pat.nn)).all (fun b => b) = true := by decide

theorem slsMid_nn :
    (([rCommentSingle, rCommentMulti, rRegexLit].map (fun r => r.pat.nn)).all (fun b => b)) =
      true := by decide

theorem rWs_nn : rWs.pat.nn = true := by decide

theorem rHtmlComment_nn : rHtmlComment.pat.nn = true := by decide

theorem rootRest_ops :
    ∀ o ∈ rootRest.map Rule.ops, o = [] ∨ o = [.push "slashstartsregex"] := by decide

theorem slsMid_ops :
    ∀ o ∈ [rCommentSingle, rCommentMulti, rRegexLit].map Rule.ops,
      o = [] ∨ o = [.pop 1] := by decide

end JavascriptLexer

theorem js_R1_none {t : Chars} {pos : Nat}
    (hsp : ∀ ch, t[pos]? = some ch → pySpace ch = false)
    (hsl : litAt "/".data false t pos = false)
    (hhc : litAt "<!--".data false t pos = false) :
    matchPat JavascriptLexer.rBolLook.pat t pos = none := by
  have hinner : ∀ fuel (g : GMap),
      Pat.runF fuel (altL [.cls pySpace, strP "/", strP "<!--"]) t pos g = [] := by
    intro fuel g
    simp only [altL, runF_alt, runF_cls, runF_lit, strP]
    rcases hq : t[pos]? with _ | ch
    · simp [hsl, hhc]
    · simp [hsl, hhc, hsp ch hq]
  unfold matchPat
  have hpat : JavascriptLexer.rBolLook.pat =
      .seq (.bol false) (.look (altL [.cls pySpace, strP "/", strP "<!--"]) false) := rfl
  rw [hpat, runF_seq, runF_bol]
  split
  · simp only [List.flatMap_cons, List.flatMap_nil, runF_look, hinner]
    simp
  · simp

end Pyg

namespace Pyg

theorem matchPat_lit_none {s : Chars} {ci : Bool} {t : Chars} {pos : Nat}
    (h : matchPat (.lit s ci) t pos = none) : litAt s ci t pos = false := by
  rw [matchPat_lit] at h
  by_cases hl : litAt s ci t pos
  · rw [if_pos hl] at h; cases h
  · simpa using hl

theorem matchPat_look_lit_none {s : Chars} {ci : Bool} {t : Chars} {pos : Nat}
    (h : matchPat (.look (.lit s ci) false) t pos = none) : litAt s ci t pos = false := by
  rw [matchPat_look_lit] at h
  by_cases hl : litAt s ci t pos
  · rw [if_pos hl] at h; cases h
  · simpa using hl

theorem matchPat_lit_some {s : Chars} {ci : Bool} {t : Chars} {pos e : Nat} {g : GMap}
    (h : matchPat (.lit s ci) t pos = some (e, g)) : e = pos + s.length := by
  rw [matchPat_lit] at h
  by_cases hl : litAt s ci t pos
  · rw [if_pos hl] at h; cases h; rfl
  · rw [if_neg hl] at h; cases h

/-- The stack shapes the JavaScript lexer can reach from `['root']`. -/
def jsStacks : List (List String) :=
  [["root"], ["slashstartsregex", "root"], ["badregex", "root"]]

/-- Termination rank of a configuration: bounds how many zero-width steps
can happen before the position advances. -/
def jsRank (t : Chars) (c : Cfg) : Nat :=
  if c.stack = ["root"] then
    (if (matchPat JavascriptLexer.rBolLook.pat t c.pos).isSome then 3 else 1)
  else if c.stack = ["slashstartsregex", "root"] then 2
  else 1

/-- Strictly decreasing measure for the JavaScript scan. -/
def jsMeasure (t : Chars) (c : Cfg) : Nat := 4 * (t.length - c.pos) + jsRank t c

theorem jsRank_le (t : Chars) (c : Cfg) : jsRank t c ≤ 3 := by
  unfold jsRank; split_ifs <;> omega

theorem jsRank_sls (t : Chars) (p : Nat) :
    jsRank t ⟨p, ["slashstartsregex", "root"]⟩ = 2 := rfl

theorem jsRank_badregex (t : Chars) (p : Nat) :
    jsRank t ⟨p, ["badregex", "root"]⟩ = 1 := rfl

theorem jsRank_root_none {t : Chars} {p : Nat}
    (h : matchPat JavascriptLexer.rBolLook.pat t p = none) :
    jsRank t ⟨p, ["root"]⟩ = 1 := by
  unfold jsRank
  simp [h]

theorem jsRank_root_some {t : Chars} {p : Nat} {x : Nat × GMap}
    (h : matchPat JavascriptLexer.rBolLook.pat t p = some x) :
    jsRank t ⟨p, ["root"]⟩ = 3 := by
  unfold jsRank
  simp [h]

end Pyg

namespace Pyg

open JavascriptLexer in
/-- One JavaScript-lexer step from a reachable stack shape: the step
succeeds, stays within the reachable shapes, and strictly decreases the
termination measure. -/
theorem js_step (t : Chars) (c : Cfg) (hInv : c.stack ∈ jsStacks) (hlt : c.pos < t.length) :
    ∃ ts c', stepTok JavascriptLexer.tokens t c = some (ts, c') ∧ c'.stack ∈ jsStacks ∧
      jsMeasure t c' < jsMeasure t c := by
  have hplen : c.pos ≤ t.length := le_of_lt hlt
  simp only [jsStacks, List.mem_cons, List.not_mem_nil, or_false] at hInv
  rcases hInv with hst | hst | hst
  · -- current state: root
    have hhead : c.stack.headD "root" = "root" := by rw [hst]; rfl
    rcases hR1 : matchPat rBolLook.pat t c.pos with _ | ⟨e, g⟩
    · -- the anchor rule fails; all remaining root rules are non-nullable
      have hfm : firstMatch (JavascriptLexer.tokens (c.stack.headD "root")) t c.pos =
          firstMatch rootRest t c.pos := by
        rw [hhead, tokens_root,
          show rootRules = rBolLook :: rootRest from rfl, firstMatch_cons, hR1]
      rcases hfm2 : firstMatch rootRest t c.pos with _ | ⟨r, e, g⟩
      · refine ⟨_, _, stepTok_fallback hlt (by rw [hfm, hfm2]), ?_, ?_⟩
        · simp [jsStacks, hst]
        · have h1 : jsRank t ⟨c.pos + 1, c.stack⟩ ≤ 3 := jsRank_le _ _
          have h2 : jsRank t c = 1 := by
            have := jsRank_root_none (p := c.pos) hR1
            rw [show (⟨c.pos, ["root"]⟩ : Cfg) = ⟨c.pos, c.stack⟩ from by rw [hst]] at this
            exact this
          unfold jsMeasure
          simp only [h2]
          omega
      · obtain ⟨hmem, hmp⟩ := firstMatch_spec _ t c.pos r e g hfm2
        have hnn := all_nn_mem rootRest_nn hmem
        have he : c.pos < e := matchPat_nn hnn hmp
        have hele : e ≤ t.length := matchPat_le hplen hmp
        have hops := rootRest_ops _ (List.mem_map_of_mem _ hmem)
        have hfm' : firstMatch (JavascriptLexer.tokens (c.stack.headD "root")) t c.pos =
            some (r, e, g) := by rw [hfm, hfm2]
        have hpr : ¬(e = c.pos ∧ applyOps r.ops c.stack = c.stack) := by
          intro hcon; omega
        refine ⟨_, _, stepTok_match hlt hfm' hpr, ?_, ?_⟩
        · rcases hops with h | h <;> rw [hst] <;> simp [h, applyOps, applyOp, jsStacks]
        · have h1 : jsRank t ⟨e, applyOps r.ops c.stack⟩ ≤ 3 := jsRank_le _ _
          have h2 : jsRank t c = 1 := by
            have := jsRank_root_none (p := c.pos) hR1
            rw [show (⟨c.pos, ["root"]⟩ : Cfg) = ⟨c.pos, c.stack⟩ from by rw [hst]] at this
            exact this
          unfold jsMeasure
          simp only [h2]
          omega
    · -- the anchor rule matched: zero-width push of slashstartsregex
      have he : e = c.pos := matchPat_zw (by decide) hR1
      subst he
      have hfm' : firstMatch (JavascriptLexer.tokens (c.stack.headD "root")) t c.pos =
          some (rBolLook, c.pos, g) := by
        rw [hhead, tokens_root,
          show rootRules = rBolLook :: rootRest from rfl, firstMatch_cons, hR1]
      have hst' : applyOps rBolLook.ops c.stack = ["slashstartsregex", "root"] := by
        rw [hst]; rfl
      have hpr : ¬(c.pos = c.pos ∧ applyOps rBolLook.ops c.stack = c.stack) := by
        rw [hst', hst]
        intro hcon
        exact absurd hcon.2 (by decide)
      refine ⟨_, _, stepTok_match hlt hfm' hpr, ?_, ?_⟩
      · simp [jsStacks, hst']
      · have h1 : jsRank t ⟨c.pos, applyOps rBolLook.ops c.stack⟩ = 2 := by
          rw [hst']; exact jsRank_sls t c.pos
        have h2 : jsRank t c = 3 := by
          have := jsRank_root_some (p := c.pos) hR1
          rw [show (⟨c.pos, ["root"]⟩ : Cfg) = ⟨c.pos, c.stack⟩ from by rw [hst]] at this
          exact this
        unfold jsMeasure
        simp only [h1, h2]
        omega
  · -- current state: slashstartsregex
    have hhead : c.stack.headD "root" = "slashstartsregex" := by rw [hst]; rfl
    have hsplit : slsRules =
        rWs :: rHtmlComment ::
          ([rCommentSingle, rCommentMulti, rRegexLit] ++ [rLookSlash, rEmptyPop]) := rfl
    have hrank2 : jsRank t c = 2 := by
      unfold jsRank
      rw [hst]
      simp
    rcases hws : matchPat rWs.pat t c.pos with _ | ⟨e, g⟩
    · rcases hhc : matchPat rHtmlComment.pat t c.pos with _ | ⟨e, g⟩
      · rcases hmid : firstMatch [rCommentSingle, rCommentMulti, rRegexLit] t c.pos with
          _ | ⟨r, e, g⟩
        · rcases hlk : matchPat rLookSlash.pat t c.pos with _ | ⟨e, g⟩
          · -- the empty pattern fires and pops
            have hfm' : firstMatch (JavascriptLexer.tokens (c.stack.headD "root")) t c.pos =
                some (rEmptyPop, c.pos, []) := by
              rw [hhead, tokens_sls, hsplit, firstMatch_cons, hws, firstMatch_cons, hhc,
                firstMatch_append, hmid]
              rw [show ([rLookSlash, rEmptyPop] : List Rule) =
                rLookSlash :: [rEmptyPop] from rfl, firstMatch_cons, hlk, firstMatch_cons]
              rw [show rEmptyPop.pat = .eps from rfl, matchPat_eps]
            have hst' : applyOps rEmptyPop.ops c.stack = ["root"] := by rw [hst]; rfl
            have hpr : ¬(c.pos = c.pos ∧ applyOps rEmptyPop.ops c.stack = c.stack) := by
              rw [hst', hst]
              intro hcon
              exact absurd hcon.2 (by decide)
            refine ⟨_, _, stepTok_match hlt hfm' hpr, ?_, ?_⟩
            · simp [jsStacks, hst']
            · have hnone : matchPat rBolLook.pat t c.pos = none := by
                refine js_R1_none ?_ ?_ ?_
                · exact matchPat_plus_cls_none.mp hws
                · exact matchPat_look_lit_none hlk
                · exact matchPat_lit_none hhc
              have h1 : jsRank t ⟨c.pos, applyOps rEmptyPop.ops c.stack⟩ = 1 := by
                rw [hst']; exact jsRank_root_none hnone
              unfold jsMeasure
              simp only [h1, hrank2]
              omega
          · -- lookahead `(?=/)`: zero-width transfer to badregex
            have he : e = c.pos := matchPat_zw (by decide) hlk
            subst he
            have hfm' : firstMatch (JavascriptLexer.tokens (c.stack.headD "root")) t c.pos =
                some (rLookSlash, c.pos, g) := by
              rw [hhead, tokens_sls, hsplit, firstMatch_cons, hws, firstMatch_cons, hhc,
                firstMatch_append, hmid]
              rw [show ([rLookSlash, rEmptyPop] : List Rule) =
                rLookSlash :: [rEmptyPop] from rfl, firstMatch_cons, hlk]
            have hst' : applyOps rLookSlash.ops c.stack = ["badregex", "root"] := by
              rw [hst]; rfl
            have hpr : ¬(c.pos = c.pos ∧ applyOps rLookSlash.ops c.stack = c.stack) := by
              rw [hst', hst]
              intro hcon
              exact absurd hcon.2 (by decide)
            refine ⟨_, _, stepTok_match hlt hfm' hpr, ?_, ?_⟩
            · simp [jsStacks, hst']
            · have h1 : jsRank t ⟨c.pos, applyOps rLookSlash.ops c.stack⟩ = 1 := by
                rw [hst']; exact jsRank_badregex t c.pos
              unfold jsMeasure
              simp only [h1, hrank2]
              omega
        · -- a comment or regex-literal rule matched: non-nullable, advances
          obtain ⟨hmem, hmp⟩ := firstMatch_spec _ t c.pos r e g hmid
          have hnn := all_nn_mem slsMid_nn hmem
          have he : c.pos < e := matchPat_nn hnn hmp
          have hele : e ≤ t.length := matchPat_le hplen hmp
          have hops := slsMid_ops _ (List.mem_map_of_mem _ hmem)
          have hfm' : firstMatch (JavascriptLexer.tokens (c.stack.headD "root")) t c.pos =
              some (r, e, g) := by
            rw [hhead, tokens_sls, hsplit, firstMatch_cons, hws, firstMatch_cons, hhc,
              firstMatch_append, hmid]
          have hpr : ¬(e = c.pos ∧ applyOps r.ops c.stack = c.stack) := by
            intro hcon; omega
          refine ⟨_, _, stepTok_match hlt hfm' hpr, ?_, ?_⟩
          · rcases hops with h | h <;> rw [hst] <;> simp [h, applyOps, applyOp, jsStacks]
          · have h1 : jsRank t ⟨e, applyOps r.ops c.stack⟩ ≤ 3 := jsRank_le _ _
            unfold jsMeasure
            simp only [hrank2]
            omega
      · -- `<!--` matched: advances
        have he : c.pos < e := matchPat_nn rHtmlComment_nn hhc
        have hele : e ≤ t.length := matchPat_le hplen hhc
        have hfm' : firstMatch (JavascriptLexer.tokens (c.stack.headD "root")) t c.pos =
            some (rHtmlComment, e, g) := by
          rw [hhead, tokens_sls, hsplit, firstMatch_cons, hws, firstMatch_cons, hhc]
        have hpr : ¬(e = c.pos ∧ applyOps rHtmlComment.ops c.stack = c.stack) := by
          intro hcon; omega
        refine ⟨_, _, stepTok_match hlt hfm' hpr, ?_, ?_⟩
        · rw [hst]; simp [applyOps, rHtmlComment, jsStacks]
        · have h1 : jsRank t ⟨e, applyOps rHtmlComment.ops c.stack⟩ ≤ 3 := jsRank_le _ _
          unfold jsMeasure
          simp only [hrank2]
          omega
    · -- whitespace matched: advances
      have he : c.pos < e := matchPat_nn rWs_nn hws
      have hele : e ≤ t.length := matchPat_le hplen hws
      have hfm' : firstMatch (JavascriptLexer.tokens (c.stack.headD "root")) t c.pos =
          some (rWs, e, g) := by
        rw [hhead, tokens_sls, hsplit, firstMatch_cons, hws]
      have hpr : ¬(e = c.pos ∧ applyOps rWs.ops c.stack = c.stack) := by
        intro hcon; omega
      refine ⟨_, _, stepTok_match hlt hfm' hpr, ?_, ?_⟩
      · rw [hst]; simp [applyOps, rWs, jsStacks]
      · have h1 : jsRank t ⟨e, applyOps rWs.ops c.stack⟩ ≤ 3 := jsRank_le _ _
        unfold jsMeasure
        simp only [hrank2]
        omega
  · -- current state: badregex
    have hhead : c.stack.headD "root" = "badregex" := by rw [hst]; rfl
    have hrank1 : jsRank t c = 1 := by
      unfold jsRank
      rw [hst]
      simp
    rcases hnl : matchPat rBadregexNl.pat t c.pos with _ | ⟨e, g⟩
    · refine ⟨_, _, stepTok_fallback hlt (by
        rw [hhead, tokens_badregex, firstMatch_cons, hnl]; rfl), ?_, ?_⟩
      · simp [jsStacks, hst]
      · have h1 : jsRank t ⟨c.pos + 1, c.stack⟩ ≤ 3 := jsRank_le _ _
        unfold jsMeasure
        simp only [hrank1]
        omega
    · have he : e = c.pos + 1 := by
        have := @matchPat_lit_some "\n".data false _ _ _ _ hnl
        simpa using this
      subst he
      have hfm' : firstMatch (JavascriptLexer.tokens (c.stack.headD "root")) t c.pos =
          some (rBadregexNl, c.pos + 1, g) := by
        rw [hhead, tokens_badregex, firstMatch_cons, hnl]
      have hele : c.pos + 1 ≤ t.length := matchPat_le hplen hnl
      have hpr : ¬(c.pos + 1 = c.pos ∧ applyOps rBadregexNl.ops c.stack = c.stack) := by
        intro hcon; omega
      refine ⟨_, _, stepTok_match hlt hfm' hpr, ?_, ?_⟩
      · rw [hst]; simp [applyOps, applyOp, rBadregexNl, jsStacks]
      · have h1 : jsRank t ⟨c.pos + 1, applyOps rBadregexNl.ops c.stack⟩ ≤ 3 := jsRank_le _ _
        unfold jsMeasure
        simp only [hrank1]
        omega

end Pyg

namespace Pyg

/-- With fuel bounded by the measure, the JavaScript scan always reaches
its terminal configuration. -/
theorem js_run_completes (t : Chars) :
    ∀ (n : Nat) (c : Cfg), c.stack ∈ jsStacks → jsMeasure t c < n →
      (runTok JavascriptLexer.tokens t n c).2.2 = true := by
  intro n
  induction n with
  | zero => intro c _ h; omega
  | succ n ih =>
    intro c hInv hm
    by_cases hlt : c.pos < t.length
    · obtain ⟨ts, c', hs, hInv', hdec⟩ := js_step t c hInv hlt
      rw [runTok_succ_of_step n hs]
      exact ih c' hInv' (by omega)
    · have hnone : stepTok JavascriptLexer.tokens t c = none :=
        stepTok_none_iff.mpr (by omega)
      simp [runTok, hnone]

/-- The JavaScript lexer terminates on every finite input: fuel
`4 * |text| + 4` always completes the scan (in particular the zero-width
`(r'', Text, '#pop')` rule of `slashstartsregex` never loops). -/
theorem js_tokenize_finite (t : Chars) :
    (runTok JavascriptLexer.tokens t (4 * t.length + 4) ⟨0, ["root"]⟩).2.2 = true := by
  apply js_run_completes
  · simp [jsStacks]
  · have := jsRank_le t ⟨0, ["root"]⟩
    unfold jsMeasure
    simp only
    omega

end Pyg

namespace Pyg

/-- Extended-engine context (specification section 4.3): scan position,
state stack, and the auxiliary fields (`AuxContext`) that the web.py
callbacks use.  `none` covers both a missing attribute
(`hasattr` false) and Python `None`, which the callbacks treat alike. -/
structure ECtx where
  pos : Nat
  stack : List String
  lastIndentation : Option Chars := none
  blockState : Option String := none
  blockIndentation : Option Chars := none
  deriving DecidableEq, Repr

/-- Extended-engine actions: a plain token, `bygroups`, or an arbitrary
callback receiving the match text, its span and the mutable context
(specification section 4.3). -/
inductive EAct where
  | tok (c : Tok)
  | byGroups (l : List GAct)
  | callb (f : Chars → Nat → Nat → ECtx → List Token × ECtx)

/-- One extended-table rule. -/
structure ERule where
  pat : Pat
  act : EAct
  ops : List SOp := []

/-- An extended state table. -/
abbrev ETable := String → List ERule

def firstMatchE (rules : List ERule) (t : Chars) (pos : Nat) :
    Option (ERule × Nat × GMap) :=
  match rules with
  | [] => none
  | r :: rest =>
    match matchPat r.pat t pos with
    | some (e, g) => some (r, e, g)
    | none => firstMatchE rest t pos

/-- Modelled from the spec: one step of the extended (callback) engine
(section 4.3): as the core loop, except that a callback action emits its
own triples, may rewrite stack and aux context, and sets the next scan
position itself; a rule's state transition is applied afterwards.  The
zero-progress policy of section 7 applies unchanged. -/
def stepTokE (T : ETable) (t : Chars) (cx : ECtx) : Option (List Token × ECtx) :=
  if cx.pos < t.length then
    match firstMatchE (T (cx.stack.headD "root")) t cx.pos with
    | none =>
      some ([⟨cx.pos, Tok.Text, slice t cx.pos (cx.pos + 1)⟩], { cx with pos := cx.pos + 1 })
    | some (r, stop, g) =>
      let out : List Token × ECtx :=
        match r.act with
        | .tok c => ([⟨cx.pos, c, slice t cx.pos stop⟩], { cx with pos := stop })
        | .byGroups l => (emitGroups t g l 1, { cx with pos := stop })
        | .callb f => f (slice t cx.pos stop) cx.pos stop cx
      let cx2 := { out.2 with stack := applyOps r.ops out.2.stack }
      if cx2.pos = cx.pos ∧ cx2.stack = cx.stack then
        some ([⟨cx.pos, Tok.Text, slice t cx.pos (cx.pos + 1)⟩], { cx with pos := cx.pos + 1 })
      else
        some (out.1, cx2)
  else none

/-- Modelled from the spec: iterate the extended scanning loop. -/
def runTokE (T : ETable) (t : Chars) : Nat → ECtx → List Token × ECtx × Bool
  | 0, cx => ([], cx, false)
  | fuel + 1, cx =>
    match stepTokE T t cx with
    | none => ([], cx, true)
    | some (ts, cx') =>
      let r := runTokE T t fuel cx'
      (ts ++ r.1, r.2)

/-- `_indentation` (web.py lines 1174-1187), translated directly: emit the
matched indentation as one Text token, remember it, advance to the match
end; then, when a block state is pending and the new indentation literally
starts with the remembered block indentation while being different from
it, push the pending block state, and otherwise clear the pending block
data and push `'content'`.  (`_starts_block` always sets
`block_indentation` to a string alongside `block_state`, so the `.getD`
defaults are never consulted when `blockState` is set; a pending state
name is a non-empty string literal, whose Python truthiness is the
`isSome` test together with `bs != ""`.) -/
def _indentation (m : Chars) (s e : Nat) (cx0 : ECtx) : List Token × ECtx :=
  let cx := { cx0 with lastIndentation := some m, pos := e }
  match cx.blockState with
  | some bs =>
    if bs != "" && (cx.blockIndentation.getD []).isPrefixOf m &&
        m != cx.blockIndentation.getD [] then
      ([⟨s, Tok.Text, m⟩], { cx with stack := bs :: cx.stack })
    else
      ([⟨s, Tok.Text, m⟩],
       { cx with blockState := none, blockIndentation := none,
                 stack := "content" :: cx.stack })
  | none =>
    ([⟨s, Tok.Text, m⟩],
     { cx with blockState := none, blockIndentation := none,
               stack := "content" :: cx.stack })

/-- `_starts_block(token, state)` (web.py lines 1189-1201), translated
directly: emit the match under `token`, remember the line's indentation
(the empty string when none was recorded yet) as the block indentation,
set the pending block state, and advance to the match end. -/
def _starts_block (token : Tok) (state : String) :
    Chars → Nat → Nat → ECtx → List Token × ECtx :=
  fun m s e cx =>
    ([⟨s, token, m⟩],
     { cx with blockIndentation := some (cx.lastIndentation.getD []),
               blockState := some state, pos := e })

end Pyg

namespace Pyg

namespace common_sass_tokens

/-- The CSS property/value keyword alternation of common_sass_tokens value (web.py lines 1321-1377). -/
def valueKw : List String :=
  [ "azimuth", "background-attachment", "background-color",
    "background-image", "background-position", "background-repeat",
    "background", "border-bottom-color", "border-bottom-style",
    "border-bottom-width", "border-left-color", "border-left-style",
    "border-left-width", "border-right", "border-right-color",
    "border-right-style", "border-right-width", "border-top-color",
    "border-top-style", "border-top-width", "border-bottom",
    "border-collapse", "border-left", "border-width", "border-color",
    "border-spacing", "border-style", "border-top", "border", "caption-side",
    "clear", "clip", "color", "content", "counter-increment", "counter-reset",
    "cue-after", "cue-before", "cue", "cursor", "direction", "display",
    "elevation", "empty-cells", "float", "font-family", "font-size",
    "font-size-adjust", "font-stretch", "font-style", "font-variant",
    "font-weight", "font", "height", "letter-spacing", "line-height",
    "list-style-type", "list-style-image", "list-style-position",
    "list-style", "margin-bottom", "margin-left", "margin-right",
    "margin-top", "margin", "marker-offset", "marks", "max-height",
    "max-width", "min-height", "min-width", "opacity", "orphans", "outline",
    "outline-color", "outline-style", "outline-width", "overflow",
    "padding-bottom", "padding-left", "padding-right", "padding-top",
    "padding", "page", "page-break-after", "page-break-before",
    "page-break-inside", "pause-after", "pause-before", "pause", "pitch",
    "pitch-range", "play-during", "position", "quotes", "richness", "right",
    "size", "speak-header", "speak-numeral", "speak-punctuation", "speak",
    "speech-rate", "stress", "table-layout", "text-align", "text-decoration",
    "text-indent", "text-shadow", "text-transform", "top", "unicode-bidi",
    "vertical-align", "visibility", "voice-family", "volume", "white-space",
    "widows", "width", "word-spacing", "z-index", "bottom", "left", "above",
    "absolute", "always", "armenian", "aural", "auto", "avoid", "baseline",
    "behind", "below", "bidi-override", "blink", "block", "bold", "bolder",
    "both", "capitalize", "center-left", "center-right", "center", "circle",
    "cjk-ideographic", "close-quote", "collapse", "condensed", "continuous",
    "crop", "crosshair", "cross", "cursive", "dashed", "decimal-leading-zero",
    "decimal", "default", "digits", "disc", "dotted", "double", "e-resize",
    "embed", "extra-condensed", "extra-expanded", "expanded", "fantasy",
    "far-left", "far-right", "faster", "fast", "fixed", "georgian", "groove",
    "hebrew", "help", "hidden", "hide", "higher", "high", "hiragana-iroha",
    "hiragana", "icon", "inherit", "inline-table", "inline", "inset",
    "inside", "invert", "italic", "justify", "katakana-iroha", "katakana",
    "landscape", "larger", "large", "left-side", "leftwards", "level",
    "lighter", "line-through", "list-item", "loud", "lower-alpha",
    "lower-greek", "lower-roman", "lowercase", "ltr", "lower", "low",
    "medium", "message-box", "middle", "mix", "monospace", "n-resize",
    "narrower", "ne-resize", "no-close-quote", "no-open-quote", "no-repeat",
    "none", "normal", "nowrap", "nw-resize", "oblique", "once", "open-quote",
    "outset", "outside", "overline", "pointer", "portrait", "px", "relative",
    "repeat-x", "repeat-y", "repeat", "rgb", "ridge", "right-side",
    "rightwards", "s-resize", "sans-serif", "scroll", "se-resize",
    "semi-condensed", "semi-expanded", "separate", "serif", "show", "silent",
    "slow", "slower", "small-caps", "small-caption", "smaller", "soft",
    "solid", "spell-out", "square", "static", "status-bar", "super",
    "sw-resize", "table-caption", "table-cell", "table-column",
    "table-column-group", "table-footer-group", "table-header-group",
    "table-row", "table-row-group", "text", "text-bottom", "text-top",
    "thick", "thin", "transparent", "ultra-condensed", "ultra-expanded",
    "underline", "upper-alpha", "upper-latin", "upper-roman", "uppercase",
    "url", "visible", "w-resize", "wait", "wider", "x-fast", "x-high",
    "x-large", "x-loud", "x-low", "x-small", "x-soft", "xx-large", "xx-small",
    "yes" ]

/-- The colour names tagged Name.Entity (web.py lines 1378-1402). -/
def entityColors : List String :=
  [ "indigo", "gold", "firebrick", "indianred", "darkolivegreen",
    "darkseagreen", "mediumvioletred", "mediumorchid", "chartreuse",
    "mediumslateblue", "springgreen", "crimson", "lightsalmon", "brown",
    "turquoise", "olivedrab", "cyan", "skyblue", "darkturquoise", "goldenrod",
    "darkgreen", "darkviolet", "darkgray", "lightpink", "darkmagenta",
    "lightgoldenrodyellow", "lavender", "yellowgreen", "thistle", "violet",
    "orchid", "ghostwhite", "honeydew", "cornflowerblue", "darkblue",
    "darkkhaki", "mediumpurple", "cornsilk", "bisque", "slategray",
    "darkcyan", "khaki", "wheat", "deepskyblue", "darkred", "steelblue",
    "aliceblue", "gainsboro", "mediumturquoise", "floralwhite", "coral",
    "lightgrey", "lightcyan", "darksalmon", "beige", "azure",
    "lightsteelblue", "oldlace", "greenyellow", "royalblue", "lightseagreen",
    "mistyrose", "sienna", "lightcoral", "orangered", "navajowhite",
    "palegreen", "burlywood", "seashell", "mediumspringgreen", "papayawhip",
    "blanchedalmond", "peru", "aquamarine", "darkslategray", "ivory",
    "dodgerblue", "lemonchiffon", "chocolate", "orange", "forestgreen",
    "slateblue", "mintcream", "antiquewhite", "darkorange", "cadetblue",
    "moccasin", "limegreen", "saddlebrown", "darkslateblue", "lightskyblue",
    "deeppink", "plum", "darkgoldenrod", "sandybrown", "magenta", "tan",
    "rosybrown", "pink", "lightblue", "palevioletred", "mediumseagreen",
    "dimgray", "powderblue", "seagreen", "snow", "mediumblue", "midnightblue",
    "paleturquoise", "palegoldenrod", "whitesmoke", "darkorchid", "salmon",
    "lightslategray", "lawngreen", "lightgreen", "tomato", "hotpink",
    "lightyellow", "lavenderblush", "linen", "mediumaquamarine", "blueviolet",
    "peachpuff" ]

/-- The colour names tagged Name.Builtin (web.py lines 1403-1404). -/
def builtinColors : List String :=
  [ "black", "silver", "gray", "white", "maroon", "red", "purple", "fuchsia",
    "green", "lime", "olive", "yellow", "navy", "blue", "teal", "aqua" ]

/-- `[\w-]`. -/
def wordDash (c : Char) : Bool := pyWord c || c == '-'

/-- `[a-z_-]` under re.IGNORECASE. -/
def azl (c : Char) : Bool := c.isAlpha || c == '_' || c == '-'

/-- `[a-zA-Z0-9_-]` / `[a-z0-9_-]` under re.IGNORECASE. -/
def identCh (c : Char) : Bool := c.isAlphanum || c == '_' || c == '-'

/-- `common_sass_tokens['value']` (web.py lines 1316-1419); all Sass
tables run under re.IGNORECASE and without DOTALL or MULTILINE. -/
def value : List ERule :=
  [ ⟨Pat.plus (oneOf " \t"), .tok .Text, []⟩,
    ⟨.seq (oneOf "!$") (Pat.plus (.cls wordDash)), .tok .NameVariable, []⟩,
    ⟨strCI "url(", .tok .StringOther, [.push "string-url"]⟩,
    ⟨seqL [.cls azl, .star (.cls wordDash) false, .look (strCI "(") false],
      .tok .NameFunction, []⟩,
    ⟨.seq (wordsCI valueKw) (.wordB false), .tok .NameConstant, []⟩,
    ⟨.seq (wordsCI entityColors) (.wordB false), .tok .NameEntity, []⟩,
    ⟨.seq (wordsCI builtinColors) (.wordB false), .tok .NameBuiltin, []⟩,
    ⟨.seq (strCI "!") (wordsCI ["important", "default"]), .tok .NameException, []⟩,
    ⟨wordsCI ["true", "false"], .tok .NamePseudo, []⟩,
    ⟨wordsCI ["and", "or", "not"], .tok .OperatorWord, []⟩,
    ⟨strCI "/*", .tok .CommentMultiline, [.push "inline-comment"]⟩,
    ⟨.seq (strCI "//") (.star (noneOf "\n") false), .tok .CommentSingle, []⟩,
    ⟨.seq (strCI "#") (.seq (.cls Char.isAlphanum) (upTo (.cls Char.isAlphanum) 5)),
      .tok .NumberHex, []⟩,
    ⟨.seq (.grp 1 (.seq (Pat.opt (strCI "-")) (Pat.plus (.cls Char.isDigit))))
          (Pat.opt (.grp 2 (.alt (strCI "%") (Pat.plus (.cls Char.isAlpha))))),
      .byGroups [.tok .NumberInteger, .tok .KeywordType], []⟩,
    ⟨.seq (.grp 1 (seqL [Pat.opt (strCI "-"), .star (.cls Char.isDigit) false, strCI ".",
                         Pat.plus (.cls Char.isDigit)]))
          (Pat.opt (.grp 2 (.alt (strCI "%") (Pat.plus (.cls Char.isAlpha))))),
      .byGroups [.tok .NumberFloat, .tok .KeywordType], []⟩,
    ⟨strCI "#\x7b", .tok .StringInterpol, [.push "interpolation"]⟩,
    ⟨Pat.plus (oneOf "~^*!&%<>|+=@:,./?-"), .tok .Operator, []⟩,
    ⟨Pat.plus (oneOf "[]()"), .tok .Punctuation, []⟩,
    ⟨strCI "\"", .tok .StringDouble, [.push "string-double"]⟩,
    ⟨.lit [sq] true, .tok .StringSingle, [.push "string-single"]⟩,
    ⟨.seq (.cls azl) (.star (.cls wordDash) false), .tok .Name, []⟩ ]

/-- `common_sass_tokens['selector']` (lines 1426-1437). -/
def selector : List ERule :=
  [ ⟨Pat.plus (oneOf " \t"), .tok .Text, []⟩,
    ⟨strCI ":", .tok .NameDecorator, [.push "pseudo-class"]⟩,
    ⟨strCI ".", .tok .NameClass, [.push "class"]⟩,
    ⟨strCI "#", .tok .NameNamespace, [.push "id"]⟩,
    ⟨Pat.plus (.cls identCh), .tok .NameTag, []⟩,
    ⟨strCI "#\x7b", .tok .StringInterpol, [.push "interpolation"]⟩,
    ⟨strCI "&", .tok .Keyword, []⟩,
    ⟨oneOf "~^*!&[]()<>|+=@:;,./?-", .tok .Operator, []⟩,
    ⟨strCI "\"", .tok .StringDouble, [.push "string-double"]⟩,
    ⟨.lit [sq] true, .tok .StringSingle, [.push "string-single"]⟩ ]

/-- `common_sass_tokens['string-double']` (lines 1439-1443). -/
def stringDouble : List ERule :=
  [ ⟨Pat.plus (altL [.seq (strCI "\\") (.dot false),
                     .seq (strCI "#") (.look (.cls (fun c => !(c == '\n' || c == '\x7b'))) false),
                     noneOf "\n\"#"]), .tok .StringDouble, []⟩,
    ⟨strCI "#\x7b", .tok .StringInterpol, [.push "interpolation"]⟩,
    ⟨strCI "\"", .tok .StringDouble, [.pop 1]⟩ ]

/-- `common_sass_tokens['string-single']` (lines 1445-1449; note the
source tags both rules String.Double). -/
def stringSingle : List ERule :=
  [ ⟨Pat.plus (altL [.seq (strCI "\\") (.dot false),
                     .seq (strCI "#") (.look (.cls (fun c => !(c == '\n' || c == '\x7b'))) false),
                     .cls (fun c => !(c == '\n' || c == sq || c == '#'))]),
      .tok .StringDouble, []⟩,
    ⟨strCI "#\x7b", .tok .StringInterpol, [.push "interpolation"]⟩,
    ⟨.lit [sq] true, .tok .StringDouble, [.pop 1]⟩ ]

/-- `common_sass_tokens['string-url']` (lines 1451-1455). -/
def stringUrl : List ERule :=
  [ ⟨Pat.plus (altL [strCI "\\#",
                     .seq (strCI "#") (.look (.cls (fun c => !(c == '\n' || c == '\x7b'))) false),
                     noneOf "\n#)"]), .tok .StringOther, []⟩,
    ⟨strCI "#\x7b", .tok .StringInterpol, [.push "interpolation"]⟩,
    ⟨strCI ")", .tok .StringOther, [.pop 1]⟩ ]

/-- `common_sass_tokens['pseudo-class']` (lines 1457-1461). -/
def pseudoClass : List ERule :=
  [ ⟨Pat.plus (.cls wordDash), .tok .NameDecorator, []⟩,
    ⟨strCI "#\x7b", .tok .StringInterpol, [.push "interpolation"]⟩,
    ⟨.eps, .tok .Text, [.pop 1]⟩ ]

/-- `common_sass_tokens['class']` (lines 1463-1467). -/
def classState : List ERule :=
  [ ⟨Pat.plus (.cls wordDash), .tok .NameClass, []⟩,
    ⟨strCI "#\x7b", .tok .StringInterpol, [.push "interpolation"]⟩,
    ⟨.eps, .tok .Text, [.pop 1]⟩ ]

/-- `common_sass_tokens['id']` (lines 1469-1473). -/
def idState : List ERule :=
  [ ⟨Pat.plus (.cls wordDash), .tok .NameNamespace, []⟩,
    ⟨strCI "#\x7b", .tok .StringInterpol, [.push "interpolation"]⟩,
    ⟨.eps, .tok .Text, [.pop 1]⟩ ]

end common_sass_tokens

namespace SassLexer

open common_sass_tokens

/-- `SassLexer.tokens['root']` (web.py lines 1495-1498);
flags = re.IGNORECASE. -/
def root : List ERule :=
  [ ⟨.seq (.star (oneOf " \t") false) (strCI "\n"), .tok .Text, []⟩,
    ⟨.star (oneOf " \t") false, .callb _indentation, []⟩ ]

/-- `SassLexer.tokens['content']` (lines 1500-1519). -/
def content : List ERule :=
  [ ⟨.seq (strCI "//") (.star (noneOf "\n") false),
      .callb (_starts_block .CommentSingle "single-comment"), [.push "root"]⟩,
    ⟨.seq (strCI "/*") (.star (noneOf "\n") false),
      .callb (_starts_block .CommentMultiline "multi-comment"), [.push "root"]⟩,
    ⟨strCI "@import", .tok .Keyword, [.push "import"]⟩,
    ⟨strCI "@for", .tok .Keyword, [.push "for"]⟩,
    ⟨.seq (strCI "@") (wordsCI ["debug", "warn", "if", "while"]), .tok .Keyword,
      [.push "value"]⟩,
    ⟨.seq (.grp 1 (strCI "@mixin")) (.grp 2 (.seq (strCI " ") (Pat.plus (.cls wordDash)))),
      .byGroups [.tok .Keyword, .tok .NameFunction], [.push "value"]⟩,
    ⟨.seq (.grp 1 (strCI "@include")) (.grp 2 (.seq (strCI " ") (Pat.plus (.cls wordDash)))),
      .byGroups [.tok .Keyword, .tok .NameDecorator], [.push "value"]⟩,
    ⟨strCI "@extend", .tok .Keyword, [.push "selector"]⟩,
    ⟨.seq (strCI "@") (Pat.plus (.cls identCh)), .tok .Keyword, [.push "selector"]⟩,
    ⟨.seq (strCI "=") (Pat.plus (.cls wordDash)), .tok .NameFunction, [.push "value"]⟩,
    ⟨.seq (strCI "+") (Pat.plus (.cls wordDash)), .tok .NameDecorator, [.push "value"]⟩,
    ⟨.seq (.grp 1 (seqL [oneOf "!$", .cls wordDash, .star (.cls pyWord) false]))
          (.grp 2 (.seq (.star (oneOf " \t") false)
                        (.alt (.seq (Pat.opt (strCI "||")) (strCI "=")) (strCI ":")))),
      .byGroups [.tok .NameVariable, .tok .Operator], [.push "value"]⟩,
    ⟨strCI ":", .tok .NameAttribute, [.push "old-style-attr"]⟩,
    ⟨.look (.seq (Pat.plus (.dot false) true)
                 (.seq (oneOf "=:") (.alt (.cls (fun c => !c.isAlpha)) (.eol false)))) false,
      .tok .NameAttribute, [.push "new-style-attr"]⟩,
    ⟨.eps, .tok .Text, [.push "selector"]⟩ ]

/-- `SassLexer.tokens['single-comment']` (lines 1521-1524). -/
def singleComment : List ERule :=
  [ ⟨Pat.plus (.dot false), .tok .CommentSingle, []⟩,
    ⟨strCI "\n", .tok .Text, [.push "root"]⟩ ]

/-- `SassLexer.tokens['multi-comment']` (lines 1526-1529). -/
def multiComment : List ERule :=
  [ ⟨Pat.plus (.dot false), .tok .CommentMultiline, []⟩,
    ⟨strCI "\n", .tok .Text, [.push "root"]⟩ ]

/-- `SassLexer.tokens['import']` (lines 1531-1535). -/
def importState : List ERule :=
  [ ⟨Pat.plus (oneOf " \t"), .tok .Text, []⟩,
    ⟨Pat.plus (.cls (fun c => !pySpace c)), .tok .Str, []⟩,
    ⟨strCI "\n", .tok .Text, [.push "root"]⟩ ]

/-- `[^\s:="\[]`. -/
def attrCh (c : Char) : Bool :=
  !(pySpace c || c == ':' || c == '=' || c == '"' || c == '[')

/-- `SassLexer.tokens['old-style-attr']` (lines 1537-1542). -/
def oldStyleAttr : List ERule :=
  [ ⟨Pat.plus (.cls attrCh), .tok .NameAttribute, []⟩,
    ⟨strCI "#\x7b", .tok .StringInterpol, [.push "interpolation"]⟩,
    ⟨.seq (.star (oneOf " \t") false) (strCI "="), .tok .Operator, [.push "value"]⟩,
    ⟨.eps, .tok .Text, [.push "value"]⟩ ]

/-- `SassLexer.tokens['new-style-attr']` (lines 1544-1548). -/
def newStyleAttr : List ERule :=
  [ ⟨Pat.plus (.cls attrCh), .tok .NameAttribute, []⟩,
    ⟨strCI "#\x7b", .tok .StringInterpol, [.push "interpolation"]⟩,
    ⟨.seq (.star (oneOf " \t") false) (oneOf "=:"), .tok .Operator, [.push "value"]⟩ ]

/-- `SassLexer.tokens['inline-comment']` (lines 1550-1554). -/
def inlineComment : List ERule :=
  [ ⟨Pat.plus (altL [strCI "\\#",
                     .seq (strCI "#") (.look (.cls (fun c => !(c == '\n' || c == '\x7b'))) false),
                     .seq (strCI "*") (.look (.cls (fun c => !(c == '\n' || c == '/'))) false),
                     noneOf "\n#*"]), .tok .CommentMultiline, []⟩,
    ⟨strCI "#\x7b", .tok .StringInterpol, [.push "interpolation"]⟩,
    ⟨strCI "*/", .tok .Comment, [.pop 1]⟩ ]

/-- The `value` state after `tokens['value'].append((r'\n', Text, 'root'))`
(line 1557). -/
def valueS : List ERule := value ++ [⟨strCI "\n", .tok .Text, [.push "root"]⟩]

/-- The `selector` state after the line-1558 append. -/
def selectorS : List ERule := selector ++ [⟨strCI "\n", .tok .Text, [.push "root"]⟩]

/-- `common_sass_tokens['interpolation']` (lines 1421-1424) with its
`include('value')` inlined; inclusion is resolved lazily at first use,
after the appends of lines 1557-1558, so the included list is `valueS`. -/
def interpolation : List ERule :=
  ⟨strCI "\x7d", .tok .StringInterpol, [.pop 1]⟩ :: valueS

/-- `common_sass_tokens['for']` (lines 1475-1478) with `include('value')`
inlined (as above, after the appends). -/
def forState : List ERule :=
  ⟨wordsCI ["from", "to", "through"], .tok .OperatorWord, []⟩ :: valueS

/-- The assembled `SassLexer.tokens` table. -/
def tokens : ETable := fun s =>
  if s = "root" then root
  else if s = "content" then content
  else if s = "single-comment" then singleComment
  else if s = "multi-comment" then multiComment
  else if s = "import" then importState
  else if s = "old-style-attr" then oldStyleAttr
  else if s = "new-style-attr" then newStyleAttr
  else if s = "inline-comment" then inlineComment
  else if s = "value" then valueS
  else if s = "interpolation" then interpolation
  else if s = "selector" then selectorS
  else if s = "string-double" then stringDouble
  else if s = "string-single" then stringSingle
  else if s = "string-url" then stringUrl
  else if s = "pseudo-class" then pseudoClass
  else if s = "class" then classState
  else if s = "id" then idState
  else if s = "for" then forState
  else []

end SassLexer

end Pyg

namespace Pyg

@[simp] theorem firstMatchE_nil (t : Chars) (pos : Nat) : firstMatchE [] t pos = none := rfl

theorem firstMatchE_cons (r : ERule) (rest : List ERule) (t : Chars) (pos : Nat) :
    firstMatchE (r :: rest) t pos =
      (match matchPat r.pat t pos with
       | some (e, g) => some (r, e, g)
       | none => firstMatchE rest t pos) := rfl

theorem firstMatchE_spec :
    ∀ (rules : List ERule) (t : Chars) (pos : Nat) (r : ERule) (e : Nat) (g : GMap),
      firstMatchE rules t pos = some (r, e, g) →
      r ∈ rules ∧ matchPat r.pat t pos = some (e, g) := by
  intro rules
  induction rules with
  | nil => intro t pos r e g h; simp at h
  | cons r0 rest ih =>
    intro t pos r e g h
    rw [firstMatchE_cons] at h
    rcases hm : matchPat r0.pat t pos with _ | ⟨e0, g0⟩ <;> rw [hm] at h
    · have := ih t pos r e g h
      exact ⟨List.mem_cons.2 (Or.inr this.1), this.2⟩
    · simp only [Option.some.injEq, Prod.mk.injEq] at h
      obtain ⟨h1, h2, h3⟩ := h
      subst h1; subst h2; subst h3
      exact ⟨List.mem_cons_self _ _, hm⟩

theorem firstMatchE_append (l1 l2 : List ERule) (t : Chars) (pos : Nat) :
    firstMatchE (l1 ++ l2) t pos =
      (match firstMatchE l1 t pos with
       | some x => some x
       | none => firstMatchE l2 t pos) := by
  induction l1 with
  | nil => simp
  | cons r rest ih =>
    rw [List.cons_append, firstMatchE_cons, firstMatchE_cons]
    rcases matchPat r.pat t pos with _ | ⟨e, g⟩
    · simpa using ih
    · simp

theorem stepTokE_none_iff {T : ETable} {t : Chars} {cx : ECtx} :
    stepTokE T t cx = none ↔ t.length ≤ cx.pos := by
  unfold stepTokE
  split
  · rename_i hlt
    constructor
    · intro h
      rcases hm : firstMatchE (T (cx.stack.headD "root")) t cx.pos with _ | ⟨r, stop, g⟩ <;>
        rw [hm] at h <;> simp at h
      split at h <;> simp at h
    · intro h; omega
  · rename_i h; simp; omega

theorem stepTokE_fallback {T : ETable} {t : Chars} {cx : ECtx}
    (hlt : cx.pos < t.length)
    (hm : firstMatchE (T (cx.stack.headD "root")) t cx.pos = none) :
    stepTokE T t cx =
      some ([⟨cx.pos, Tok.Text, slice t cx.pos (cx.pos + 1)⟩], { cx with pos := cx.pos + 1 }) := by
  unfold stepTokE
  rw [if_pos hlt, hm]

theorem stepTokE_match_tok {T : ETable} {t : Chars} {cx : ECtx} {r : ERule}
    {stop : Nat} {g : GMap} {c : Tok}
    (hlt : cx.pos < t.length)
    (hm : firstMatchE (T (cx.stack.headD "root")) t cx.pos = some (r, stop, g))
    (hact : r.act = .tok c)
    (hpr : ¬(stop = cx.pos ∧ applyOps r.ops cx.stack = cx.stack)) :
    stepTokE T t cx =
      some ([⟨cx.pos, c, slice t cx.pos stop⟩],
            { cx with pos := stop, stack := applyOps r.ops cx.stack }) := by
  unfold stepTokE
  rw [if_pos hlt, hm]
  simp only [hact]
  rw [if_neg (by simpa using hpr)]

theorem stepTokE_match_bygroups {T : ETable} {t : Chars} {cx : ECtx} {r : ERule}
    {stop : Nat} {g : GMap} {l : List GAct}
    (hlt : cx.pos < t.length)
    (hm : firstMatchE (T (cx.stack.headD "root")) t cx.pos = some (r, stop, g))
    (hact : r.act = .byGroups l)
    (hpr : ¬(stop = cx.pos ∧ applyOps r.ops cx.stack = cx.stack)) :
    stepTokE T t cx =
      some (emitGroups t g l 1,
            { cx with pos := stop, stack := applyOps r.ops cx.stack }) := by
  unfold stepTokE
  rw [if_pos hlt, hm]
  simp only [hact]
  rw [if_neg (by simpa using hpr)]

theorem stepTokE_match_callb {T : ETable} {t : Chars} {cx : ECtx} {r : ERule}
    {stop : Nat} {g : GMap} {f : Chars → Nat → Nat → ECtx → List Token × ECtx}
    (hlt : cx.pos < t.length)
    (hm : firstMatchE (T (cx.stack.headD "root")) t cx.pos = some (r, stop, g))
    (hact : r.act = .callb f)
    (hpr : ¬((({ (f (slice t cx.pos stop) cx.pos stop cx).2 with
          stack := applyOps r.ops (f (slice t cx.pos stop) cx.pos stop cx).2.stack } : ECtx)).pos
            = cx.pos ∧
        (({ (f (slice t cx.pos stop) cx.pos stop cx).2 with
          stack := applyOps r.ops (f (slice t cx.pos stop) cx.pos stop cx).2.stack } : ECtx)).stack
            = cx.stack)) :
    stepTokE T t cx =
      some ((f (slice t cx.pos stop) cx.pos stop cx).1,
            { (f (slice t cx.pos stop) cx.pos stop cx).2 with
              stack := applyOps r.ops (f (slice t cx.pos stop) cx.pos stop cx).2.stack }) := by
  unfold stepTokE
  rw [if_pos hlt, hm]
  simp only [hact]
  rw [if_neg (by simpa using hpr)]

theorem runTokE_succ_of_step {T : ETable} {t : Chars} {cx : ECtx} {ts : List Token} {cx' : ECtx}
    (fuel : Nat) (h : stepTokE T t cx = some (ts, cx')) :
    runTokE T t (fuel + 1) cx =
      (ts ++ (runTokE T t fuel cx').1, (runTokE T t fuel cx').2) := by
  simp [runTokE, h]

theorem matchPat_star_some (p : Pat) (lz : Bool) (t : Chars) (pos : Nat) :
    ∃ e g, matchPat (.star p lz) t pos = some (e, g) := by
  unfold matchPat
  rcases hm : Pat.runF (t.length + 1 - pos) (.star p lz) t pos [] with _ | ⟨a, rest⟩
  · exact absurd hm (runF_star_ne _ _ _ _ _ _)
  · exact ⟨a.1, a.2, rfl⟩

end Pyg

namespace Pyg

theorem all_map_mem {α β : Type} {f : α → β} {p : β → Bool} {l : List α}
    (h : (l.map f).all p = true) {a : α} (ha : a ∈ l) : p (f a) = true := by
  rw [List.all_eq_true] at h
  exact h _ (List.mem_map_of_mem _ ha)

/-- The three states that can only sit directly above `selector`. -/
def pcidB (s : String) : Bool := s == "pseudo-class" || s == "class" || s == "id"

/-- Stack-shape invariant of the Sass scan: every pseudo-class/class/id
entry has `selector` directly beneath it. -/
def PInv : List String → Prop
  | [] => True
  | [s] => pcidB s = false
  | a :: b :: rest => (pcidB a = true → b = "selector") ∧ PInv (b :: rest)

theorem PInv_push_nonpcid {x : String} (hx : pcidB x = false) :
    ∀ {st : List String}, PInv st → PInv (x :: st) := by
  intro st h
  cases st with
  | nil => exact hx
  | cons b rest => exact ⟨fun hc => absurd hc (by simp [hx]), h⟩

theorem PInv_push_selector {x : String} :
    ∀ {st : List String}, PInv st → st.head? = some "selector" → PInv (x :: st) := by
  intro st h hh
  cases st with
  | nil => simp at hh
  | cons b rest =>
    simp at hh
    exact ⟨fun _ => hh, h⟩

theorem PInv_tail : ∀ {a : String} {st : List String}, PInv (a :: st) → PInv st := by
  intro a st h
  cases st with
  | nil => trivial
  | cons b rest => exact h.2

theorem PInv_pop1 : ∀ {st : List String}, PInv st → PInv (applyOp (.pop 1) st) := by
  intro st h
  cases st with
  | nil => trivial
  | cons a rest =>
    cases rest with
    | nil => simpa [applyOp] using h
    | cons b r2 =>
      have : applyOp (.pop 1) (a :: b :: r2) = b :: r2 := by simp [applyOp]
      rw [this]
      exact h.2

theorem PInv_pcid_top {p : String} {rest : List String} (h : PInv (p :: rest))
    (hp : pcidB p = true) : ∃ r2, rest = "selector" :: r2 := by
  cases rest with
  | nil => exact absurd hp (by simpa using h)
  | cons b r2 => exact ⟨r2, by rw [h.1 hp]⟩

/-- Termination rank by top state. -/
def rankS : String → Nat
  | "root" => 3
  | "content" => 2
  | "old-style-attr" => 2
  | "pseudo-class" => 2
  | "class" => 2
  | "id" => 2
  | _ => 1

theorem rankS_le (s : String) : rankS s ≤ 3 := by
  unfold rankS
  split <;> omega

theorem rankS_pos (s : String) : 1 ≤ rankS s := by
  unfold rankS
  split <;> omega

/-- Strictly decreasing measure for the Sass scan. -/
def sassMeasure (t : Chars) (cx : ECtx) : Nat :=
  4 * (t.length - cx.pos) + rankS (cx.stack.headD "root")

/-- Invariant of reachable Sass contexts. -/
def SassInv (cx : ECtx) : Prop :=
  cx.stack ≠ [] ∧ PInv cx.stack ∧
  (cx.blockState = none ∨ cx.blockState = some "single-comment" ∨
   cx.blockState = some "multi-comment")

/-- Not a callback action. -/
def isCB : EAct → Bool
  | .callb _ => true
  | _ => false

/-- Stack operations of the non-selector Sass rules: nothing, one pop, or
a push of a non-pseudo-class/class/id state. -/
def opsOKB : List SOp → Bool
  | [] => true
  | [.pop 1] => true
  | [.push nm] => !pcidB nm
  | _ => false

/-- Stack operations of the selector rules: nothing or one push. -/
def opsSelOKB : List SOp → Bool
  | [] => true
  | [.push _] => true
  | _ => false

end Pyg

namespace Pyg

theorem opsOKB_cases {o : List SOp} (h : opsOKB o = true) :
    o = [] ∨ o = [.pop 1] ∨ ∃ nm, o = [.push nm] ∧ pcidB nm = false := by
  match o, h with
  | [], _ => exact Or.inl rfl
  | [.pop 1], _ => exact Or.inr (Or.inl rfl)
  | [.push nm], h =>
    refine Or.inr (Or.inr ⟨nm, rfl, ?_⟩)
    simpa [opsOKB] using h

theorem opsSelOKB_cases {o : List SOp} (h : opsSelOKB o = true) :
    o = [] ∨ ∃ nm, o = [.push nm] := by
  match o, h with
  | [], _ => exact Or.inl rfl
  | [.push nm], _ => exact Or.inr ⟨nm, rfl⟩

/-- An advancing non-callback rule keeps the Sass invariant and decreases
the measure. -/
theorem sass_step_of_rule {t : Chars} {cx : ECtx} {r : ERule} {stop : Nat} {g : GMap}
    (hlt : cx.pos < t.length)
    (hm : firstMatchE (SassLexer.tokens (cx.stack.headD "root")) t cx.pos = some (r, stop, g))
    (hstop : cx.pos < stop) (hsle : stop ≤ t.length)
    (hnc : isCB r.act = false)
    (hops : opsOKB r.ops = true ∨
      (opsSelOKB r.ops = true ∧ cx.stack.head? = some "selector"))
    (hInv : SassInv cx) :
    ∃ ts cx', stepTokE SassLexer.tokens t cx = some (ts, cx') ∧ SassInv cx' ∧
      sassMeasure t cx' < sassMeasure t cx := by
  obtain ⟨hne, hpi, hbs⟩ := hInv
  have hpr : ¬(stop = cx.pos ∧ applyOps r.ops cx.stack = cx.stack) := by
    intro hcon; omega
  have hstack : applyOps r.ops cx.stack ≠ [] ∧ PInv (applyOps r.ops cx.stack) := by
    rcases hops with h | ⟨h, hh⟩
    · rcases opsOKB_cases h with ho | ho | ⟨nm, ho, hnm⟩ <;> rw [ho]
      · exact ⟨hne, hpi⟩
      · have : applyOps [SOp.pop 1] cx.stack = applyOp (.pop 1) cx.stack := rfl
        rw [this]
        exact ⟨applyOp_ne_nil _ _ hne, PInv_pop1 hpi⟩
      · have : applyOps [SOp.push nm] cx.stack = nm :: cx.stack := rfl
        rw [this]
        exact ⟨by simp, PInv_push_nonpcid hnm hpi⟩
    · rcases opsSelOKB_cases h with ho | ⟨nm, ho⟩ <;> rw [ho]
      · exact ⟨hne, hpi⟩
      · have : applyOps [SOp.push nm] cx.stack = nm :: cx.stack := rfl
        rw [this]
        exact ⟨by simp, PInv_push_selector hpi hh⟩
  have hmeas : ∀ st : List String,
      sassMeasure t ⟨stop, st, cx.lastIndentation, cx.blockState, cx.blockIndentation⟩ <
        sassMeasure t cx := by
    intro st
    unfold sassMeasure
    have h1 := rankS_le (st.headD "root")
    have h2 := rankS_pos (cx.stack.headD "root")
    simp only
    omega
  cases hact : r.act with
  | tok c =>
    refine ⟨_, _, stepTokE_match_tok hlt hm hact hpr, ⟨hstack.1, hstack.2, hbs⟩, ?_⟩
    exact hmeas _
  | byGroups l =>
    refine ⟨_, _, stepTokE_match_bygroups hlt hm hact hpr, ⟨hstack.1, hstack.2, hbs⟩, ?_⟩
    exact hmeas _
  | callb f => rw [hact] at hnc; simp [isCB] at hnc

/-- A state whose rules are all non-nullable, callback-free and
stack-safe always advances (by match or fallback) and keeps the
invariant. -/
theorem sass_step_uniform {t : Chars} {cx : ECtx} {rules : List ERule}
    (hlt : cx.pos < t.length)
    (htab : SassLexer.tokens (cx.stack.headD "root") = rules)
    (hnn : (rules.map (fun r => r.pat.nn)).all (fun b => b) = true)
    (hnc : (rules.map (fun r => isCB r.act)).all (fun b => !b) = true)
    (hops : (rules.map (fun r => opsOKB r.ops)).all (fun b => b) = true ∨
      ((rules.map (fun r => opsSelOKB r.ops)).all (fun b => b) = true ∧
        cx.stack.head? = some "selector"))
    (hInv : SassInv cx) :
    ∃ ts cx', stepTokE SassLexer.tokens t cx = some (ts, cx') ∧ SassInv cx' ∧
      sassMeasure t cx' < sassMeasure t cx := by
  rcases hm : firstMatchE (SassLexer.tokens (cx.stack.headD "root")) t cx.pos with
    _ | ⟨r, stop, g⟩
  · refine ⟨_, _, stepTokE_fallback hlt hm, ?_, ?_⟩
    · exact ⟨hInv.1, hInv.2.1, hInv.2.2⟩
    · unfold sassMeasure
      have h1 := rankS_le (cx.stack.headD "root")
      have h2 := rankS_pos (cx.stack.headD "root")
      simp only
      omega
  · rw [htab] at hm
    obtain ⟨hmem, hmp⟩ := firstMatchE_spec _ t cx.pos r stop g hm
    have hnnr := all_map_mem hnn hmem
    have hncr := all_map_mem hnc hmem
    simp only at hnnr hncr
    have hstop : cx.pos < stop := matchPat_nn hnnr hmp
    have hsle : stop ≤ t.length := matchPat_le (le_of_lt hlt) hmp
    refine sass_step_of_rule hlt (by rw [htab]; exact hm) hstop hsle (by simpa using hncr)
      ?_ hInv
    rcases hops with h | ⟨h, hh⟩
    · exact Or.inl (all_map_mem h hmem)
    · exact Or.inr ⟨all_map_mem h hmem, hh⟩

end Pyg

namespace Pyg

theorem stack_decomp {st : List String} (h : st ≠ []) :
    st = st.headD "root" :: st.tail := by
  cases st with
  | nil => exact absurd rfl h
  | cons a rest => rfl

theorem applyOp_pop1_cons2 (a b : String) (r : List String) :
    applyOp (.pop 1) (a :: b :: r) = b :: r := by
  simp [applyOp]

/-- The pseudo-class / class / id states: two advancing rules, then the
zero-width `(r'', Text, '#pop')`, which lands on `selector`. -/
theorem sass_step_pcid {t : Chars} {cx : ECtx} (s : String)
    (htop : cx.stack.headD "root" = s)
    (hs : pcidB s = true) (hrank : rankS s = 2)
    {r1 r2 : ERule}
    (htab : SassLexer.tokens s = [r1, r2, ⟨.eps, .tok .Text, [.pop 1]⟩])
    (hnn1 : r1.pat.nn = true) (hnn2 : r2.pat.nn = true)
    (hnc1 : isCB r1.act = false) (hnc2 : isCB r2.act = false)
    (hop1 : opsOKB r1.ops = true) (hop2 : opsOKB r2.ops = true)
    (hlt : cx.pos < t.length) (hInv : SassInv cx) :
    ∃ ts cx', stepTokE SassLexer.tokens t cx = some (ts, cx') ∧ SassInv cx' ∧
      sassMeasure t cx' < sassMeasure t cx := by
  have htab' : SassLexer.tokens (cx.stack.headD "root") =
      [r1, r2, ⟨.eps, .tok .Text, [.pop 1]⟩] := by rw [htop]; exact htab
  rcases hm1 : matchPat r1.pat t cx.pos with _ | ⟨e, g⟩
  · rcases hm2 : matchPat r2.pat t cx.pos with _ | ⟨e, g⟩
    · -- the zero-width pop fires
      have hfm : firstMatchE (SassLexer.tokens (cx.stack.headD "root")) t cx.pos =
          some (⟨.eps, .tok .Text, [.pop 1]⟩, cx.pos, []) := by
        rw [htab', firstMatchE_cons, hm1, firstMatchE_cons, hm2, firstMatchE_cons]
        simp
      obtain ⟨hne, hpi, hbs⟩ := hInv
      have hst : cx.stack = s :: cx.stack.tail := by
        have := stack_decomp hne
        rw [htop] at this
        exact this
      have hpi' : PInv (s :: cx.stack.tail) := by rw [← hst]; exact hpi
      obtain ⟨r2', hr2⟩ := PInv_pcid_top hpi' hs
      have happ : applyOps [SOp.pop 1] cx.stack = "selector" :: r2' := by
        have h1 : applyOps [SOp.pop 1] cx.stack = applyOp (.pop 1) cx.stack := rfl
        rw [h1, hst, hr2, applyOp_pop1_cons2]
      have hpr : ¬(cx.pos = cx.pos ∧ applyOps [SOp.pop 1] cx.stack = cx.stack) := by
        rw [happ, hst, hr2]
        intro hcon
        have := hcon.2
        exact absurd this.symm (List.cons_ne_self _ _)
      refine ⟨_, _, stepTokE_match_tok hlt hfm rfl hpr, ?_, ?_⟩
      · refine ⟨by rw [happ]; simp, ?_, hbs⟩
        rw [happ]
        have : PInv ("selector" :: r2') := by rw [← hr2]; exact PInv_tail hpi'
        exact this
      · unfold sassMeasure
        simp only [happ, htop, hrank]
        have : rankS (("selector" :: r2').headD "root") = 1 := rfl
        rw [this]
        omega
    · -- r2 advances
      have hfm : firstMatchE (SassLexer.tokens (cx.stack.headD "root")) t cx.pos =
          some (r2, e, g) := by
        rw [htab', firstMatchE_cons, hm1, firstMatchE_cons, hm2]
      exact sass_step_of_rule hlt hfm (matchPat_nn hnn2 hm2)
        (matchPat_le (le_of_lt hlt) hm2) hnc2 (Or.inl hop2) hInv
  · -- r1 advances
    have hfm : firstMatchE (SassLexer.tokens (cx.stack.headD "root")) t cx.pos =
        some (r1, e, g) := by
      rw [htab', firstMatchE_cons, hm1]
    exact sass_step_of_rule hlt hfm (matchPat_nn hnn1 hm1)
      (matchPat_le (le_of_lt hlt) hm1) hnc1 (Or.inl hop1) hInv

end Pyg

namespace Pyg

/-- Whatever `_indentation` does, it pushes exactly one low-rank,
non-pseudo-class state, moves to the match end, and keeps the block-state
range of the invariant. -/
theorem indentation_out (m : Chars) (s e : Nat) (p : Nat) (st : List String)
    (li : Option Chars) (bs : Option String) (bi : Option Chars)
    (hbs : bs = none ∨ bs = some "single-comment" ∨ bs = some "multi-comment") :
    ∃ x cxr, _indentation m s e ⟨p, st, li, bs, bi⟩ = ([⟨s, Tok.Text, m⟩], cxr) ∧
      cxr.stack = x :: st ∧ pcidB x = false ∧ rankS x ≤ 2 ∧ cxr.pos = e ∧
      (cxr.blockState = none ∨ cxr.blockState = some "single-comment" ∨
       cxr.blockState = some "multi-comment") := by
  rcases hbs with rfl | rfl | rfl
  · exact ⟨"content", ⟨e, "content" :: st, some m, none, none⟩,
      rfl, rfl, by decide, by decide, rfl, Or.inl rfl⟩
  · by_cases hc : (("single-comment" : String) != "" && (bi.getD []).isPrefixOf m &&
        m != bi.getD []) = true
    · refine ⟨"single-comment", ⟨e, "single-comment" :: st, some m, some "single-comment", bi⟩,
        ?_, rfl, by decide, by decide, rfl, Or.inr (Or.inl rfl)⟩
      simp only [_indentation]
      rw [if_pos hc]
    · refine ⟨"content", ⟨e, "content" :: st, some m, none, none⟩,
        ?_, rfl, by decide, by decide, rfl, Or.inl rfl⟩
      simp only [_indentation]
      rw [if_neg hc]
  · by_cases hc : (("multi-comment" : String) != "" && (bi.getD []).isPrefixOf m &&
        m != bi.getD []) = true
    · refine ⟨"multi-comment", ⟨e, "multi-comment" :: st, some m, some "multi-comment", bi⟩,
        ?_, rfl, by decide, by decide, rfl, Or.inr (Or.inr rfl)⟩
      simp only [_indentation]
      rw [if_pos hc]
    · refine ⟨"content", ⟨e, "content" :: st, some m, none, none⟩,
        ?_, rfl, by decide, by decide, rfl, Or.inl rfl⟩
      simp only [_indentation]
      rw [if_neg hc]

end Pyg

namespace Pyg

/-- The `root` state of SassLexer: either the blank-line rule consumes at
least a newline, or the `_indentation` callback pushes a state of lower
rank (advancing to the end of the matched indentation). -/
theorem sass_step_root {t : Chars} {cx : ECtx}
    (htop : cx.stack.headD "root" = "root")
    (hlt : cx.pos < t.length) (hInv : SassInv cx) :
    ∃ ts cx', stepTokE SassLexer.tokens t cx = some (ts, cx') ∧ SassInv cx' ∧
      sassMeasure t cx' < sassMeasure t cx := by
  obtain ⟨p, st, li, bs, bi⟩ := cx
  simp only at htop hlt
  obtain ⟨hne, hpi, hbs⟩ := hInv
  simp only at hne hpi hbs
  have htab : SassLexer.tokens ((⟨p, st, li, bs, bi⟩ : ECtx).stack.headD "root") =
      SassLexer.root := by rw [htop]; rfl
  rcases hm1 : matchPat (Pat.seq (.star (oneOf " \t") false) (strCI "\n")) t p with _ | ⟨e, g⟩
  · -- the indentation callback rule fires
    obtain ⟨e, g, hm2⟩ := matchPat_star_some (oneOf " \t") false t p
    have hge : p ≤ e := matchPat_ge hm2
    have hle : e ≤ t.length := matchPat_le (le_of_lt hlt) hm2
    have hfm : firstMatchE (SassLexer.tokens ((⟨p, st, li, bs, bi⟩ : ECtx).stack.headD "root"))
        t p = some (⟨.star (oneOf " \t") false, .callb _indentation, []⟩, e, g) := by
      rw [htab]
      simp only [SassLexer.root, firstMatchE_cons, hm1, hm2]
    obtain ⟨x, cxr, hind, hxstack, hxpcid, hxrank, hxpos, hxbs⟩ :=
      indentation_out (slice t p e) p e p st li bs bi hbs
    have happ : ∀ l : List String, applyOps ([] : List SOp) l = l := fun _ => rfl
    have hpr : ¬((({ (_indentation (slice t p e) p e ⟨p, st, li, bs, bi⟩).2 with
          stack := applyOps [] (_indentation (slice t p e) p e ⟨p, st, li, bs, bi⟩).2.stack }
            : ECtx)).pos = (⟨p, st, li, bs, bi⟩ : ECtx).pos ∧
        (({ (_indentation (slice t p e) p e ⟨p, st, li, bs, bi⟩).2 with
          stack := applyOps [] (_indentation (slice t p e) p e ⟨p, st, li, bs, bi⟩).2.stack }
            : ECtx)).stack = (⟨p, st, li, bs, bi⟩ : ECtx).stack) := by
      rw [hind]
      intro hcon
      have h2 := hcon.2
      simp only [happ, hxstack] at h2
      exact absurd h2 (List.cons_ne_self _ _)
    refine ⟨_, _, stepTokE_match_callb hlt hfm rfl hpr, ?_, ?_⟩
    · rw [hind]
      refine ⟨?_, ?_, ?_⟩
      · simp only [happ, hxstack]; simp
      · simp only [happ, hxstack]
        exact PInv_push_nonpcid hxpcid hpi
      · simpa using hxbs
    · rw [hind]
      unfold sassMeasure
      simp only [happ, hxstack, hxpos, htop]
      have : rankS ((x :: st).headD "root") = rankS x := rfl
      rw [this]
      have hr : rankS "root" = 3 := rfl
      rw [hr]
      omega
  · -- the blank-line rule fires and consumes at least one character
    have hfm : firstMatchE (SassLexer.tokens ((⟨p, st, li, bs, bi⟩ : ECtx).stack.headD "root"))
        t p = some (⟨.seq (.star (oneOf " \t") false) (strCI "\n"), .tok .Text, []⟩, e, g) := by
      rw [htab]
      simp only [SassLexer.root, firstMatchE_cons, hm1]
    exact sass_step_of_rule hlt hfm (matchPat_nn (by decide) hm1)
      (matchPat_le (le_of_lt hlt) hm1) (by decide) (Or.inl (by decide)) ⟨hne, hpi, hbs⟩

end Pyg

namespace Pyg

/-- A matched rule that emits one token and pushes a single
non-pseudo-class state of strictly smaller rank preserves the invariant
and decreases the measure, even when the match is zero-width. -/
theorem sass_step_pushtok {t : Chars} {cx : ECtx} {r : ERule} {stop : Nat} {g : GMap}
    {c : Tok} {nm : String}
    (hlt : cx.pos < t.length)
    (hm : firstMatchE (SassLexer.tokens (cx.stack.headD "root")) t cx.pos = some (r, stop, g))
    (hge : cx.pos ≤ stop) (hsle : stop ≤ t.length)
    (hact : r.act = .tok c) (hops : r.ops = [.push nm])
    (hnm : pcidB nm = false)
    (hrank : rankS nm < rankS (cx.stack.headD "root"))
    (hInv : SassInv cx) :
    ∃ ts cx', stepTokE SassLexer.tokens t cx = some (ts, cx') ∧ SassInv cx' ∧
      sassMeasure t cx' < sassMeasure t cx := by
  obtain ⟨hne, hpi, hbs⟩ := hInv
  have happ : applyOps r.ops cx.stack = nm :: cx.stack := by rw [hops]; rfl
  have hpr : ¬(stop = cx.pos ∧ applyOps r.ops cx.stack = cx.stack) := by
    rw [happ]
    intro hcon
    exact absurd hcon.2 (List.cons_ne_self _ _)
  refine ⟨_, _, stepTokE_match_tok hlt hm hact hpr, ?_, ?_⟩
  · rw [happ]
    exact ⟨by simp, PInv_push_nonpcid hnm hpi, hbs⟩
  · unfold sassMeasure
    simp only [happ]
    have : rankS ((nm :: cx.stack).headD "root") = rankS nm := rfl
    rw [this]
    omega

/-- A `_starts_block` callback rule (the two comment-opening rules of the
`content` state): consumes input, pushes `root`, and records a pending
block state that stays within the invariant's range. -/
theorem sass_step_startsblock {t : Chars} {cx : ECtx} {r : ERule} {stop : Nat} {g : GMap}
    {tok : Tok} {bn : String}
    (hlt : cx.pos < t.length)
    (hm : firstMatchE (SassLexer.tokens (cx.stack.headD "root")) t cx.pos = some (r, stop, g))
    (hstop : cx.pos < stop) (hsle : stop ≤ t.length)
    (hact : r.act = .callb (_starts_block tok bn))
    (hops : r.ops = [.push "root"])
    (hbn : bn = "single-comment" ∨ bn = "multi-comment")
    (hInv : SassInv cx) :
    ∃ ts cx', stepTokE SassLexer.tokens t cx = some (ts, cx') ∧ SassInv cx' ∧
      sassMeasure t cx' < sassMeasure t cx := by
  obtain ⟨p, st, li, bs, bi⟩ := cx
  simp only at hlt hm hstop
  obtain ⟨hne, hpi, hbs⟩ := hInv
  simp only at hne hpi hbs
  have hout : _starts_block tok bn (slice t p stop) p stop ⟨p, st, li, bs, bi⟩ =
      ([⟨p, tok, slice t p stop⟩], ⟨stop, st, li, some bn, some (li.getD [])⟩) := rfl
  have happ : applyOps r.ops st = "root" :: st := by rw [hops]; rfl
  have hpr : ¬((({ (_starts_block tok bn (slice t p stop) p stop ⟨p, st, li, bs, bi⟩).2 with
        stack := applyOps r.ops
          (_starts_block tok bn (slice t p stop) p stop ⟨p, st, li, bs, bi⟩).2.stack }
          : ECtx)).pos = (⟨p, st, li, bs, bi⟩ : ECtx).pos ∧
      (({ (_starts_block tok bn (slice t p stop) p stop ⟨p, st, li, bs, bi⟩).2 with
        stack := applyOps r.ops
          (_starts_block tok bn (slice t p stop) p stop ⟨p, st, li, bs, bi⟩).2.stack }
          : ECtx)).stack = (⟨p, st, li, bs, bi⟩ : ECtx).stack) := by
    rw [hout]
    intro hcon
    have h1 := hcon.1
    simp only at h1
    omega
  refine ⟨_, _, stepTokE_match_callb hlt hm hact hpr, ?_, ?_⟩
  · rw [hout]
    refine ⟨?_, ?_, ?_⟩
    · simp only [happ]; simp
    · simp only [happ]
      exact PInv_push_nonpcid (by rcases hbn with rfl | rfl <;> decide) hpi
    · rcases hbn with rfl | rfl
      · exact Or.inr (Or.inl rfl)
      · exact Or.inr (Or.inr rfl)
  · rw [hout]
    unfold sassMeasure
    simp only [happ]
    have h1 : rankS (("root" :: st).headD "root") = 3 := rfl
    rw [h1]
    have h2 := rankS_pos (st.headD "root")
    omega

end Pyg

namespace Pyg

namespace SassLexer

open common_sass_tokens

/-- The eleven ordinary rules of `tokens['content']` between the two
comment-opening callbacks and the final lookahead/empty rules. -/
def contentMid : List ERule :=
  [ ⟨strCI "@import", .tok .Keyword, [.push "import"]⟩,
    ⟨strCI "@for", .tok .Keyword, [.push "for"]⟩,
    ⟨.seq (strCI "@") (wordsCI ["debug", "warn", "if", "while"]), .tok .Keyword,
      [.push "value"]⟩,
    ⟨.seq (.grp 1 (strCI "@mixin")) (.grp 2 (.seq (strCI " ") (Pat.plus (.cls wordDash)))),
      .byGroups [.tok .Keyword, .tok .NameFunction], [.push "value"]⟩,
    ⟨.seq (.grp 1 (strCI "@include")) (.grp 2 (.seq (strCI " ") (Pat.plus (.cls wordDash)))),
      .byGroups [.tok .Keyword, .tok .NameDecorator], [.push "value"]⟩,
    ⟨strCI "@extend", .tok .Keyword, [.push "selector"]⟩,
    ⟨.seq (strCI "@") (Pat.plus (.cls identCh)), .tok .Keyword, [.push "selector"]⟩,
    ⟨.seq (strCI "=") (Pat.plus (.cls wordDash)), .tok .NameFunction, [.push "value"]⟩,
    ⟨.seq (strCI "+") (Pat.plus (.cls wordDash)), .tok .NameDecorator, [.push "value"]⟩,
    ⟨.seq (.grp 1 (seqL [oneOf "!$", .cls wordDash, .star (.cls pyWord) false]))
          (.grp 2 (.seq (.star (oneOf " \t") false)
                        (.alt (.seq (Pat.opt (strCI "||")) (strCI "=")) (strCI ":")))),
      .byGroups [.tok .NameVariable, .tok .Operator], [.push "value"]⟩,
    ⟨strCI ":", .tok .NameAttribute, [.push "old-style-attr"]⟩ ]

/-- The new-style-attribute lookahead rule of `tokens['content']`. -/
def contentLook : ERule :=
  ⟨.look (.seq (Pat.plus (.dot false) true)
               (.seq (oneOf "=:") (.alt (.cls (fun c => !c.isAlpha)) (.eol false)))) false,
    .tok .NameAttribute, [.push "new-style-attr"]⟩

theorem content_split :
    content =
      ⟨.seq (strCI "//") (.star (noneOf "\n") false),
        .callb (_starts_block .CommentSingle "single-comment"), [.push "root"]⟩ ::
      ⟨.seq (strCI "/*") (.star (noneOf "\n") false),
        .callb (_starts_block .CommentMultiline "multi-comment"), [.push "root"]⟩ ::
      (contentMid ++ [contentLook, ⟨.eps, .tok .Text, [.push "selector"]⟩]) := rfl

end SassLexer

end Pyg

namespace Pyg

theorem contentMid_nn :
    ((SassLexer.contentMid.map (fun r => r.pat.nn)).all (fun b => b)) = true := by decide

theorem contentMid_nc :
    ((SassLexer.contentMid.map (fun r => isCB r.act)).all (fun b => !b)) = true := by decide

theorem contentMid_ops :
    ((SassLexer.contentMid.map (fun r => opsOKB r.ops)).all (fun b => b)) = true := by decide

/-- The `content` state of SassLexer always steps, preserving the
invariant and decreasing the measure: the comment-opening callbacks
consume input and push `root`, the middle rules are non-nullable and
stack-safe, and the final lookahead/empty rules push a state of rank 1. -/
theorem sass_step_content {t : Chars} {cx : ECtx}
    (htop : cx.stack.headD "root" = "content")
    (hlt : cx.pos < t.length) (hInv : SassInv cx) :
    ∃ ts cx', stepTokE SassLexer.tokens t cx = some (ts, cx') ∧ SassInv cx' ∧
      sassMeasure t cx' < sassMeasure t cx := by
  have htab' : SassLexer.tokens (cx.stack.headD "root") = SassLexer.content := by
    rw [htop]; rfl
  rcases hmc1 : matchPat (Pat.seq (strCI "//") (.star (noneOf "\n") false)) t cx.pos
    with _ | ⟨e1, g1⟩
  · rcases hmc2 : matchPat (Pat.seq (strCI "/*") (.star (noneOf "\n") false)) t cx.pos
      with _ | ⟨e2, g2⟩
    · have hrest : firstMatchE (SassLexer.tokens (cx.stack.headD "root")) t cx.pos =
          firstMatchE (SassLexer.contentMid ++
            [SassLexer.contentLook, ⟨.eps, .tok .Text, [.push "selector"]⟩]) t cx.pos := by
        rw [htab', SassLexer.content_split, firstMatchE_cons, hmc1, firstMatchE_cons, hmc2]
      rcases h3 : firstMatchE SassLexer.contentMid t cx.pos with _ | ⟨r, stop, g⟩
      · rcases h4 : matchPat SassLexer.contentLook.pat t cx.pos with _ | ⟨e4, g4⟩
        · -- the empty rule pushes `selector`
          have hfm : firstMatchE (SassLexer.tokens (cx.stack.headD "root")) t cx.pos =
              some (⟨.eps, .tok .Text, [.push "selector"]⟩, cx.pos, []) := by
            rw [hrest, firstMatchE_append, h3, firstMatchE_cons, h4, firstMatchE_cons]
            simp
          exact sass_step_pushtok hlt hfm (le_refl _) (le_of_lt hlt) rfl rfl (by decide)
            (by rw [htop]; decide) hInv
        · -- the lookahead rule pushes `new-style-attr`
          have hfm : firstMatchE (SassLexer.tokens (cx.stack.headD "root")) t cx.pos =
              some (SassLexer.contentLook, e4, g4) := by
            rw [hrest, firstMatchE_append, h3, firstMatchE_cons, h4]
          exact sass_step_pushtok hlt hfm (matchPat_ge h4)
            (matchPat_le (le_of_lt hlt) h4) rfl rfl (by decide) (by rw [htop]; decide) hInv
      · -- one of the ordinary middle rules fires
        have hfm : firstMatchE (SassLexer.tokens (cx.stack.headD "root")) t cx.pos =
            some (r, stop, g) := by
          rw [hrest, firstMatchE_append, h3]
        obtain ⟨hmem, hmp⟩ := firstMatchE_spec _ t cx.pos r stop g h3
        have hnnr := all_map_mem contentMid_nn hmem
        have hncr := all_map_mem contentMid_nc hmem
        have hopr := all_map_mem contentMid_ops hmem
        simp only at hnnr hncr hopr
        exact sass_step_of_rule hlt hfm (matchPat_nn hnnr hmp)
          (matchPat_le (le_of_lt hlt) hmp) (by simpa using hncr) (Or.inl hopr) hInv
    · -- multi-line comment opener
      have hfm : firstMatchE (SassLexer.tokens (cx.stack.headD "root")) t cx.pos =
          some (⟨.seq (strCI "/*") (.star (noneOf "\n") false),
            .callb (_starts_block .CommentMultiline "multi-comment"), [.push "root"]⟩,
            e2, g2) := by
        rw [htab', SassLexer.content_split, firstMatchE_cons, hmc1, firstMatchE_cons, hmc2]
      exact sass_step_startsblock hlt hfm (matchPat_nn (by decide) hmc2)
        (matchPat_le (le_of_lt hlt) hmc2) rfl rfl (Or.inr rfl) hInv
  · -- single-line comment opener
    have hfm : firstMatchE (SassLexer.tokens (cx.stack.headD "root")) t cx.pos =
        some (⟨.seq (strCI "//") (.star (noneOf "\n") false),
          .callb (_starts_block .CommentSingle "single-comment"), [.push "root"]⟩,
          e1, g1) := by
      rw [htab', SassLexer.content_split, firstMatchE_cons, hmc1]
    exact sass_step_startsblock hlt hfm (matchPat_nn (by decide) hmc1)
      (matchPat_le (le_of_lt hlt) hmc1) rfl rfl (Or.inl rfl) hInv

end Pyg

namespace Pyg

/-- The `old-style-attr` state: three non-nullable rules, then the empty
rule pushing `value` (rank 1 < rank 2). -/
theorem sass_step_osa {t : Chars} {cx : ECtx}
    (htop : cx.stack.headD "root" = "old-style-attr")
    (hlt : cx.pos < t.length) (hInv : SassInv cx) :
    ∃ ts cx', stepTokE SassLexer.tokens t cx = some (ts, cx') ∧ SassInv cx' ∧
      sassMeasure t cx' < sassMeasure t cx := by
  have htab' : SassLexer.tokens (cx.stack.headD "root") = SassLexer.oldStyleAttr := by
    rw [htop]; rfl
  rcases h1 : matchPat (Pat.plus (.cls SassLexer.attrCh)) t cx.pos with _ | ⟨e1, g1⟩
  · rcases h2 : matchPat (strCI "#\x7b") t cx.pos with _ | ⟨e2, g2⟩
    · rcases h3 : matchPat (Pat.seq (.star (oneOf " \t") false) (strCI "=")) t cx.pos
        with _ | ⟨e3, g3⟩
      · have hfm : firstMatchE (SassLexer.tokens (cx.stack.headD "root")) t cx.pos =
            some (⟨.eps, .tok .Text, [.push "value"]⟩, cx.pos, []) := by
          rw [htab', SassLexer.oldStyleAttr, firstMatchE_cons, h1, firstMatchE_cons, h2,
            firstMatchE_cons, h3, firstMatchE_cons]
          simp
        exact sass_step_pushtok hlt hfm (le_refl _) (le_of_lt hlt) rfl rfl (by decide)
          (by rw [htop]; decide) hInv
      · have hfm : firstMatchE (SassLexer.tokens (cx.stack.headD "root")) t cx.pos =
            some (⟨.seq (.star (oneOf " \t") false) (strCI "="), .tok .Operator,
              [.push "value"]⟩, e3, g3) := by
          rw [htab', SassLexer.oldStyleAttr, firstMatchE_cons, h1, firstMatchE_cons, h2,
            firstMatchE_cons, h3]
        exact sass_step_of_rule hlt hfm (matchPat_nn (by decide) h3)
          (matchPat_le (le_of_lt hlt) h3) (by decide) (Or.inl (by decide)) hInv
    · have hfm : firstMatchE (SassLexer.tokens (cx.stack.headD "root")) t cx.pos =
          some (⟨strCI "#\x7b", .tok .StringInterpol, [.push "interpolation"]⟩, e2, g2) := by
        rw [htab', SassLexer.oldStyleAttr, firstMatchE_cons, h1, firstMatchE_cons, h2]
      exact sass_step_of_rule hlt hfm (matchPat_nn (by decide) h2)
        (matchPat_le (le_of_lt hlt) h2) (by decide) (Or.inl (by decide)) hInv
  · have hfm : firstMatchE (SassLexer.tokens (cx.stack.headD "root")) t cx.pos =
        some (⟨Pat.plus (.cls SassLexer.attrCh), .tok .NameAttribute, []⟩, e1, g1) := by
      rw [htab', SassLexer.oldStyleAttr, firstMatchE_cons, h1]
    exact sass_step_of_rule hlt hfm (matchPat_nn (by decide) h1)
      (matchPat_le (le_of_lt hlt) h1) (by decide) (Or.inl (by decide)) hInv

end Pyg

namespace Pyg

set_option maxRecDepth 40000 in
/-- One Sass scanning step from any reachable context: a step always
exists, preserves the invariant, and strictly decreases the measure. -/
theorem sass_step {t : Chars} {cx : ECtx}
    (hlt : cx.pos < t.length) (hInv : SassInv cx) :
    ∃ ts cx', stepTokE SassLexer.tokens t cx = some (ts, cx') ∧ SassInv cx' ∧
      sassMeasure t cx' < sassMeasure t cx := by
  by_cases hr : cx.stack.headD "root" = "root"
  · exact sass_step_root hr hlt hInv
  by_cases hc : cx.stack.headD "root" = "content"
  · exact sass_step_content hc hlt hInv
  by_cases hosa : cx.stack.headD "root" = "old-style-attr"
  · exact sass_step_osa hosa hlt hInv
  by_cases hpc : cx.stack.headD "root" = "pseudo-class"
  · exact sass_step_pcid "pseudo-class" hpc (by decide) (by decide) rfl (by decide) (by decide)
      (by decide) (by decide) (by decide) (by decide) hlt hInv
  by_cases hcl : cx.stack.headD "root" = "class"
  · exact sass_step_pcid "class" hcl (by decide) (by decide) rfl (by decide) (by decide)
      (by decide) (by decide) (by decide) (by decide) hlt hInv
  by_cases hid : cx.stack.headD "root" = "id"
  · exact sass_step_pcid "id" hid (by decide) (by decide) rfl (by decide) (by decide)
      (by decide) (by decide) (by decide) (by decide) hlt hInv
  by_cases hsl : cx.stack.headD "root" = "selector"
  · have hsel : cx.stack.head? = some "selector" := by
      have hd := stack_decomp hInv.1
      rw [hsl] at hd
      rw [hd]
      rfl
    exact sass_step_uniform hlt
      (show SassLexer.tokens (cx.stack.headD "root") = SassLexer.selectorS from by rw [hsl]; rfl)
      (by decide) (by decide) (Or.inr ⟨by decide, hsel⟩) hInv
  by_cases hsc : cx.stack.headD "root" = "single-comment"
  · exact sass_step_uniform hlt
      (show SassLexer.tokens (cx.stack.headD "root") = SassLexer.singleComment from by rw [hsc]; rfl)
      (by decide) (by decide) (Or.inl (by decide)) hInv
  by_cases hmc : cx.stack.headD "root" = "multi-comment"
  · exact sass_step_uniform hlt
      (show SassLexer.tokens (cx.stack.headD "root") = SassLexer.multiComment from by rw [hmc]; rfl)
      (by decide) (by decide) (Or.inl (by decide)) hInv
  by_cases him : cx.stack.headD "root" = "import"
  · exact sass_step_uniform hlt
      (show SassLexer.tokens (cx.stack.headD "root") = SassLexer.importState from by rw [him]; rfl)
      (by decide) (by decide) (Or.inl (by decide)) hInv
  by_cases hnsa : cx.stack.headD "root" = "new-style-attr"
  · exact sass_step_uniform hlt
      (show SassLexer.tokens (cx.stack.headD "root") = SassLexer.newStyleAttr from by rw [hnsa]; rfl)
      (by decide) (by decide) (Or.inl (by decide)) hInv
  by_cases hic : cx.stack.headD "root" = "inline-comment"
  · exact sass_step_uniform hlt
      (show SassLexer.tokens (cx.stack.headD "root") = SassLexer.inlineComment from by rw [hic]; rfl)
      (by decide) (by decide) (Or.inl (by decide)) hInv
  by_cases hv : cx.stack.headD "root" = "value"
  · exact sass_step_uniform hlt
      (show SassLexer.tokens (cx.stack.headD "root") = SassLexer.valueS from by rw [hv]; rfl)
      (by decide) (by decide) (Or.inl (by decide)) hInv
  by_cases hip : cx.stack.headD "root" = "interpolation"
  · exact sass_step_uniform hlt
      (show SassLexer.tokens (cx.stack.headD "root") = SassLexer.interpolation from by rw [hip]; rfl)
      (by decide) (by decide) (Or.inl (by decide)) hInv
  by_cases hsd : cx.stack.headD "root" = "string-double"
  · exact sass_step_uniform hlt
      (show SassLexer.tokens (cx.stack.headD "root") =
        common_sass_tokens.stringDouble from by rw [hsd]; rfl)
      (by decide) (by decide) (Or.inl (by decide)) hInv
  by_cases hss : cx.stack.headD "root" = "string-single"
  · exact sass_step_uniform hlt
      (show SassLexer.tokens (cx.stack.headD "root") =
        common_sass_tokens.stringSingle from by rw [hss]; rfl)
      (by decide) (by decide) (Or.inl (by decide)) hInv
  by_cases hsu : cx.stack.headD "root" = "string-url"
  · exact sass_step_uniform hlt
      (show SassLexer.tokens (cx.stack.headD "root") =
        common_sass_tokens.stringUrl from by rw [hsu]; rfl)
      (by decide) (by decide) (Or.inl (by decide)) hInv
  by_cases hfor : cx.stack.headD "root" = "for"
  · exact sass_step_uniform hlt
      (show SassLexer.tokens (cx.stack.headD "root") = SassLexer.forState from by rw [hfor]; rfl)
      (by decide) (by decide) (Or.inl (by decide)) hInv
  -- unknown state: the empty rule list, hence the one-character fallback
  have htab : SassLexer.tokens (cx.stack.headD "root") = [] := by
    unfold SassLexer.tokens
    rw [if_neg hr, if_neg hc, if_neg hsc, if_neg hmc, if_neg him, if_neg hosa, if_neg hnsa,
      if_neg hic, if_neg hv, if_neg hip, if_neg hsl, if_neg hsd, if_neg hss, if_neg hsu,
      if_neg hpc, if_neg hcl, if_neg hid, if_neg hfor]
  refine ⟨_, _, stepTokE_fallback hlt (by rw [htab]; rfl), ?_, ?_⟩
  · exact ⟨hInv.1, hInv.2.1, hInv.2.2⟩
  · unfold sassMeasure
    simp only
    omega

end Pyg

namespace Pyg

theorem sass_run_completes (t : Chars) :
    ∀ (n : Nat) (cx : ECtx), SassInv cx → sassMeasure t cx < n →
      (runTokE SassLexer.tokens t n cx).2.2 = true := by
  intro n
  induction n with
  | zero => intro cx _ h; omega
  | succ n ih =>
    intro cx hInv hm
    by_cases hlt : cx.pos < t.length
    · obtain ⟨ts, cx', hs, hInv', hdec⟩ := sass_step hlt hInv
      rw [runTokE_succ_of_step n hs]
      exact ih cx' hInv' (by omega)
    · have hnone : stepTokE SassLexer.tokens t cx = none :=
        stepTokE_none_iff.mpr (by omega)
      simp [runTokE, hnone]

/-- The Sass lexer terminates on every finite input: fuel `4 * |text| + 4`
always completes the scan (in particular the zero-width
`(r'', Text, 'selector')` rule of `content` never loops). -/
theorem sass_tokenize_finite (t : Chars) :
    (runTokE SassLexer.tokens t (4 * t.length + 4) ⟨0, ["root"], none, none, none⟩).2.2
      = true := by
  apply sass_run_completes
  · exact ⟨by simp, by show pcidB "root" = false; decide, Or.inl rfl⟩
  · unfold sassMeasure
    simp only
    have : rankS ((["root"] : List String).headD "root") = 3 := rfl
    rw [this]
    omega

end Pyg

namespace Pyg

/-- `re.search(p, text)`: does `p` match at some position of `text`
(positions `0 .. len`, leftmost tried first)?  Only the Boolean outcome
is consumed by the `analyse_text` heuristics below. -/
def searchPat (p : Pat) (t : Chars) : Bool :=
  (List.range (t.length + 1)).any (fun i => (matchPat p t i).isSome)

/-- Python's `sub in text` (used as `'?>' in text`). -/
def containsStr (s : Chars) (t : Chars) : Bool :=
  (List.range (t.length + 1)).any (fun i => litAt s false t i)

/-- `PhpLexer.analyse_text` (web.py lines 814-820): starts from `rv = 0.0`
and adds `0.3` for an occurrence of `<?` not followed by `xml`, and `0.1`
for an occurrence of `?>`. -/
def phpAnalyseText (t : Chars) : ℚ :=
  let rv : ℚ := 0
  let rv := if searchPat (.seq (strP "<?") (.look (strP "xml") true)) t then rv + 3/10 else rv
  let rv := if containsStr "?>".data t then rv + 1/10 else rv
  rv

/-- `ObjectiveJLexer.analyse_text` (web.py lines 609-613): a Boolean,
`True` iff `^\s*@import\s+[<"]` matches somewhere (re.MULTILINE). -/
def objjAnalyseText (t : Chars) : Bool :=
  searchPat (seqL [.bol true, .star (.cls pySpace) false, strP "@import",
                   Pat.plus (.cls pySpace), oneOf "<\""]) t

/-- `HaxeLexer.analyse_text` (web.py lines 1170-1171): `re.match` of
`\w+\s*:\s*\w` at position 0 returns `0.3`; otherwise the function falls
off its end, i.e. returns Python `None` — no score at all. -/
def haxeAnalyseText (t : Chars) : Option ℚ :=
  if (matchPat (seqL [Pat.plus (.cls pyWord), .star (.cls pySpace) false, strP ":",
                      .star (.cls pySpace) false, .cls pyWord]) t 0).isSome
  then some (3/10) else none

/-- `HtmlLexer.analyse_text` (web.py lines 667-669), with the external
collaborator `html_doctype_matches` (pygments.util, outside this
repository) abstracted as a predicate: on a doctype match the score is
`0.5`, otherwise the function falls off its end and returns Python
`None`. -/
def htmlAnalyseText (doctypeMatches : Chars → Bool) (t : Chars) : Option ℚ :=
  if doctypeMatches t then some (1/2) else none

/-- `ActionScriptLexer.analyse_text` (web.py lines 172-173): always
`0.05`.  (JavascriptLexer defines no `analyse_text` of its own.) -/
def asAnalyseText (_ : Chars) : ℚ := 1/20

/-- `XmlLexer.analyse_text` (web.py lines 866-868), with the external
collaborator `looks_like_xml` (pygments.util, outside this repository)
abstracted as a predicate: on an XML-looking sample the score is `0.5`,
otherwise the function falls off its end and returns Python `None`. -/
def xmlAnalyseText (looksLikeXml : Chars → Bool) (t : Chars) : Option ℚ :=
  if looksLikeXml t then some (1/2) else none

/-- `ActionScript3Lexer.analyse_text` (web.py lines 251-253): `0.3` on a
`\w+\s*:\s*\w` match at position 0, else `0.1` (this one is total). -/
def as3AnalyseText (t : Chars) : ℚ :=
  if (matchPat (seqL [Pat.plus (.cls pyWord), .star (.cls pySpace) false, strP ":",
                      .star (.cls pySpace) false, .cls pyWord]) t 0).isSome
  then 3/10 else 1/10

end Pyg

namespace Pyg

/-- Modelled from the spec: option lookup with a default (`get_bool_opt`
from pygments.util, outside this repository; the spec's "recognized
options with documented effects, validated and defaulted by the
table/engine wrapper").  An absent option yields the default. -/
def get_bool_opt (opts : String → Option Bool) (name : String) (dflt : Bool) : Bool :=
  (opts name).getD dflt

/-- `PhpLexer.__init__` (web.py lines 784-791): `startinline` is read
with default `False`, then overridden by the private `_startinline`
option when that is present. -/
def phpStartinline (opts : String → Option Bool) : Bool :=
  match opts "_startinline" with
  | some b => b
  | none => get_bool_opt opts "startinline" false

/-- The initial stack built by `PhpLexer.get_tokens_unprocessed`
(web.py lines 803-805): `stack = ['root']`, with `'php'` appended (i.e.
pushed on top) when `startinline` holds.  The head of the list is the
top of the stack in this development, so Python's `['root', 'php']` is
`["php", "root"]` here. -/
def phpInitialStack (startinline : Bool) : List String :=
  if startinline then ["php", "root"] else ["root"]

/-- `PhpLexer.__init__` (web.py lines 793-800): the activated builtin
function set; `MODULES` (pygments.lexers._phpbuiltins, outside this
repository) is abstracted as an association list. -/
def phpCollectFunctions (funcnamehighlighting : Bool) (disabledmodules : List String)
    (modules : List (String × List Chars)) : List Chars :=
  if funcnamehighlighting then
    (modules.filter (fun kv => !(disabledmodules.contains kv.1))).foldr
      (fun kv acc => kv.2 ++ acc) []
  else []

/-- The per-token rewrite of `PhpLexer.get_tokens_unprocessed`
(web.py lines 806-812): `Name.Other` tokens whose text is a collected
builtin are re-categorized as `Name.Builtin`; all else passes through. -/
def phpFilter (fns : List Chars) (tk : Token) : Token :=
  if tk.cat = Tok.NameOther ∧ tk.val ∈ fns then
    { tk with cat := Tok.NameBuiltin }
  else tk

/-- `PhpLexer.get_tokens_unprocessed` as a function of the underlying
engine run's token list. -/
def phpPostprocess (fns : List Chars) (ts : List Token) : List Token :=
  ts.map (phpFilter fns)

end Pyg

namespace Pyg

/-- Is a rule's action a plain whole-match emission? -/
def actIsEmit : Action → Bool
  | .emit _ => true
  | _ => false

theorem emit_RuleOK {r : Rule} (h : actIsEmit r.act = true) : RuleOK r := by
  constructor
  · intro f hf
    rw [hf] at h
    simp [actIsEmit] at h
  · intro l hl
    rw [hl] at h
    simp [actIsEmit] at h

theorem xml_root_emit :
    (XmlLexer.root.map (fun r => actIsEmit r.act)).all (fun b => b) = true := by decide

theorem xml_comment_emit :
    (XmlLexer.comment.map (fun r => actIsEmit r.act)).all (fun b => b) = true := by decide

theorem xml_tag_emit :
    (XmlLexer.tag.map (fun r => actIsEmit r.act)).all (fun b => b) = true := by decide

theorem xml_attr_emit :
    (XmlLexer.attr.map (fun r => actIsEmit r.act)).all (fun b => b) = true := by decide

/-- Every XmlLexer rule emits its whole match (no delegation, no
bygroups), so the table satisfies the coverage side conditions. -/
theorem xml_tableOK : TableOK XmlLexer.tokens := by
  intro s r hr
  apply emit_RuleOK
  unfold XmlLexer.tokens at hr
  split_ifs at hr
  · exact all_map_mem xml_root_emit hr
  · exact all_map_mem xml_comment_emit hr
  · exact all_map_mem xml_tag_emit hr
  · exact all_map_mem xml_attr_emit hr
  · simp at hr

end Pyg


namespace Pyg

/-- A sequence headed by a failing literal matches nothing. -/
theorem matchPat_seq_lit_none {s : Chars} {ci : Bool} (q : Pat) {t : Chars} {pos : Nat}
    (h : litAt s ci t pos = false) : matchPat (.seq (.lit s ci) q) t pos = none := by
  unfold matchPat
  simp [runF_seq, runF_lit, h]

/-- `cls+` on a text whose character at `pos` is the last one: exactly
the one-character match. -/
theorem matchPat_plus_cls_one {f : Char → Bool} {t : Chars} {pos : Nat} {c : Char}
    (hc : t[pos]? = some c) (hf : f c = true) (hend : t[pos + 1]? = none) :
    matchPat (Pat.plus (.cls f)) t pos = some (pos + 1, []) := by
  have hlt : pos < t.length := getElem?_lt hc
  unfold matchPat Pat.plus
  obtain ⟨k, hk⟩ : ∃ k, t.length + 1 - pos = k + 1 := ⟨t.length - pos, by omega⟩
  rw [hk]
  simp [runF_seq, runF_cls, hc, hf, runF_star_succ, hend]

theorem litAt_end_none {s : Chars} {ci : Bool} {t : Chars} {pos : Nat}
    (hs : s ≠ []) (hp : t.length ≤ pos) : litAt s ci t pos = false := by
  cases s with
  | nil => exact absurd rfl hs
  | cons c rest =>
    unfold litAt
    rw [List.getElem?_eq_none hp]

/-- A literal that consumes the rest of the text, a lazy class star, and
then a required non-empty literal: no match (XmlLexer's entity rule
`&\S*?;` on a lone ampersand). -/
theorem matchPat_entity_end {s : Chars} {ci : Bool} {f : Char → Bool} {s2 : Chars} {ci2 : Bool}
    {t : Chars} {pos : Nat}
    (h1 : litAt s ci t pos = true) (hp : pos ≤ t.length) (hlen : pos + s.length = t.length)
    (hs2 : s2 ≠ []) :
    matchPat (.seq (.lit s ci) (.seq (.star (.cls f) true) (.lit s2 ci2))) t pos = none := by
  unfold matchPat
  obtain ⟨k, hk⟩ : ∃ k, t.length + 1 - pos = k + 1 := ⟨t.length - pos, by omega⟩
  have hend : t[pos + s.length]? = none := by
    rw [hlen]
    exact List.getElem?_eq_none (le_refl _)
  have hlit2 : litAt s2 ci2 t (pos + s.length) = false :=
    litAt_end_none hs2 (by omega)
  rw [hk]
  simp [runF_seq, runF_lit, h1, runF_star_succ, runF_cls, hend, hlit2]

/-- Skip a rule whose pattern does not match. -/
theorem firstMatch_cons_none {p : Pat} {a : Action} {o : List SOp} {rest : List Rule}
    {t : Chars} {pos : Nat} (h : matchPat p t pos = none) :
    firstMatch (⟨p, a, o⟩ :: rest) t pos = firstMatch rest t pos := by
  rw [firstMatch_cons]
  simp only [h]

/-- Take a rule whose pattern matches. -/
theorem firstMatch_cons_some {p : Pat} {a : Action} {o : List SOp} {rest : List Rule}
    {t : Chars} {pos e : Nat} {g : GMap} (h : matchPat p t pos = some (e, g)) :
    firstMatch (⟨p, a, o⟩ :: rest) t pos = some (⟨p, a, o⟩, e, g) := by
  rw [firstMatch_cons]
  simp only [h]

/-- On a one-character text whose character is neither `<` nor `&`, the
first `root` rule of XmlLexer (the catch-all `[^<&]+`) matches it. -/
theorem xml_fm_single {c : Char} (h : ("<&".data.contains c) = false) :
    firstMatch (XmlLexer.tokens "root") [c] 0 =
      some (⟨Pat.plus (noneOf "<&"), .emit .Text, []⟩, 1, []) := by
  have h1 : matchPat (Pat.plus (noneOf "<&")) [c] 0 = some (1, []) :=
    matchPat_plus_cls_one rfl
      (by show (!"<&".data.contains c) = true; rw [h]; rfl) rfl
  show firstMatch XmlLexer.root [c] 0 = _
  unfold XmlLexer.root
  rw [firstMatch_cons_some h1]

/-- Scanning a benign one-character text: one `Text` token from the
catch-all rule and a completed run. -/
theorem xml_run_single {c : Char} (h : ("<&".data.contains c) = false) :
    runTok XmlLexer.tokens [c] 2 ⟨0, ["root"]⟩ =
      ([⟨0, Tok.Text, [c]⟩], ⟨1, ["root"]⟩, true) := by
  have hstep : stepTok XmlLexer.tokens [c] ⟨0, ["root"]⟩ =
      some ([⟨0, Tok.Text, [c]⟩], ⟨1, ["root"]⟩) := by
    have hm : firstMatch (XmlLexer.tokens ((⟨0, ["root"]⟩ : Cfg).stack.headD "root"))
        [c] (⟨0, ["root"]⟩ : Cfg).pos =
        some (⟨Pat.plus (noneOf "<&"), .emit .Text, []⟩, 1, []) := xml_fm_single h
    have h2 := stepTok_match (by simp) hm
      (by intro hcon; exact absurd hcon.1 one_ne_zero)
    rw [h2]
    rfl
  rw [runTok_succ_of_step 1 hstep]
  have hnone : stepTok XmlLexer.tokens [c] ⟨1, ["root"]⟩ = none :=
    stepTok_none_iff.mpr (by simp)
  simp [runTok, hnone]

theorem xml_fm_nul :
    firstMatch (XmlLexer.tokens "root") [Char.ofNat 0] 0 =
      some (⟨Pat.plus (noneOf "<&"), .emit .Text, []⟩, 1, []) :=
  xml_fm_single (by decide)

theorem xml_run_nul :
    runTok XmlLexer.tokens [Char.ofNat 0] 2 ⟨0, ["root"]⟩ =
      ([⟨0, Tok.Text, [Char.ofNat 0]⟩], ⟨1, ["root"]⟩, true) :=
  xml_run_single (by decide)

/-- No `root` rule of XmlLexer matches a lone ampersand. -/
theorem xml_fm_amp : firstMatch (XmlLexer.tokens "root") ['&'] 0 = none := by
  have h1 : matchPat (Pat.plus (noneOf "<&")) ['&'] 0 = none := by
    refine matchPat_plus_cls_none.mpr ?_
    intro ch hch
    have hc : ch = '&' := by simpa using hch.symm
    subst hc
    decide
  have h2 : matchPat (seqL [strP "&", .star (.cls (fun c => !pySpace c)) true, strP ";"])
      ['&'] 0 = none :=
    matchPat_entity_end (by decide) (by decide) (by decide) (by decide)
  have h3 : matchPat (seqL [strP "<![CDATA[", .star (.dot true) true, strP "]]>"])
      ['&'] 0 = none :=
    matchPat_seq_lit_none _ (by decide)
  have h4 : matchPat (strP "<!--") ['&'] 0 = none := by
    have hl : litAt "<!--".data false ['&'] 0 = false := by decide
    rw [show strP "<!--" = Pat.lit "<!--".data false from rfl, matchPat_lit, hl]
    rfl
  have h5 : matchPat (seqL [strP "<?", .star (.dot true) true, strP "?>"])
      ['&'] 0 = none :=
    matchPat_seq_lit_none _ (by decide)
  have h6 : matchPat (seqL [strP "<!", .star (noneOf ">") false, strP ">"])
      ['&'] 0 = none :=
    matchPat_seq_lit_none _ (by decide)
  have h7 : matchPat (seqL [strP "<", .star (.cls pySpace) false,
      Pat.plus (.cls XmlLexer.nameChar)]) ['&'] 0 = none :=
    matchPat_seq_lit_none _ (by decide)
  have h8 : matchPat (seqL [strP "<", .star (.cls pySpace) false, strP "/",
      .star (.cls pySpace) false, Pat.plus (.cls XmlLexer.nameChar),
      .star (.cls pySpace) false, strP ">"]) ['&'] 0 = none :=
    matchPat_seq_lit_none _ (by decide)
  show firstMatch XmlLexer.root ['&'] 0 = none
  unfold XmlLexer.root
  rw [firstMatch_cons_none h1, firstMatch_cons_none h2, firstMatch_cons_none h3,
    firstMatch_cons_none h4, firstMatch_cons_none h5, firstMatch_cons_none h6,
    firstMatch_cons_none h7, firstMatch_cons_none h8]
  rfl

/-- Scanning a lone ampersand: the one-character fallback, then done. -/
theorem xml_run_amp :
    runTok XmlLexer.tokens ['&'] 2 ⟨0, ["root"]⟩ =
      ([⟨0, Tok.Text, ['&']⟩], ⟨1, ["root"]⟩, true) := by
  have hstep : stepTok XmlLexer.tokens ['&'] ⟨0, ["root"]⟩ =
      some ([⟨0, Tok.Text, ['&']⟩], ⟨1, ["root"]⟩) := by
    have h := stepTok_fallback (by decide :
      (⟨0, ["root"]⟩ : Cfg).pos < (['&'] : Chars).length) xml_fm_amp
    rw [h]
    rfl
  rw [runTok_succ_of_step 1 hstep]
  have hnone : stepTok XmlLexer.tokens ['&'] ⟨1, ["root"]⟩ = none :=
    stepTok_none_iff.mpr (by decide)
  simp [runTok, hnone]

end Pyg

namespace Pyg

/-- C1: for every lexer table that satisfies the coverage side conditions
(delegates cover their input, bygroups actions tile their match — true in
particular of XmlLexer, all of whose rules emit their whole match), a
completed tokenize run reproduces the input exactly as the concatenation
of the emitted token texts, with contiguous offsets starting at 0
(`offset[i] + len(text[i]) = offset[i+1]`). -/
theorem C1_coverage {T : Table} (hT : TableOK T) (t : Chars) (stack : List String)
    (fuel : Nat) (hdone : (runTok T t fuel ⟨0, stack⟩).2.2 = true) :
    valsConcat (tokenize T t stack fuel) = t ∧
    offsetsChain (tokenize T t stack fuel) 0 t.length ∧
    (∀ (i : Nat) (hi : i + 1 < (tokenize T t stack fuel).length),
      ((tokenize T t stack fuel).get ⟨i, by omega⟩).pos +
        ((tokenize T t stack fuel).get ⟨i, by omega⟩).val.length =
      ((tokenize T t stack fuel).get ⟨i + 1, hi⟩).pos) := by
  obtain ⟨⟨hv, hc⟩, hle, hend⟩ := runTok_covers hT fuel ⟨0, stack⟩ (by simp)
  have he : (runTok T t fuel ⟨0, stack⟩).2.1.pos = t.length := hend hdone
  rw [he] at hv hc
  refine ⟨by simpa using hv, hc, ?_⟩
  intro i hi
  exact offsetsChain_index _ _ _ hc i hi

/-- C1 witness: the XML table on the concrete one-character input `x`: a
completed run whose tokens concatenate back to the input. -/
theorem C1_coverage_witness :
    (runTok XmlLexer.tokens ['x'] 2 ⟨0, ["root"]⟩).2.2 = true ∧
    valsConcat (tokenize XmlLexer.tokens ['x'] ["root"] 2) = ['x'] := by
  have hdone : (runTok XmlLexer.tokens ['x'] 2 ⟨0, ["root"]⟩).2.2 = true := by
    rw [xml_run_single (by decide)]
  exact ⟨hdone, (C1_coverage xml_tableOK ['x'] ["root"] 2 hdone).1⟩

end Pyg

namespace Pyg

/-- Every token of a delegated capture group's sub-run appears, shifted
by the group's start offset, in the `bygroups` emission. -/
theorem emitGroups_sub_mem {t : Chars} {g : GMap} {f : Chars → List Token} {s e : Nat} :
    ∀ (l : List GAct) (i j : Nat), l[j]? = some (.sub f) →
      groupSpan g (i + j) = some (s, e) →
      ∀ tk ∈ f (slice t s e),
        (⟨tk.pos + s, tk.cat, tk.val⟩ : Token) ∈ emitGroups t g l i := by
  intro l
  induction l with
  | nil => intro i j hj; simp at hj
  | cons ga rest ih =>
    intro i j hj hg tk htk
    cases j with
    | zero =>
      have hga : ga = GAct.sub f := by simpa using hj
      subst hga
      simp only [Nat.add_zero] at hg
      simp only [emitGroups, hg]
      refine List.mem_append_left _ ?_
      unfold shiftTokens
      exact List.mem_map_of_mem _ htk
    | succ j2 =>
      have hj2 : rest[j2]? = some (GAct.sub f) := by simpa using hj
      have hg2 : groupSpan g ((i + 1) + j2) = some (s, e) := by
        rw [show (i + 1) + j2 = i + (j2 + 1) by omega]
        exact hg
      have hmem := ih (i + 1) j2 hj2 hg2 tk htk
      rcases hgi : groupSpan g i with _ | ⟨s0, e0⟩
      · simp only [emitGroups, hgi]
        exact hmem
      · cases ga with
        | tok c0 =>
          simp only [emitGroups, hgi]
          by_cases hse : s0 < e0
          · rw [if_pos hse]
            exact List.mem_cons_of_mem _ hmem
          · rw [if_neg hse]
            exact hmem
        | sub f2 =>
          simp only [emitGroups, hgi]
          exact List.mem_append_right _ hmem

/-- C2: delegation to a sub-lexer (the sub-lexer abstracted as its token
function per the encapsulation contract) in both source forms.  A rule
whose whole match is delegated (`using(...)` as the action) emits exactly
the sub-lexer's tokens on the bare matched substring, each shifted by the
match's start offset.  A rule delegating a capture group's text
(`using(...)` inside `bygroups(...)`, as in MxmlLexer's CDATA rule) emits
the `bygroups` sequence, in which every token of the group's sub-run
appears shifted by the group's start offset.  In both cases the outer
machine is left exactly as an ordinary emitting rule would leave it:
position at the match end, stack transformed by the rule's own stack
operations only — nothing of the sub-run's state leaks back. -/
theorem C2_delegation {T : Table} {t : Chars} {c : Cfg} {r : Rule} {stop : Nat}
    {g : GMap}
    (hlt : c.pos < t.length)
    (hm : firstMatch (T (c.stack.headD "root")) t c.pos = some (r, stop, g))
    (hpr : ¬(stop = c.pos ∧ applyOps r.ops c.stack = c.stack)) :
    (∀ f : Chars → List Token, r.act = .delegate f →
      stepTok T t c =
        some (shiftTokens c.pos (f (slice t c.pos stop)), ⟨stop, applyOps r.ops c.stack⟩) ∧
      ∀ tk ∈ f (slice t c.pos stop),
        (⟨tk.pos + c.pos, tk.cat, tk.val⟩ : Token) ∈
          shiftTokens c.pos (f (slice t c.pos stop))) ∧
    (∀ l : List GAct, r.act = .byGroups l →
      stepTok T t c =
        some (emitGroups t g l 1, ⟨stop, applyOps r.ops c.stack⟩) ∧
      ∀ (j : Nat) (f : Chars → List Token), l[j]? = some (.sub f) →
        ∀ s e : Nat, groupSpan g (1 + j) = some (s, e) →
          ∀ tk ∈ f (slice t s e),
            (⟨tk.pos + s, tk.cat, tk.val⟩ : Token) ∈ emitGroups t g l 1) := by
  constructor
  · intro f hact
    constructor
    · have h := stepTok_match hlt hm hpr
      rw [h, hact]
      simp [emitAction]
    · intro tk htk
      unfold shiftTokens
      exact List.mem_map_of_mem _ htk
  · intro l hact
    constructor
    · have h := stepTok_match hlt hm hpr
      rw [h, hact]
      simp [emitAction]
    · intro j f hj s e hg tk htk
      exact emitGroups_sub_mem l 1 j hj hg tk htk

/-- The specification's delegation example: one rule that matches `xyz`
and delegates it to a sub-lexer emitting the whole string as one token
at sub-offset 0. -/
def dlgTable : Table := fun _ => [⟨strP "xyz", .delegate (fun s => [⟨0, Tok.Str, s⟩]), []⟩]

/-- A capture-group delegation rule in the shape of MxmlLexer's CDATA
rule: a `bygroups` action whose second group is handed to a sub-lexer. -/
def bgTable : Table := fun _ =>
  [⟨.seq (.grp 1 (strP "A")) (.grp 2 (strP "xyz")),
    .byGroups [.tok Tok.Name, .sub (fun s => [⟨0, Tok.Str, s⟩])], []⟩]

/-- C2 witness: the specification's offset test, in both delegation
forms.  On `Axyz`, a rule delegating its whole match `xyz` (at outer
offset 1) produces the sub-token at offset 1; a `bygroups` rule
delegating its second capture group `xyz` produces the group's sub-token
at the group's offset 1, after the first group's own token. -/
theorem C2_delegation_witness :
    stepTok dlgTable "Axyz".data ⟨1, ["root"]⟩ =
      some ([⟨1, Tok.Str, "xyz".data⟩], ⟨4, ["root"]⟩) ∧
    stepTok bgTable "Axyz".data ⟨0, ["root"]⟩ =
      some ([⟨0, Tok.Name, "A".data⟩, ⟨1, Tok.Str, "xyz".data⟩], ⟨4, ["root"]⟩) ∧
    (⟨0 + 1, Tok.Str, "xyz".data⟩ : Token) ∈
      emitGroups "Axyz".data [(2, 1, 4), (1, 0, 1)]
        [.tok Tok.Name, .sub (fun s => [⟨0, Tok.Str, s⟩])] 1 := by
  have hm : firstMatch (dlgTable ((⟨1, ["root"]⟩ : Cfg).stack.headD "root"))
      "Axyz".data (⟨1, ["root"]⟩ : Cfg).pos =
      some (⟨strP "xyz", .delegate (fun s => [⟨0, Tok.Str, s⟩]), []⟩, 4, []) := by
    simp [dlgTable, firstMatch, matchPat, strP, litAt, chEq]
  have hlt : (⟨1, ["root"]⟩ : Cfg).pos < "Axyz".data.length := by decide
  have hpr : ¬((4 : Nat) = (⟨1, ["root"]⟩ : Cfg).pos ∧
      applyOps (⟨strP "xyz", .delegate (fun s => [⟨0, Tok.Str, s⟩]), []⟩ : Rule).ops
        (⟨1, ["root"]⟩ : Cfg).stack = (⟨1, ["root"]⟩ : Cfg).stack) := by
    simp [applyOps]
  have hm2 : firstMatch (bgTable ((⟨0, ["root"]⟩ : Cfg).stack.headD "root"))
      "Axyz".data (⟨0, ["root"]⟩ : Cfg).pos =
      some (⟨.seq (.grp 1 (strP "A")) (.grp 2 (strP "xyz")),
        .byGroups [.tok Tok.Name, .sub (fun s => [⟨0, Tok.Str, s⟩])], []⟩,
        4, [(2, 1, 4), (1, 0, 1)]) := by
    simp [bgTable, firstMatch, matchPat, strP, litAt, chEq]
  have hlt2 : (⟨0, ["root"]⟩ : Cfg).pos < "Axyz".data.length := by decide
  have hpr2 : ¬((4 : Nat) = (⟨0, ["root"]⟩ : Cfg).pos ∧
      applyOps (⟨.seq (.grp 1 (strP "A")) (.grp 2 (strP "xyz")),
        .byGroups [.tok Tok.Name, .sub (fun s => [⟨0, Tok.Str, s⟩])], []⟩ : Rule).ops
        (⟨0, ["root"]⟩ : Cfg).stack = (⟨0, ["root"]⟩ : Cfg).stack) := by
    simp [applyOps]
  have hbg := (C2_delegation hlt2 hm2 hpr2).2 _ rfl
  refine ⟨?_, ?_, ?_⟩
  · have h := ((C2_delegation hlt hm hpr).1 _ rfl).1
    rw [h]
    simp [shiftTokens, slice, applyOps]
  · rw [hbg.1]
    rfl
  · exact hbg.2 1 (fun s => [⟨0, Tok.Str, s⟩]) rfl 1 4 rfl
      ⟨0, Tok.Str, slice "Axyz".data 1 4⟩ (List.mem_cons_self _ _)

end Pyg

namespace Pyg

/-- C3: with a pending block state `bs` (a non-empty name) and remembered
block indentation `bi`, the `_indentation` callback pushes `bs` exactly
when the new indentation literally starts with `bi` and is strictly
longer; otherwise it clears the pending block data and pushes `content`
instead. -/
theorem C3_indentation_block (m : Chars) (s e : Nat) (cx : ECtx) (bs : String) (bi : Chars)
    (hbs : cx.blockState = some bs) (hne : (bs == "") = false)
    (hbi : cx.blockIndentation = some bi) :
    ((bi.isPrefixOf m = true ∧ bi.length < m.length) →
      (_indentation m s e cx).2.stack = bs :: cx.stack ∧
      (_indentation m s e cx).2.blockState = some bs) ∧
    (¬(bi.isPrefixOf m = true ∧ bi.length < m.length) →
      (_indentation m s e cx).2.stack = "content" :: cx.stack ∧
      (_indentation m s e cx).2.blockState = none ∧
      (_indentation m s e cx).2.blockIndentation = none) := by
  obtain ⟨p, st, li, bso, bio⟩ := cx
  simp only at hbs hbi
  subst hbs
  subst hbi
  constructor
  · intro ⟨hp, hlen⟩
    have hmne : m ≠ bi := by
      intro hcon
      rw [hcon] at hlen
      omega
    have hcond : (bs != "" && (bi.isPrefixOf m) && (m != bi)) = true := by
      have h1 : (bs != "") = true := by simp [bne] at hne ⊢; exact hne
      have h2 : (m != bi) = true := bne_iff_ne.mpr hmne
      rw [h1, hp, h2]
      rfl
    simp only [_indentation, Option.getD_some]
    rw [if_pos hcond]
    exact ⟨rfl, rfl⟩
  · intro hnp
    have hcond : (bs != "" && (bi.isPrefixOf m) && (m != bi)) = false := by
      by_cases hp : bi.isPrefixOf m = true
      · have hle : bi.length ≤ m.length :=
          (List.isPrefixOf_iff_prefix.mp hp).length_le
        have heq : bi.length = m.length := by
          rcases Nat.lt_or_ge bi.length m.length with hlt | hge
          · exact absurd ⟨hp, hlt⟩ hnp
          · omega
        have hm : m = bi :=
          ((List.isPrefixOf_iff_prefix.mp hp).eq_of_length heq).symm
        have : (m != bi) = false := by simp [hm]
        rw [hp, this]
        simp
      · have : bi.isPrefixOf m = false := by
          cases hb : bi.isPrefixOf m
          · rfl
          · exact absurd hb hp
        rw [this]
        simp
    simp only [_indentation, Option.getD_some]
    rw [if_neg (by rw [hcond]; simp)]
    exact ⟨rfl, rfl, rfl⟩

/-- C3 witness: four-space indentation under a pending single-comment
block remembered at two spaces enters the block; two-space indentation
(equal, not strictly longer) pops back to content and clears the pending
data. -/
theorem C3_indentation_block_witness :
    (_indentation "    ".data 0 4
      ⟨0, ["content", "root"], none, some "single-comment", some "  ".data⟩).2.stack =
      "single-comment" :: ["content", "root"] ∧
    (_indentation "  ".data 0 2
      ⟨0, ["content", "root"], none, some "single-comment", some "  ".data⟩).2.stack =
      "content" :: ["content", "root"] := by
  constructor
  · exact (C3_indentation_block "    ".data 0 4
      ⟨0, ["content", "root"], none, some "single-comment", some "  ".data⟩
      "single-comment" "  ".data rfl rfl rfl).1 ⟨by decide, by decide⟩ |>.1
  · exact ((C3_indentation_block "  ".data 0 2
      ⟨0, ["content", "root"], none, some "single-comment", some "  ".data⟩
      "single-comment" "  ".data rfl rfl rfl).2 (by decide)).1

end Pyg

namespace Pyg

/-- C4 (corrected): the engine's fallback is as specified — when no rule
of the current state matches, one generic `Text` token covering exactly
one character is emitted and the position advances by one (the run never
fails).  The claim's XmlLexer example is wrong, however: a NUL byte IS
matched by the ordinary catch-all rule `[^<&]+` of the `root` state, so
the single one-byte `Text` token it yields comes from a rule match, not
from the fallback path; a lone `&` is a genuine no-match input that
exercises the fallback and still completes in one one-byte token. -/
theorem C4_fallback :
    (∀ (T : Table) (t : Chars) (c : Cfg), c.pos < t.length →
      firstMatch (T (c.stack.headD "root")) t c.pos = none →
      stepTok T t c =
        some ([⟨c.pos, Tok.Text, slice t c.pos (c.pos + 1)⟩], ⟨c.pos + 1, c.stack⟩) ∧
      (slice t c.pos (c.pos + 1)).length = 1) ∧
    (firstMatch (XmlLexer.tokens "root") [Char.ofNat 0] 0).isSome = true ∧
    tokenize XmlLexer.tokens [Char.ofNat 0] ["root"] 2 = [⟨0, Tok.Text, [Char.ofNat 0]⟩] ∧
    (runTok XmlLexer.tokens [Char.ofNat 0] 2 ⟨0, ["root"]⟩).2.2 = true ∧
    firstMatch (XmlLexer.tokens "root") ['&'] 0 = none ∧
    tokenize XmlLexer.tokens ['&'] ["root"] 2 = [⟨0, Tok.Text, ['&']⟩] ∧
    (runTok XmlLexer.tokens ['&'] 2 ⟨0, ["root"]⟩).2.2 = true := by
  refine ⟨?_, ?_, ?_, ?_, xml_fm_amp, ?_, ?_⟩
  · intro T t c hlt hm
    refine ⟨stepTok_fallback hlt hm, ?_⟩
    rw [slice_length (by omega) (by omega)]
    omega
  · rw [xml_fm_nul]
    rfl
  · unfold tokenize
    rw [xml_run_nul]
  · rw [xml_run_nul]
  · unfold tokenize
    rw [xml_run_amp]
  · rw [xml_run_amp]

/-- C4 counterexample: the claim's premise that no XmlLexer rule matches
a NUL byte is false — the very first `root` rule, the catch-all
`[^<&]+`, matches it. -/
theorem C4_counterexample :
    (firstMatch (XmlLexer.tokens "root") [Char.ofNat 0] 0).isSome = true := by
  rw [xml_fm_nul]
  rfl

/-- C4 witness: the fallback applied concretely to the lone-`&` input
XmlLexer genuinely cannot match. -/
theorem C4_fallback_witness :
    stepTok XmlLexer.tokens ['&'] ⟨0, ["root"]⟩ =
      some ([⟨0, Tok.Text, ['&']⟩], ⟨1, ["root"]⟩) := by
  have h := (C4_fallback.1 XmlLexer.tokens ['&'] ⟨0, ["root"]⟩ (by decide) xml_fm_amp).1
  rw [h]
  rfl

/-- C5: the state stack is never empty during a run — reachability
preserves non-emptiness — and a pop of at least as many states as sit
above the root is clamped to leave exactly the root (last) state. -/
theorem C5_stack_nonempty :
    (∀ (T : Table) (t : Chars) (a b : Cfg), Reach T t a b → a.stack ≠ [] → b.stack ≠ []) ∧
    (∀ (n : Nat) (st : List String), st ≠ [] → applyOp (.pop n) st ≠ []) ∧
    (∀ (n : Nat) (st : List String) (h : st ≠ []), st.length - 1 ≤ n →
      applyOp (.pop n) st = [st.getLast h]) := by
  refine ⟨fun T t a b hR ha => hR.stack_ne_nil ha, ?_, ?_⟩
  · intro n st h
    exact applyOp_ne_nil _ _ h
  · intro n st h hn
    exact applyOp_pop_clamp n st h hn

/-- C5 witness: `#pop:2` (as in ActionScript3Lexer's `type` state and
HamlLexer's `tag` state) applied to a stack with one state above the
root pops back exactly to the root and leaves the stack non-empty. -/
theorem C5_stack_nonempty_witness :
    applyOp (.pop 2) ["type", "root"] = ["root"] ∧
    applyOp (.pop 2) ["type", "root"] ≠ [] := by
  constructor
  · have h := C5_stack_nonempty.2.2 2 ["type", "root"] (by simp) (by simp)
    simpa using h
  · exact C5_stack_nonempty.2.1 2 ["type", "root"] (by simp)

/-- C6: tokenize terminates on every finite input.  Fuel linear in the
text length always completes the scan for the two tables with the cited
always-popping/pushing zero-width rules: JavascriptLexer (the
`(r'', Text, '#pop')` rule of `slashstartsregex`) and SassLexer (the
`(r'', Text, 'selector')` rule of `content`); zero-width matches that
change nothing are treated as no-match by the engine and fall through to
the advancing one-character fallback. -/
theorem C6_termination (t : Chars) :
    (runTok JavascriptLexer.tokens t (4 * t.length + 4) ⟨0, ["root"]⟩).2.2 = true ∧
    (runTokE SassLexer.tokens t (4 * t.length + 4) ⟨0, ["root"], none, none, none⟩).2.2
      = true :=
  ⟨js_tokenize_finite t, sass_tokenize_finite t⟩

/-- C7: CssLexer's `root` state is exactly `[include('basics')]`, and the
resolved table tokenizes every input identically to the variant whose
`root` rule list is the `basics` rule list inlined. -/
theorem C7_include_inlining (t : Chars) (stack : List String) (fuel : Nat) :
    CssLexer.tokensRaw "root" = [Entry.incl "basics"] ∧
    tokenize CssLexer.tokens t stack fuel = tokenize CssLexer.tokensInl t stack fuel := by
  refine ⟨rfl, ?_⟩
  unfold tokenize
  rw [runTok_ext css_tokens_eq]

end Pyg

namespace Pyg

/-- C8 (corrected): the `analyse_text` heuristics are pure, but not all
of them return a score in [0,1]: PhpLexer's, ActionScriptLexer's and
ActionScript3Lexer's are total with values in [0,1]; ObjectiveJLexer's
returns a Boolean (`True`/`False`, numerically 1/0); HtmlLexer's,
XmlLexer's and HaxeLexer's fall off the end of the function on a
non-matching input and return Python `None` — no score at all. -/
theorem C8_analyse_text :
    (∀ t : Chars, 0 ≤ phpAnalyseText t ∧ phpAnalyseText t ≤ 1) ∧
    (∀ t : Chars, 0 ≤ asAnalyseText t ∧ asAnalyseText t ≤ 1) ∧
    (∀ t : Chars, 0 ≤ as3AnalyseText t ∧ as3AnalyseText t ≤ 1) ∧
    (∀ t : Chars, objjAnalyseText t = true ∨ objjAnalyseText t = false) ∧
    (∀ t : Chars, haxeAnalyseText t = none ∨ haxeAnalyseText t = some (3/10)) ∧
    (∀ (dm : Chars → Bool) (t : Chars),
      htmlAnalyseText dm t = none ∨ htmlAnalyseText dm t = some (1/2)) ∧
    (∀ (lx : Chars → Bool) (t : Chars),
      xmlAnalyseText lx t = none ∨ xmlAnalyseText lx t = some (1/2)) ∧
    haxeAnalyseText [] = none ∧
    htmlAnalyseText (fun _ => false) [] = none ∧
    xmlAnalyseText (fun _ => false) [] = none := by
  refine ⟨?_, ?_, ?_, ?_, ?_, ?_, ?_, ?_, rfl, rfl⟩
  · intro t
    unfold phpAnalyseText
    split_ifs <;> norm_num
  · intro t
    unfold asAnalyseText
    norm_num
  · intro t
    unfold as3AnalyseText
    split_ifs <;> norm_num
  · intro t
    cases h : objjAnalyseText t
    · exact Or.inr rfl
    · exact Or.inl rfl
  · intro t
    unfold haxeAnalyseText
    split_ifs
    · exact Or.inr rfl
    · exact Or.inl rfl
  · intro dm t
    unfold htmlAnalyseText
    split_ifs
    · exact Or.inr rfl
    · exact Or.inl rfl
  · intro lx t
    unfold xmlAnalyseText
    split_ifs
    · exact Or.inr rfl
    · exact Or.inl rfl
  · simp [haxeAnalyseText, matchPat, seqL, strP, Pat.plus, runF_star_succ, litAt]

/-- C8 counterexample: HaxeLexer's `analyse_text` on the empty input
matches nothing and returns no score at all, refuting "returns a
confidence score in [0,1]" as stated for every heuristic. -/
theorem C8_counterexample : haxeAnalyseText [] = none := by
  simp [haxeAnalyseText, matchPat, seqL, strP, Pat.plus, runF_star_succ, litAt]

/-- C9: `startinline` is read with default `False` (absent or false means
false), and the initial scanning stack has the `php` state already on top
of `root` exactly when it is true.  The head of the stack list is its
top here, so Python's `['root', 'php']` is `["php", "root"]`. -/
theorem C9_php_startinline (opts : String → Option Bool)
    (hpriv : opts "_startinline" = none) :
    (opts "startinline" = none → phpStartinline opts = false ∧
      phpInitialStack (phpStartinline opts) = ["root"]) ∧
    (opts "startinline" = some false → phpStartinline opts = false ∧
      phpInitialStack (phpStartinline opts) = ["root"]) ∧
    (opts "startinline" = some true → phpStartinline opts = true ∧
      phpInitialStack (phpStartinline opts) = ["php", "root"]) := by
  unfold phpStartinline get_bool_opt phpInitialStack
  rw [hpriv]
  refine ⟨fun h => ?_, fun h => ?_, fun h => ?_⟩ <;> rw [h] <;> exact ⟨rfl, rfl⟩

/-- C9 witness: with no options given at all, `startinline` defaults to
false and the initial stack is just the root state. -/
theorem C9_php_startinline_witness :
    phpStartinline (fun _ => none) = false ∧
    phpInitialStack (phpStartinline (fun _ => none)) = ["root"] :=
  (C9_php_startinline (fun _ => none) rfl).1 rfl

/-- C10: the PhpLexer wrapper is a per-token frame: it keeps length,
order, offsets and texts of the underlying run's tokens, re-categorizing
exactly the `Name.Other` tokens whose text is a collected builtin as
`Name.Builtin`; with `funcnamehighlighting` off the collected set is
empty and every token passes through unchanged. -/
theorem C10_php_frame (fns : List Chars) (ts : List Token) :
    (phpPostprocess fns ts).length = ts.length ∧
    (∀ i : Nat, (phpPostprocess fns ts)[i]? = (ts[i]?).map (phpFilter fns)) ∧
    (∀ tk : Token, (phpFilter fns tk).pos = tk.pos ∧ (phpFilter fns tk).val = tk.val ∧
      (phpFilter fns tk).cat =
        (if tk.cat = Tok.NameOther ∧ tk.val ∈ fns then Tok.NameBuiltin else tk.cat)) ∧
    (∀ (dis : List String) (mods : List (String × List Chars)),
      phpCollectFunctions false dis mods = []) ∧
    phpPostprocess [] ts = ts := by
  refine ⟨by simp [phpPostprocess], ?_, ?_, fun dis mods => rfl, ?_⟩
  · intro i
    simp [phpPostprocess]
  · intro tk
    unfold phpFilter
    split_ifs with h
    · exact ⟨rfl, rfl, rfl⟩
    · exact ⟨rfl, rfl, rfl⟩
  · unfold phpPostprocess
    have h : ∀ tk : Token, phpFilter [] tk = tk := by
      intro tk
      unfold phpFilter
      rw [if_neg (by simp)]
    calc ts.map (phpFilter []) = ts.map id := List.map_congr_left (fun tk _ => h tk)
      _ = ts := List.map_id ts

end Pyg
